import Mathlib

/-!
# Scheduler: FCFS and Round-Robin burst scheduling

A shallow embedding of `schedule.cpp` (`parse_process`, `sortQ`, `round_robin`,
`fcfs`) and of the two reporting calls of `log.c`, followed by theorems about the
parser, the sort and the simulation loops.

Conventions of the embedding.

* A `deque<Burst>` is a `List Burst`, a `deque<deque<Burst>>` is a list of those;
  `front()` is the head, `push_back` appends, `pop_front` drops the head.
* `int` values are `Int`. The results that can leave the range of a 32-bit `int`
  (the sums kept in `total_time`, `ioExecutedTimes`, `cpuExecutedTimes`, and the
  differences that give `totalWaitTime`) are reduced by `wrap32` to the
  two's-complement value that the compiled program holds (signed overflow, which
  C++ leaves undefined, wraps around in the compiled program). Burst durations
  are only compared and decreased towards zero, which stays inside the range.
  Process ids index the per-process arrays and are `Nat`.
* The arrays `ioExecutedTimes`, `cpuExecutedTimes` are lists of length
  `processes.size()`; `finished` together with its fill index `f` is the list of
  the records written so far (`f` is its length).
* An operation whose behaviour C++ leaves undefined (`front()` of an empty
  container, an array index out of range) makes the enclosing function return
  `none`; so does running out of loop fuel.
* The calls of `log_cpuburst_execution` are collected, in order, in `trace`.
* `parse_process` is embedded on the integer tokens of each line of the file, as
  written there; the extraction `ss >> val` into the `int val` fails on a token
  outside the range of `int`, which ends the reading of that line. Opening the
  file and splitting a line into tokens are not modelled.
* The functions named `...Exact` are not part of the program: they compute the
  same iteration in exact integers. The program's run is the image under
  `wrapState` of the exact run (`rrStep_wrap`, `fcfsStep_wrap`), which is how the
  properties of the queues are carried over and how the properties of the
  counters are obtained when the exact values fit in an `int`.
-/

namespace Scheduler

/-- Burst type, `enum bt {CPU, IO}` of `schedule.h`; the enumerator `IO` is written
`IO_` here, the plain name being taken in Lean. -/
inductive bt where
  | CPU
  | IO_
deriving DecidableEq, Repr

/-- The `struct Burst` of `schedule.h`. -/
structure Burst where
  id : Nat
  duration : Int
  burst_type : bt
deriving DecidableEq, Repr

/-- The `struct completionLog` of `schedule.h`. -/
structure completionLog where
  id : Nat
  completionTime : Int
  totalWaitTime : Int
deriving DecidableEq, Repr

/-- Modelled from the spec: the enumeration `ExecutionStopReasonType` is declared in
`log.h`, which is not among the sources; its three values are the names used in
`schedule.cpp`, printed by `log.c` as `enter io`, `quantum expired`, `completed`. -/
inductive ExecutionStopReasonType where
  | ENTER_IO
  | QUANTUM_EXPIRED
  | COMPLETED
deriving DecidableEq, Repr

open ExecutionStopReasonType

/-- One call `log_cpuburst_execution (procID, cpuExecutedTime, ioExecutedTime,
totalElapsedTime, stopReason)`. -/
structure CpuEvent where
  procID : Nat
  cpuExecutedTime : Int
  ioExecutedTime : Int
  totalElapsedTime : Int
  stopReason : ExecutionStopReasonType
deriving DecidableEq, Repr

/-- The variables of the simulation loop of `round_robin` and of `fcfs`. -/
structure SimState where
  readyQ : List (List Burst)
  blockedQ : List (List Burst)
  ioExecutedTimes : List Int
  cpuExecutedTimes : List Int
  total_time : Int
  finished : List completionLog
  trace : List CpuEvent
deriving DecidableEq, Repr

/-- The comparator handed to `std::stable_sort` in `sortQ`. -/
def sortQ_less (a b : List Burst) : Bool :=
  match a, b with
  | x :: _, y :: _ => decide (x.duration < y.duration)
  | [], _ => true
  | _ :: _, [] => false

/-- Stable insertion of one entry into a sorted queue: `x` goes in front of the
first entry that `x` is less than, hence behind every entry it ties with. -/
def stableInsert (x : List Burst) : List (List Burst) → List (List Burst)
  | [] => [x]
  | y :: ys => if sortQ_less x y then x :: y :: ys else y :: stableInsert x ys

/-- The function `sortQ`: a stable sort of the blocked queue by `sortQ_less`
(`std::stable_sort` on a copy, copied back). The entries are inserted from left
to right, each behind the entries it is not less than. -/
def sortQ (blockedQ : List (List Burst)) : List (List Burst) :=
  blockedQ.foldl (fun acc x => stableInsert x acc) []

/-- The largest value of a 32-bit `int`. -/
def INT_MAX : Int := 2147483647

/-- The smallest value of a 32-bit `int`. -/
def INT_MIN : Int := -2147483648

/-- The value a 32-bit two's-complement `int` holds when the exact result of an
addition or subtraction is `x`: the representative of `x` modulo `2^32` in
`INT_MIN .. INT_MAX`. -/
def wrap32 (x : Int) : Int := (x + 2147483648) % 4294967296 - 2147483648

/-- The statement `a[i] += v` on an array of `int`; `none` when `i` is out of range. -/
def addAt (a : List Int) (i : Nat) (v : Int) : Option (List Int) :=
  if i < a.length then some (a.set i (wrap32 (a.getD i 0 + v))) else none

/-- The range-for over `blockedQ` of both loops: every entry's head burst is
decremented by `elapsed_time`, floored at zero, and the amount taken is added to
`ioExecutedTimes` of the burst's id. -/
def ioPass (elapsed_time : Int) :
    List (List Burst) → List Int → Option (List (List Burst) × List Int)
  | [], io => some ([], io)
  | [] :: _, _ => none
  | (b :: bs) :: rest, io =>
    if b.duration ≤ elapsed_time then
      (addAt io b.id b.duration).bind fun io1 =>
        (ioPass elapsed_time rest io1).map fun r =>
          (({ b with duration := 0 } :: bs) :: r.1, r.2)
    else
      (addAt io b.id elapsed_time).bind fun io1 =>
        (ioPass elapsed_time rest io1).map fun r =>
          (({ b with duration := b.duration - elapsed_time } :: bs) :: r.1, r.2)

/-- The loop `for (int i = 0; i < blockedQ.size(); i++)` of both schedulers, from
a given `i`: when the head burst of the front entry has duration zero it is
popped and the entry moves to the back of `readyQ`. The size is re-read at every
test, so `i` meets it early when entries are removed. The first argument bounds
the number of iterations; `blockedQ.size()` is always enough (`promoteLoop_fuel`). -/
def promoteLoop : Nat → Nat → List (List Burst) → List (List Burst) →
    Option (List (List Burst) × List (List Burst))
  | 0, _, blockedQ, readyQ => some (blockedQ, readyQ)
  | fuel + 1, i, blockedQ, readyQ =>
    if i < blockedQ.length then
      match blockedQ with
      | [] => some (blockedQ, readyQ)
      | [] :: _ => none
      | (b :: bs) :: rest =>
        if b.duration = 0 then promoteLoop fuel (i + 1) rest (readyQ ++ [bs])
        else promoteLoop fuel (i + 1) blockedQ readyQ
    else some (blockedQ, readyQ)

/-- The branch `if (readyQ.empty())` of both loops: time advances by the head
duration of the front blocked entry. -/
def starve (s : SimState) : Option SimState :=
  match s.blockedQ with
  | [] => none
  | [] :: _ => none
  | (b :: _) :: _ =>
    let elapsed_time := b.duration
    (ioPass elapsed_time s.blockedQ s.ioExecutedTimes).bind fun p =>
      (promoteLoop p.1.length 0 p.1 s.readyQ).map fun q =>
        { s with
          blockedQ := q.1
          readyQ := q.2
          ioExecutedTimes := p.2
          total_time := wrap32 (s.total_time + elapsed_time) }

/-- The part of a dispatch iteration that reads the same in both loops, from
the test `if (!blockedQ.empty())` to the end of the `switch`. On entry the head
burst of the front ready entry has been charged: `readyQ` and `cpu` are the ready
queue and the array `cpuExecutedTimes` after that, `id` is `cpu_burst->id`. The
three arrays have `processes.size()` elements, so `finished[f]` is in range when
`f` is below `cpu.length`. The `switch` of `fcfs` has no case `QUANTUM_EXPIRED`;
`fcfsStep` never passes that reason. -/
def finishDispatch (s : SimState) (readyQ : List (List Burst)) (cpu : List Int)
    (id : Nat) (elapsed_time : Int) (stopReason : ExecutionStopReasonType) :
    Option SimState :=
  (if s.blockedQ.isEmpty then some ((s.blockedQ, readyQ), s.ioExecutedTimes)
   else
    (ioPass elapsed_time s.blockedQ s.ioExecutedTimes).bind fun p =>
      (promoteLoop p.1.length 0 p.1 readyQ).map fun q => (q, p.2)).bind fun r =>
  let blockedQ := r.1.1
  let readyQ := r.1.2
  let io := r.2
  let total_time := wrap32 (s.total_time + elapsed_time)
  if id < cpu.length ∧ id < io.length then
    let ev : CpuEvent :=
      { procID := id
        cpuExecutedTime := cpu.getD id 0
        ioExecutedTime := io.getD id 0
        totalElapsedTime := total_time
        stopReason := stopReason }
    match readyQ with
    | [] => none
    | front :: others =>
      match stopReason with
      | QUANTUM_EXPIRED =>
        some { readyQ := others ++ [front], blockedQ := blockedQ,
               ioExecutedTimes := io, cpuExecutedTimes := cpu,
               total_time := total_time, finished := s.finished,
               trace := s.trace ++ [ev] }
      | ENTER_IO =>
        match front with
        | [] => none
        | _ :: remaining =>
          some { readyQ := others, blockedQ := sortQ (blockedQ ++ [remaining]),
                 ioExecutedTimes := io, cpuExecutedTimes := cpu,
                 total_time := total_time, finished := s.finished,
                 trace := s.trace ++ [ev] }
      | COMPLETED =>
        if s.finished.length < cpu.length then
          some { readyQ := others, blockedQ := blockedQ,
                 ioExecutedTimes := io, cpuExecutedTimes := cpu,
                 total_time := total_time,
                 finished := s.finished ++
                   [{ id := id, completionTime := total_time,
                      totalWaitTime :=
                        wrap32 (wrap32 (total_time - cpu.getD id 0) - io.getD id 0) }],
                 trace := s.trace ++ [ev] }
        else none
  else none

/-- One iteration of the `while` loop of `round_robin`. -/
def rrStep (quantum : Int) (s : SimState) : Option SimState :=
  match s.readyQ with
  | [] => starve s
  | [] :: _ => none
  | (b :: bs) :: rest =>
    if b.duration ≤ quantum then
      (addAt s.cpuExecutedTimes b.id b.duration).bind fun cpu =>
        finishDispatch s (({ b with duration := 0 } :: bs) :: rest) cpu b.id b.duration
          (if (b :: bs).length ≠ 1 then ENTER_IO else COMPLETED)
    else
      (addAt s.cpuExecutedTimes b.id quantum).bind fun cpu =>
        finishDispatch s (({ b with duration := b.duration - quantum } :: bs) :: rest)
          cpu b.id quantum QUANTUM_EXPIRED

/-- One iteration of the `while` loop of `fcfs`. -/
def fcfsStep (s : SimState) : Option SimState :=
  match s.readyQ with
  | [] => starve s
  | [] :: _ => none
  | (b :: bs) :: rest =>
    (addAt s.cpuExecutedTimes b.id b.duration).bind fun cpu =>
      finishDispatch s (({ b with duration := 0 } :: bs) :: rest) cpu b.id b.duration
        (if (b :: bs).length ≠ 1 then ENTER_IO else COMPLETED)

/-- The state on entry to the `while` loop. -/
def initState (processes : List (List Burst)) : SimState :=
  { readyQ := processes
    blockedQ := []
    ioExecutedTimes := List.replicate processes.length 0
    cpuExecutedTimes := List.replicate processes.length 0
    total_time := 0
    finished := []
    trace := [] }

/-- The loop `while (!readyQ.empty() || !blockedQ.empty())` around a step
function, for at most `fuel` iterations; `none` when the fuel does not suffice
or an iteration is undefined. -/
def runLoop (step : SimState → Option SimState) : Nat → SimState → Option SimState
  | fuel, s =>
    if s.readyQ.isEmpty ∧ s.blockedQ.isEmpty then some s
    else
      match fuel with
      | 0 => none
      | fuel + 1 => (step s).bind (runLoop step fuel)

/-- Sum of all burst durations of the input, as a natural number. Every
iteration on a valid input uses up at least one unit of it, so it is enough
fuel for either loop. -/
def loopFuel (processes : List (List Burst)) : Nat :=
  ((processes.map fun (p : List Burst) => (p.map fun (b : Burst) => b.duration).sum).sum).toNat

/-- The state in which `round_robin` leaves its `while` loop. -/
def round_robin_loop (quantum : Int) (processes : List (List Burst)) : Option SimState :=
  runLoop (rrStep quantum) (loopFuel processes) (initState processes)

/-- The state in which `fcfs` leaves its `while` loop. -/
def fcfs_loop (processes : List (List Burst)) : Option SimState :=
  runLoop fcfsStep (loopFuel processes) (initState processes)

/-- What a run prints: the calls of `log_cpuburst_execution` made by the loop,
then the calls of `log_process_completion` made by the final `for` loop. -/
structure Output where
  trace : List CpuEvent
  completions : List completionLog
deriving DecidableEq, Repr

/-- The final loop `for (int i = 0; i < processes.size(); i++)` reporting
`finished[i]`; `none` when it would read a record that was never written. -/
def report (n : Nat) (s : SimState) : Option Output :=
  if n ≤ s.finished.length then
    some { trace := s.trace, completions := s.finished.take n }
  else none

/-- The function `round_robin`. -/
def round_robin (quantum : Int) (processes : List (List Burst)) : Option Output :=
  (round_robin_loop quantum processes).bind (report processes.length)

/-- The function `fcfs`. -/
def fcfs (processes : List (List Burst)) : Option Output :=
  (fcfs_loop processes).bind (report processes.length)

/-- The process that `parse_process` builds for input line `i` holding the
values `vals`: burst `j` has id `i`, the `j`-th value as duration, and type `IO`
when `j` is odd, `CPU` otherwise. The second argument is the index of the first
value. -/
def mkProcess (i : Nat) : Nat → List Int → List Burst
  | _, [] => []
  | j, v :: vs =>
    { id := i, duration := v, burst_type := if j % 2 = 1 then bt.IO_ else bt.CPU }
      :: mkProcess i (j + 1) vs

/-- The inner loop `for (int j = 0; ss >> val; j++)` of `parse_process` on input
line `i`, from token index `j`. The line is given as its integer tokens in order,
as written in the file (separated by a single space or comma). The extraction
`ss >> val` succeeds on a token in `INT_MIN .. INT_MAX`; on a token outside that
range it fails, the loop ends and the rest of the line is not read. `none` is a
call of `fail`. -/
def parse_line (i : Nat) : Nat → List Int → Option (List Burst)
  | _, [] => some []
  | j, val :: rest =>
    if val < INT_MIN ∨ INT_MAX < val then some []
    else if val ≤ 0 then none
    else
      (parse_line i (j + 1) rest).map fun process =>
        { id := i, duration := val, burst_type := if j % 2 = 1 then bt.IO_ else bt.CPU }
          :: process

/-- The outer loop `for (int i = 0; getline(burst_stream, line); i++)` of
`parse_process`, from line index `i`. -/
def parse_lines (i : Nat) : List (List Int) → Option (List (List Burst))
  | [] => some []
  | line :: rest =>
    (parse_line i 0 line).bind fun process =>
      if process.length % 2 = 0 then none
      else (parse_lines (i + 1) rest).map fun processes => process :: processes

/-- The function `parse_process` on the lines of an opened file. -/
def parse_process (lines : List (List Int)) : Option (List (List Burst)) :=
  (parse_lines 0 lines).bind fun processes =>
    if processes.isEmpty then none else some processes

/-! ## The same iteration in exact integers

The functions of this section are a reference computation, not a translation of
the program: they repeat `addAt`, `ioPass`, `starve`, `finishDispatch`, `rrStep`
and `fcfsStep` with every `wrap32` left out. -/

/-- The update `a[i] += v` in exact integers. -/
def addAtExact (a : List Int) (i : Nat) (v : Int) : Option (List Int) :=
  if i < a.length then some (a.set i (a.getD i 0 + v)) else none

/-- The function `ioPass` with exact counters. -/
def ioPassExact (elapsed_time : Int) :
    List (List Burst) → List Int → Option (List (List Burst) × List Int)
  | [], io => some ([], io)
  | [] :: _, _ => none
  | (b :: bs) :: rest, io =>
    if b.duration ≤ elapsed_time then
      (addAtExact io b.id b.duration).bind fun io1 =>
        (ioPassExact elapsed_time rest io1).map fun r =>
          (({ b with duration := 0 } :: bs) :: r.1, r.2)
    else
      (addAtExact io b.id elapsed_time).bind fun io1 =>
        (ioPassExact elapsed_time rest io1).map fun r =>
          (({ b with duration := b.duration - elapsed_time } :: bs) :: r.1, r.2)

/-- The function `starve` with exact counters and exact time. -/
def starveExact (s : SimState) : Option SimState :=
  match s.blockedQ with
  | [] => none
  | [] :: _ => none
  | (b :: _) :: _ =>
    let elapsed_time := b.duration
    (ioPassExact elapsed_time s.blockedQ s.ioExecutedTimes).bind fun p =>
      (promoteLoop p.1.length 0 p.1 s.readyQ).map fun q =>
        { s with
          blockedQ := q.1
          readyQ := q.2
          ioExecutedTimes := p.2
          total_time := s.total_time + elapsed_time }

/-- The function `finishDispatch` with exact counters, exact time and exact
wait time. -/
def finishDispatchExact (s : SimState) (readyQ : List (List Burst)) (cpu : List Int)
    (id : Nat) (elapsed_time : Int) (stopReason : ExecutionStopReasonType) :
    Option SimState :=
  (if s.blockedQ.isEmpty then some ((s.blockedQ, readyQ), s.ioExecutedTimes)
   else
    (ioPassExact elapsed_time s.blockedQ s.ioExecutedTimes).bind fun p =>
      (promoteLoop p.1.length 0 p.1 readyQ).map fun q => (q, p.2)).bind fun r =>
  let blockedQ := r.1.1
  let readyQ := r.1.2
  let io := r.2
  let total_time := s.total_time + elapsed_time
  if id < cpu.length ∧ id < io.length then
    let ev : CpuEvent :=
      { procID := id
        cpuExecutedTime := cpu.getD id 0
        ioExecutedTime := io.getD id 0
        totalElapsedTime := total_time
        stopReason := stopReason }
    match readyQ with
    | [] => none
    | front :: others =>
      match stopReason with
      | QUANTUM_EXPIRED =>
        some { readyQ := others ++ [front], blockedQ := blockedQ,
               ioExecutedTimes := io, cpuExecutedTimes := cpu,
               total_time := total_time, finished := s.finished,
               trace := s.trace ++ [ev] }
      | ENTER_IO =>
        match front with
        | [] => none
        | _ :: remaining =>
          some { readyQ := others, blockedQ := sortQ (blockedQ ++ [remaining]),
                 ioExecutedTimes := io, cpuExecutedTimes := cpu,
                 total_time := total_time, finished := s.finished,
                 trace := s.trace ++ [ev] }
      | COMPLETED =>
        if s.finished.length < cpu.length then
          some { readyQ := others, blockedQ := blockedQ,
                 ioExecutedTimes := io, cpuExecutedTimes := cpu,
                 total_time := total_time,
                 finished := s.finished ++
                   [{ id := id, completionTime := total_time,
                      totalWaitTime := total_time - cpu.getD id 0 - io.getD id 0 }],
                 trace := s.trace ++ [ev] }
        else none
  else none

/-- The function `rrStep` with exact counters and exact time. -/
def rrStepExact (quantum : Int) (s : SimState) : Option SimState :=
  match s.readyQ with
  | [] => starveExact s
  | [] :: _ => none
  | (b :: bs) :: rest =>
    if b.duration ≤ quantum then
      (addAtExact s.cpuExecutedTimes b.id b.duration).bind fun cpu =>
        finishDispatchExact s (({ b with duration := 0 } :: bs) :: rest) cpu b.id b.duration
          (if (b :: bs).length ≠ 1 then ENTER_IO else COMPLETED)
    else
      (addAtExact s.cpuExecutedTimes b.id quantum).bind fun cpu =>
        finishDispatchExact s (({ b with duration := b.duration - quantum } :: bs) :: rest)
          cpu b.id quantum QUANTUM_EXPIRED

/-- The function `fcfsStep` with exact counters and exact time. -/
def fcfsStepExact (s : SimState) : Option SimState :=
  match s.readyQ with
  | [] => starveExact s
  | [] :: _ => none
  | (b :: bs) :: rest =>
    (addAtExact s.cpuExecutedTimes b.id b.duration).bind fun cpu =>
      finishDispatchExact s (({ b with duration := 0 } :: bs) :: rest) cpu b.id b.duration
        (if (b :: bs).length ≠ 1 then ENTER_IO else COMPLETED)

/-- A completion record with its two `int` fields reduced to 32 bits. -/
def wrapRecord (r : completionLog) : completionLog :=
  { id := r.id, completionTime := wrap32 r.completionTime,
    totalWaitTime := wrap32 r.totalWaitTime }

/-- A trace event with its three `int` fields reduced to 32 bits. -/
def wrapEvent (e : CpuEvent) : CpuEvent :=
  { procID := e.procID, cpuExecutedTime := wrap32 e.cpuExecutedTime,
    ioExecutedTime := wrap32 e.ioExecutedTime,
    totalElapsedTime := wrap32 e.totalElapsedTime, stopReason := e.stopReason }

/-- A state with every `int` outside the queues reduced to 32 bits: what the
program holds when the exact computation has reached `s`. -/
def wrapState (s : SimState) : SimState :=
  { readyQ := s.readyQ
    blockedQ := s.blockedQ
    ioExecutedTimes := s.ioExecutedTimes.map wrap32
    cpuExecutedTimes := s.cpuExecutedTimes.map wrap32
    total_time := wrap32 s.total_time
    finished := s.finished.map wrapRecord
    trace := s.trace.map wrapEvent }

/-! ## Valid inputs and observers used in the statements -/

/-- The other burst type. -/
def bt.flip : bt → bt
  | bt.CPU => bt.IO_
  | bt.IO_ => bt.CPU

/-- Every burst of the list has id `i` and a positive duration, and the burst
types alternate, the first one being `k`. -/
def altFrom (i : Nat) : bt → List Burst → Bool
  | _, [] => true
  | k, b :: bs =>
    decide (b.id = i) && decide (b.burst_type = k) && decide (0 < b.duration)
      && altFrom i k.flip bs

/-- A process as `parse_process` accepts it on line `i`: an odd number of
bursts with positive durations, CPU first, all carrying id `i`. -/
def validProcess (i : Nat) (p : List Burst) : Bool :=
  altFrom i bt.CPU p && decide (p.length % 2 = 1)

/-- The processes of lines `i`, `i + 1`, ... are all valid. -/
def validFrom : Nat → List (List Burst) → Bool
  | _, [] => true
  | i, p :: ps => validProcess i p && validFrom (i + 1) ps

/-- A valid input of the schedulers: at least one process, each one valid for
its line index. -/
def validInput (processes : List (List Burst)) : Bool :=
  !processes.isEmpty && validFrom 0 processes

/-- The process id of a queue entry, read from its head burst as the code does. -/
def pid : List Burst → Nat
  | [] => 0
  | b :: _ => b.id

/-- The remaining duration of the head burst of a queue entry. -/
def headDur : List Burst → Int
  | [] => 0
  | b :: _ => b.duration

/-- Sum of the durations of the bursts of type `k` in a burst list. -/
def durOf (k : bt) : List Burst → Int
  | [] => 0
  | b :: bs => (if b.burst_type = k then b.duration else 0) + durOf k bs

/-- Sum of the remaining durations of type `k` over the entries of a queue that
belong to process `p`. -/
def remOf (k : bt) (p : Nat) (q : List (List Burst)) : Int :=
  (q.map fun l => if pid l = p then durOf k l else 0).sum

/-- Sum of all remaining durations in a queue. -/
def totalDur (q : List (List Burst)) : Int :=
  (q.map fun (l : List Burst) => (l.map fun (b : Burst) => b.duration).sum).sum

/-- Number of bursts held in the two queues of a state. -/
def burstCount (s : SimState) : Nat :=
  (s.readyQ.map List.length).sum + (s.blockedQ.map List.length).sum

/-- What the range-for over the blocked queue does to one entry. -/
def decHead (e : Int) : List Burst → List Burst
  | [] => []
  | b :: bs => { b with duration := if b.duration ≤ e then 0 else b.duration - e } :: bs

/-- A well-formed ready entry for `n` processes. -/
def readyOK (n : Nat) (l : List Burst) : Prop :=
  altFrom (pid l) bt.CPU l = true ∧ l.length % 2 = 1 ∧ pid l < n

/-- A well-formed blocked entry for `n` processes: an IO burst with a
non-negative remaining duration, followed by a well-formed ready entry. -/
def blockedOK (n : Nat) (l : List Burst) : Prop :=
  ∃ b rest, l = b :: rest ∧ b.burst_type = bt.IO_ ∧ 0 ≤ b.duration ∧
    altFrom b.id bt.CPU rest = true ∧ rest.length % 2 = 1 ∧ b.id < n

/-- The states a loop passes through at its iteration boundaries, starting
from `s0`: an iteration is run only while a queue is non-empty. -/
inductive Reach (step : SimState → Option SimState) (s0 : SimState) : SimState → Prop where
  | init : Reach step s0 s0
  | next {s t : SimState} : Reach step s0 s → (s.readyQ ≠ [] ∨ s.blockedQ ≠ []) →
      step s = some t → Reach step s0 t

/-- The invariant of the exact computation of `fcfs` and of `round_robin` on the
input `processes`. The queues of a state are those of the program; the counters,
the time and the records are the exact ones, which the program holds reduced to
32 bits. -/
structure Inv (processes : List (List Burst)) (s : SimState) : Prop where
  ready_ok : ∀ l ∈ s.readyQ, readyOK processes.length l
  blocked_ok : ∀ l ∈ s.blockedQ, blockedOK processes.length l
  ids : (s.readyQ.map pid ++ s.blockedQ.map pid ++
    s.finished.map fun r => r.id).Perm (List.range processes.length)
  sorted : s.blockedQ.Pairwise fun a b => headDur a ≤ headDur b
  zero_front : (∃ l ∈ s.blockedQ, headDur l = 0) → s.readyQ ≠ []
  io_len : s.ioExecutedTimes.length = processes.length
  cpu_len : s.cpuExecutedTimes.length = processes.length
  cons_cpu : ∀ p, p < processes.length →
    s.cpuExecutedTimes.getD p 0 + remOf bt.CPU p (s.readyQ ++ s.blockedQ)
      = durOf bt.CPU (processes.getD p [])
  cons_io : ∀ p, p < processes.length →
    s.ioExecutedTimes.getD p 0 + remOf bt.IO_ p (s.readyQ ++ s.blockedQ)
      = durOf bt.IO_ (processes.getD p [])
  fin_sorted : s.finished.Pairwise fun a b => a.completionTime < b.completionTime
  fin_le : ∀ r ∈ s.finished, r.completionTime ≤ s.total_time
  fin_cons : ∀ r ∈ s.finished, r.completionTime - r.totalWaitTime
    = durOf bt.CPU (processes.getD r.id []) + durOf bt.IO_ (processes.getD r.id [])
  trace_cons : ∀ e ∈ s.trace, e.stopReason = COMPLETED →
    e.cpuExecutedTime = durOf bt.CPU (processes.getD e.procID []) ∧
    e.ioExecutedTime = durOf bt.IO_ (processes.getD e.procID [])
  time_lo : 0 ≤ s.total_time
  time_hi : s.total_time + (totalDur s.readyQ + totalDur s.blockedQ) ≤ totalDur processes

/-- What the blocked-queue part of an iteration (the range-for, then the
promotion loop) has done when it ends with `P` promoted, `B2` still blocked and
the array `io1`, having started from `B` and `io`. -/
structure PhaseOut (n : Nat) (B : List (List Burst)) (io : List Int)
    (P B2 : List (List Burst)) (io1 : List Int) : Prop where
  promoted_ok : ∀ l ∈ P, readyOK n l
  blocked_ok : ∀ l ∈ B2, blockedOK n l
  ids : P.map pid ++ B2.map pid = B.map pid
  sorted : B2.Pairwise fun a b => headDur a ≤ headDur b
  zero_front : (∃ l ∈ B2, headDur l = 0) → P ≠ []
  io_len : io1.length = n
  cons_io : ∀ p, io1.getD p 0 + remOf bt.IO_ p (P ++ B2) = io.getD p 0 + remOf bt.IO_ p B
  cons_cpu : ∀ p, remOf bt.CPU p (P ++ B2) = remOf bt.CPU p B
  total_le : totalDur (P ++ B2) ≤ totalDur B

/-- The facts about a dispatch that the three `switch` cases share: the state
satisfies the invariant, its front ready entry is `b :: bs`, the burst `b` is
charged `e`, and the blocked-queue part of the iteration has ended with `P`,
`B2`, `io1`. -/
structure DispatchCtx (processes : List (List Burst)) (s : SimState) (b : Burst)
    (bs : List Burst) (rest : List (List Burst)) (e : Int)
    (P B2 : List (List Burst)) (io1 : List Int) : Prop where
  inv : Inv processes s
  ready : s.readyQ = (b :: bs) :: rest
  pos : 0 < e
  le : e ≤ b.duration
  phase : PhaseOut processes.length s.blockedQ s.ioExecutedTimes P B2 io1

/-- The remaining work of a state: the sum of all remaining durations in both
queues. -/
def workLeft (s : SimState) : Int := totalDur s.readyQ + totalDur s.blockedQ

/-- The single process of the examples: CPU 5, IO 3, CPU 2. -/
def exampleInput : List (List Burst) := [mkProcess 0 0 [5, 3, 2]]

/-- The processes of the lines `i`, `i + 1`, ... built burst by burst. -/
def mkProcesses : Nat → List (List Int) → List (List Burst)
  | _, [] => []
  | i, line :: rest => mkProcess i 0 line :: mkProcesses (i + 1) rest

/-- The input of two processes `1 3 2` and `1 2 2`, whose IO bursts end at the
same time. -/
def tieInput : List (List Burst) := [mkProcess 0 0 [1, 3, 2], mkProcess 1 0 [1, 2, 2]]

/-- The state of `fcfs` on `tieInput` after its two dispatches: both processes
are blocked, with 2 units of IO left each, at time 2. -/
def tieBlocked : SimState :=
  ⟨[], [[⟨0, 2, bt.IO_⟩, ⟨0, 2, bt.CPU⟩], [⟨1, 2, bt.IO_⟩, ⟨1, 2, bt.CPU⟩]], [1, 0], [1, 1], 2,
    [], [⟨0, 1, 0, 1, ENTER_IO⟩, ⟨1, 1, 0, 2, ENTER_IO⟩]⟩

/-- The state of `fcfs` on `tieInput` after the starvation iteration that
follows `tieBlocked`, at time 4: process 0 is ready, process 1 is still in the
blocked queue with a head IO burst of remaining duration zero. -/
def tieLeftover : SimState :=
  ⟨[[⟨0, 2, bt.CPU⟩]], [[⟨1, 0, bt.IO_⟩, ⟨1, 2, bt.CPU⟩]], [3, 2], [1, 1], 4, [],
    [⟨0, 1, 0, 1, ENTER_IO⟩, ⟨1, 1, 0, 2, ENTER_IO⟩]⟩

/-- Every CPU burst held in the queue has a remaining duration of at most `q`. -/
def cpuBounded (q : Int) (Q : List (List Burst)) : Prop :=
  ∀ l ∈ Q, ∀ x ∈ l, x.burst_type = bt.CPU → x.duration ≤ q

/-- The conversion of an `int` to the `unsigned int` parameter of a logging
function (32-bit). -/
def toUnsigned (x : Int) : Int := x % 2 ^ 32

/-- The ceiling of `d / q` for a positive `q`, in integer arithmetic. -/
def ceilDiv (d q : Int) : Int := (d + q - 1) / q

/-- Sum, over the CPU bursts of a burst list, of the ceiling of the remaining
duration divided by `q`. -/
def sliceCount (q : Int) (l : List Burst) : Int :=
  (l.map fun (b : Burst) => if b.burst_type = bt.CPU then ceilDiv b.duration q else 0).sum

/-- Number of bursts of type `k` in a burst list. -/
def typeCount (k : bt) (l : List Burst) : Int :=
  (l.map fun (b : Burst) => if b.burst_type = k then (1 : Int) else 0).sum

/-- Sum of `f` over the entries of a queue that belong to process `p`. -/
def remF (f : List Burst → Int) (p : Nat) (Q : List (List Burst)) : Int :=
  (Q.map fun l => if pid l = p then f l else 0).sum

/-- Number of trace events of process `p` whose stop reason satisfies `pred`. -/
def eventCount (pred : ExecutionStopReasonType → Bool) (p : Nat) (trace : List CpuEvent) : Nat :=
  trace.countP fun ev => decide (ev.procID = p) && pred ev.stopReason

/-- The events of process `p` counted so far plus what `f` still holds for it
in the queues. -/
def tally (pred : ExecutionStopReasonType → Bool) (f : List Burst → Int) (p : Nat)
    (s : SimState) : Int :=
  (eventCount pred p s.trace : Int) + remF f p (s.readyQ ++ s.blockedQ)

/-- The function `f` does not depend on the head IO burst of a blocked entry:
decrementing that burst or dropping it leaves `f` unchanged. -/
def BlockedStable (f : List Burst → Int) : Prop :=
  ∀ (b : Burst) (rest : List Burst) (d : Int), b.burst_type = bt.IO_ →
    f ({ b with duration := d } :: rest) = f (b :: rest) ∧ f rest = f (b :: rest)

/-- The function `f` pays for the events counted by `pred`: a dispatch of the
CPU burst `b` lowers `f` of the entry by one exactly when its event counts. -/
def Charges (q : Int) (pred : ExecutionStopReasonType → Bool) (f : List Burst → Int) : Prop :=
  ∀ (b : Burst) (bs : List Burst), b.burst_type = bt.CPU → 0 < b.duration →
    (q < b.duration → f (b :: bs)
      = f ({ b with duration := b.duration - q } :: bs)
        + (if pred QUANTUM_EXPIRED then 1 else 0)) ∧
    (b.duration ≤ q → bs ≠ [] → f (b :: bs) = f bs + (if pred ENTER_IO then 1 else 0)) ∧
    (b.duration ≤ q → f [b] = if pred COMPLETED then 1 else 0)

/-- The input whose processes `i`, `i + 1`, ... are the single CPU bursts `ds`. -/
def cpuOnly : Nat → List Int → List (List Burst)
  | _, [] => []
  | i, d :: ds => [⟨i, d, bt.CPU⟩] :: cpuOnly (i + 1) ds

/-- The completion records that the claim on CPU-only inputs describes, for the
processes `i`, `i + 1`, ... with bursts `ds`, the first one starting at time `T`:
process `i` completes at `T + d` after waiting `T`. -/
def cpuOnlyRecords : Nat → Int → List Int → List completionLog
  | _, _, [] => []
  | i, T, d :: ds => ⟨i, T + d, T⟩ :: cpuOnlyRecords (i + 1) (T + d) ds

/-- The trace events that the claim on CPU-only inputs describes: one
`completed` event per process, with its burst as CPU time and no IO time. -/
def cpuOnlyTrace : Nat → Int → List Int → List CpuEvent
  | _, _, [] => []
  | i, T, d :: ds => ⟨i, d, 0, T + d, COMPLETED⟩ :: cpuOnlyTrace (i + 1) (T + d) ds

/-- The single process of the line `2000000000 1 2000000000`: its two CPU bursts
add up to more than `INT_MAX`. -/
def overflowOne : List (List Burst) := [mkProcess 0 0 [2000000000, 1, 2000000000]]

/-- The two processes of the lines `2000000000` and `2000000000`: their bursts
add up to more than `INT_MAX`. -/
def overflowTwo : List (List Burst) := [mkProcess 0 0 [2000000000], mkProcess 1 0 [2000000000]]

/-- The three processes of the lines `2000000000`, `2000000000` and `1`. -/
def overflowThree : List (List Burst) :=
  [mkProcess 0 0 [2000000000], mkProcess 1 0 [2000000000], mkProcess 2 0 [1]]

/-- The state of `fcfs` on `overflowOne` before its last dispatch, at time
2000000001: the first CPU burst and the IO burst are done. -/
def overflowOneReady : SimState :=
  ⟨[[⟨0, 2000000000, bt.CPU⟩]], [], [1], [2000000000], 2000000001, [],
    [⟨0, 2000000000, 0, 2000000000, ENTER_IO⟩]⟩

/-- The state of `fcfs` on `overflowTwo` after its first dispatch, at time
2000000000. -/
def overflowTwoNext : SimState :=
  ⟨[[⟨1, 2000000000, bt.CPU⟩]], [], [0, 0], [2000000000, 0], 2000000000,
    [⟨0, 2000000000, 0⟩], [⟨0, 2000000000, 0, 2000000000, COMPLETED⟩]⟩

/-- The state in which `fcfs` leaves its loop on `overflowTwo`: the clock and the
completion time of process 1 have wrapped. -/
def overflowTwoFinal : SimState :=
  ⟨[], [], [0, 0], [2000000000, 2000000000], -294967296,
    [⟨0, 2000000000, 0⟩, ⟨1, -294967296, 2000000000⟩],
    [⟨0, 2000000000, 0, 2000000000, COMPLETED⟩, ⟨1, 2000000000, 0, -294967296, COMPLETED⟩]⟩

/-- The tokens of a line that the extraction loop of `parse_process` reads: those
before the first token outside `INT_MIN .. INT_MAX`. -/
def intTokens (ln : List Int) : List Int :=
  ln.takeWhile fun v => decide (INT_MIN ≤ v ∧ v ≤ INT_MAX)

/-- The state in which `fcfs` leaves its loop on `overflowThree`: the clock has
wrapped, and so has the wait time of process 2. -/
def overflowThreeFinal : SimState :=
  ⟨[], [], [0, 0, 0], [2000000000, 2000000000, 1], -294967295,
    [⟨0, 2000000000, 0⟩, ⟨1, -294967296, 2000000000⟩, ⟨2, -294967295, -294967296⟩],
    [⟨0, 2000000000, 0, 2000000000, COMPLETED⟩, ⟨1, 2000000000, 0, -294967296, COMPLETED⟩,
      ⟨2, 1, 0, -294967295, COMPLETED⟩]⟩

/-! ## The exact computation: invariant and step lemmas

The lemmas of this section are about the iteration computed in exact integers
(`rrStepExact`, `fcfsStepExact`) and about the functions that the program
shares with it (`sortQ`, `promoteLoop`, `runLoop`). -/

theorem addAt_some (a : List Int) (i : Nat) (v : Int) (h : i < a.length) :
    addAtExact a i v = some (a.set i (a.getD i 0 + v)) := by
  simp [addAtExact, h]

theorem getD_set_add (a : List Int) (i p : Nat) (v : Int) (h : i < a.length) :
    (a.set i (a.getD i 0 + v)).getD p 0 = a.getD p 0 + (if i = p then v else 0) := by
  by_cases hip : i = p
  · subst hip
    simp [List.getD_eq_getElem?_getD, List.getElem?_set, h]
  · simp [List.getD_eq_getElem?_getD, List.getElem?_set, hip]

theorem pid_decHead (e : Int) (l : List Burst) : pid (decHead e l) = pid l := by
  cases l <;> rfl

theorem remOf_nil (k : bt) (p : Nat) : remOf k p [] = 0 := rfl

theorem remOf_cons (k : bt) (p : Nat) (l : List Burst) (q : List (List Burst)) :
    remOf k p (l :: q) = (if pid l = p then durOf k l else 0) + remOf k p q := by
  simp [remOf]

theorem remOf_append (k : bt) (p : Nat) (q r : List (List Burst)) :
    remOf k p (q ++ r) = remOf k p q + remOf k p r := by
  simp [remOf]

theorem remOf_perm (k : bt) (p : Nat) {q r : List (List Burst)} (h : q.Perm r) :
    remOf k p q = remOf k p r := by
  unfold remOf
  exact (h.map _).sum_eq

theorem totalDur_nil : totalDur [] = 0 := rfl

theorem totalDur_cons (l : List Burst) (q : List (List Burst)) :
    totalDur (l :: q) = (l.map fun (b : Burst) => b.duration).sum + totalDur q := by
  simp [totalDur]

theorem totalDur_append (q r : List (List Burst)) :
    totalDur (q ++ r) = totalDur q + totalDur r := by
  simp [totalDur]

theorem totalDur_perm {q r : List (List Burst)} (h : q.Perm r) :
    totalDur q = totalDur r := by
  unfold totalDur
  exact (h.map _).sum_eq

/-- The range-for over the blocked queue succeeds on well-formed entries, maps
every entry by `decHead`, and moves the consumed IO time into the array. -/
theorem ioPass_spec (n : Nat) (e : Int) :
    ∀ (B : List (List Burst)) (io : List Int), (∀ l ∈ B, blockedOK n l) → io.length = n →
      ∃ io1, ioPassExact e B io = some (B.map (decHead e), io1) ∧ io1.length = n ∧
        ∀ p, io1.getD p 0 + remOf bt.IO_ p (B.map (decHead e))
          = io.getD p 0 + remOf bt.IO_ p B := by
  intro B
  induction B with
  | nil => intro io _ hlen; exact ⟨io, rfl, hlen, fun p => rfl⟩
  | cons l B ih =>
    intro io hB hlen
    obtain ⟨b, rest, rfl, hty, hd, halt, hodd, hid⟩ := hB l (List.mem_cons_self _ _)
    have hB1 : ∀ l ∈ B, blockedOK n l := fun l hl => hB l (List.mem_cons_of_mem _ hl)
    have hlt : b.id < io.length := by omega
    by_cases hle : b.duration ≤ e
    · obtain ⟨io1, h1, h2, h3⟩ := ih (io.set b.id (io.getD b.id 0 + b.duration)) hB1
        (by simpa using hlen)
      refine ⟨io1, ?_, h2, ?_⟩
      · simp only [ioPassExact, hle, if_true, addAt_some _ _ _ hlt, Option.some_bind, h1,
          Option.map_some', List.map_cons, decHead]
      · intro p
        have h4 := h3 p
        rw [getD_set_add _ _ _ _ hlt] at h4
        simp only [List.map_cons, remOf_cons, decHead, hle, if_true, pid, durOf, hty]
        split_ifs at h4 ⊢ <;> omega
    · obtain ⟨io1, h1, h2, h3⟩ := ih (io.set b.id (io.getD b.id 0 + e)) hB1
        (by simpa using hlen)
      refine ⟨io1, ?_, h2, ?_⟩
      · simp only [ioPassExact, hle, if_false, addAt_some _ _ _ hlt, Option.some_bind, h1,
          Option.map_some', List.map_cons, decHead]
      · intro p
        have h4 := h3 p
        rw [getD_set_add _ _ _ _ hlt] at h4
        simp only [List.map_cons, remOf_cons, decHead, hle, if_false, pid, durOf, hty]
        split_ifs at h4 ⊢ <;> omega

/-- The promotion loop on a queue of non-empty entries removes a prefix of
entries with a zero head and appends their tails to the ready queue; the prefix
is not empty when the loop runs at all and the front entry has a zero head. -/
theorem promoteLoop_spec :
    ∀ (fuel i : Nat) (B R : List (List Burst)), (∀ l ∈ B, l ≠ []) →
      ∃ k, promoteLoop fuel i B R = some (B.drop k, R ++ (B.take k).map List.tail) ∧
        (∀ l ∈ B.take k, headDur l = 0) ∧
        (0 < fuel → i < B.length → headDur (B.headD []) = 0 → 0 < k) := by
  intro fuel
  induction fuel with
  | zero =>
    intro i B R _
    exact ⟨0, by simp [promoteLoop], by simp, by omega⟩
  | succ fuel ih =>
    intro i B R hne
    by_cases hi : i < B.length
    · match B, hne, hi with
      | [] :: rest, hne, _ => exact absurd rfl (hne [] (List.mem_cons_self _ _))
      | (b :: bs) :: rest, hne, hi =>
        by_cases hz : b.duration = 0
        · obtain ⟨k, h1, h2, _⟩ := ih (i + 1) rest (R ++ [bs])
            (fun l hl => hne l (List.mem_cons_of_mem _ hl))
          refine ⟨k + 1, ?_, ?_, fun _ _ _ => Nat.succ_pos k⟩
          · simp only [promoteLoop, hi, if_true, hz, h1, List.drop_succ_cons,
              List.take_succ_cons, List.map_cons, List.tail_cons, List.append_assoc,
              List.singleton_append]
          · intro l hl
            rw [List.take_succ_cons, List.mem_cons] at hl
            rcases hl with rfl | hl
            · exact hz
            · exact h2 l hl
        · obtain ⟨k, h1, h2, _⟩ := ih (i + 1) ((b :: bs) :: rest) R hne
          refine ⟨k, ?_, h2, ?_⟩
          · simp only [promoteLoop, hi, if_true, hz, if_false, h1]
          · intro _ _ h0
            exact absurd h0 hz
    · exact ⟨0, by simp [promoteLoop, hi], by simp, fun _ h => absurd h hi⟩

/-- The iteration bound `blockedQ.size()` of the promotion loop is enough: one
more unit of fuel changes nothing. -/
theorem promoteLoop_fuel :
    ∀ (fuel i : Nat) (B R : List (List Burst)), B.length ≤ i + fuel →
      promoteLoop (fuel + 1) i B R = promoteLoop fuel i B R := by
  intro fuel
  induction fuel with
  | zero =>
    intro i B R h
    have hi : ¬ i < B.length := by omega
    simp [promoteLoop, hi]
  | succ fuel ih =>
    intro i B R h
    by_cases hi : i < B.length
    · match B, h, hi with
      | [] :: rest, _, hi => simp [promoteLoop, hi]
      | (b :: bs) :: rest, h, hi =>
        by_cases hz : b.duration = 0
        · have h1 := ih (i + 1) rest (R ++ [bs]) (by simp at h; omega)
          rw [promoteLoop, if_pos hi]
          simp only [hz, if_true]
          rw [h1]
          conv_rhs => rw [promoteLoop, if_pos hi]
          simp only [hz, if_true]
        · have h1 := ih (i + 1) ((b :: bs) :: rest) R (by omega)
          rw [promoteLoop, if_pos hi]
          simp only [hz, if_false]
          rw [h1]
          conv_rhs => rw [promoteLoop, if_pos hi]
          simp only [hz, if_false]
    · simp [promoteLoop, hi]

theorem blockedOK_decHead {n : Nat} {e : Int} {l : List Burst} (h : blockedOK n l) :
    blockedOK n (decHead e l) := by
  obtain ⟨b, rest, rfl, hty, hd, halt, hodd, hid⟩ := h
  refine ⟨_, rest, rfl, hty, ?_, halt, hodd, hid⟩
  show 0 ≤ (if b.duration ≤ e then 0 else b.duration - e)
  split_ifs <;> omega

theorem headDur_decHead {e : Int} (he : 0 ≤ e) (l : List Burst) :
    headDur (decHead e l) = if headDur l ≤ e then 0 else headDur l - e := by
  cases l with
  | nil =>
    simp only [decHead, headDur]
    split_ifs
    rfl
  | cons b bs => rfl

theorem durOf_cpu_decHead {n : Nat} (e : Int) {l : List Burst} (h : blockedOK n l) :
    durOf bt.CPU (decHead e l) = durOf bt.CPU l := by
  obtain ⟨b, rest, rfl, hty, -⟩ := h
  simp [decHead, durOf, hty]

theorem readyOK_tail {n : Nat} {l : List Burst} (h : blockedOK n l) : readyOK n l.tail := by
  obtain ⟨b, rest, rfl, hty, hd, halt, hodd, hid⟩ := h
  cases rest with
  | nil => simp at hodd
  | cons c cs =>
    have hc : c.id = b.id := by
      simp [altFrom] at halt; exact halt.1.1.1
    refine ⟨?_, hodd, ?_⟩
    · simpa [pid, hc] using halt
    · simpa [pid, hc] using hid

theorem pid_tail {n : Nat} {l : List Burst} (h : blockedOK n l) : pid l.tail = pid l := by
  obtain ⟨b, rest, rfl, hty, hd, halt, hodd, hid⟩ := h
  cases rest with
  | nil => simp at hodd
  | cons c cs =>
    simp [altFrom] at halt
    simpa [pid] using halt.1.1.1

theorem durOf_tail {n : Nat} (k : bt) {l : List Burst} (h : blockedOK n l)
    (h0 : headDur l = 0) : durOf k l.tail = durOf k l := by
  obtain ⟨b, rest, rfl, -⟩ := h
  simp only [headDur] at h0
  simp [durOf, h0]

theorem sum_tail {n : Nat} {l : List Burst} (h : blockedOK n l) (h0 : headDur l = 0) :
    (l.tail.map fun (b : Burst) => b.duration).sum = (l.map fun (b : Burst) => b.duration).sum := by
  obtain ⟨b, rest, rfl, -⟩ := h
  simp only [headDur] at h0
  simp [h0]

theorem sum_decHead {n : Nat} {e : Int} (he : 0 ≤ e) {l : List Burst} (h : blockedOK n l) :
    ((decHead e l).map fun (b : Burst) => b.duration).sum
      ≤ (l.map fun (b : Burst) => b.duration).sum := by
  obtain ⟨b, rest, rfl, hty, hd, -⟩ := h
  simp only [decHead, List.map_cons, List.sum_cons]
  split_ifs <;> omega

theorem remOf_map_congr (k : bt) (p : Nat) (f : List Burst → List Burst) :
    ∀ (Q : List (List Burst)), (∀ l ∈ Q, pid (f l) = pid l ∧ durOf k (f l) = durOf k l) →
      remOf k p (Q.map f) = remOf k p Q := by
  intro Q
  induction Q with
  | nil => intro _; rfl
  | cons l Q ih =>
    intro h
    have h1 := h l (List.mem_cons_self _ _)
    simp only [List.map_cons, remOf_cons, h1.1, h1.2,
      ih (fun l hl => h l (List.mem_cons_of_mem _ hl))]

theorem totalDur_map_le (f : List Burst → List Burst) :
    ∀ (Q : List (List Burst)),
      (∀ l ∈ Q, ((f l).map fun (b : Burst) => b.duration).sum
        ≤ (l.map fun (b : Burst) => b.duration).sum) →
      totalDur (Q.map f) ≤ totalDur Q := by
  intro Q
  induction Q with
  | nil => intro _; exact le_refl _
  | cons l Q ih =>
    intro h
    have h1 := h l (List.mem_cons_self _ _)
    have h2 := ih (fun l hl => h l (List.mem_cons_of_mem _ hl))
    simp only [List.map_cons, totalDur_cons]
    omega

theorem totalDur_map_eq (f : List Burst → List Burst) :
    ∀ (Q : List (List Burst)),
      (∀ l ∈ Q, ((f l).map fun (b : Burst) => b.duration).sum
        = (l.map fun (b : Burst) => b.duration).sum) →
      totalDur (Q.map f) = totalDur Q := by
  intro Q
  induction Q with
  | nil => intro _; rfl
  | cons l Q ih =>
    intro h
    have h1 := h l (List.mem_cons_self _ _)
    have h2 := ih (fun l hl => h l (List.mem_cons_of_mem _ hl))
    simp only [List.map_cons, totalDur_cons]
    omega

theorem blockedPhase (n : Nat) (e : Int) (B R : List (List Burst)) (io : List Int)
    (hB : ∀ l ∈ B, blockedOK n l) (hs : B.Pairwise fun a b => headDur a ≤ headDur b)
    (hio : io.length = n) (he : 0 ≤ e) :
    ∃ P B2 io1, ioPassExact e B io = some (B.map (decHead e), io1) ∧
      promoteLoop (B.map (decHead e)).length 0 (B.map (decHead e)) R = some (B2, R ++ P) ∧
      PhaseOut n B io P B2 io1 ∧
      (B ≠ [] → headDur (B.headD []) ≤ e →
        P ≠ [] ∧ totalDur (P ++ B2) + headDur (B.headD []) ≤ totalDur B) := by
  obtain ⟨io1, hpass, hlen, hcons⟩ := ioPass_spec n e B io hB hio
  have hB1 : ∀ l ∈ B.map (decHead e), blockedOK n l := by
    intro l hl
    obtain ⟨l0, hl0, rfl⟩ := List.mem_map.1 hl
    exact blockedOK_decHead (hB l0 hl0)
  have hne : ∀ l ∈ B.map (decHead e), l ≠ [] := by
    intro l hl
    obtain ⟨b, rest, rfl, -⟩ := hB1 l hl
    exact List.cons_ne_nil _ _
  have hs1 : (B.map (decHead e)).Pairwise fun a b => headDur a ≤ headDur b := by
    rw [List.pairwise_map]
    refine hs.imp ?_
    intro a b hab
    rw [headDur_decHead he, headDur_decHead he]
    split_ifs <;> omega
  obtain ⟨k, hprom, hzero, hpos⟩ :=
    promoteLoop_spec (B.map (decHead e)).length 0 (B.map (decHead e)) R hne
  have htake : ∀ l ∈ (B.map (decHead e)).take k, blockedOK n l ∧ headDur l = 0 :=
    fun l hl => ⟨hB1 l (List.mem_of_mem_take hl), hzero l hl⟩
  have hsplit := List.take_append_drop k (B.map (decHead e))
  have hremTail : ∀ (kd : bt) (p : Nat),
      remOf kd p (((B.map (decHead e)).take k).map List.tail)
        = remOf kd p ((B.map (decHead e)).take k) := fun kd p =>
    remOf_map_congr kd p List.tail _ fun l hl =>
      ⟨pid_tail (htake l hl).1, durOf_tail kd (htake l hl).1 (htake l hl).2⟩
  have hrem : ∀ (kd : bt) (p : Nat),
      remOf kd p (((B.map (decHead e)).take k).map List.tail ++ (B.map (decHead e)).drop k)
        = remOf kd p (B.map (decHead e)) := by
    intro kd p
    rw [remOf_append, hremTail, ← remOf_append, hsplit]
  have htot : totalDur (((B.map (decHead e)).take k).map List.tail ++ (B.map (decHead e)).drop k)
      = totalDur (B.map (decHead e)) := by
    have h1 : totalDur (((B.map (decHead e)).take k).map List.tail)
        = totalDur ((B.map (decHead e)).take k) :=
      totalDur_map_eq List.tail _ fun l hl => sum_tail (htake l hl).1 (htake l hl).2
    rw [totalDur_append, h1, ← totalDur_append, hsplit]
  refine ⟨((B.map (decHead e)).take k).map List.tail, (B.map (decHead e)).drop k, io1,
    hpass, hprom, ?_, ?_⟩
  · refine
      { promoted_ok := ?_, blocked_ok := ?_, ids := ?_, sorted := ?_, zero_front := ?_,
        io_len := hlen, cons_io := ?_, cons_cpu := ?_, total_le := ?_ }
    · intro l hl
      obtain ⟨l1, hl1, rfl⟩ := List.mem_map.1 hl
      exact readyOK_tail (htake l1 hl1).1
    · exact fun l hl => hB1 l (List.mem_of_mem_drop hl)
    · have h1 : (((B.map (decHead e)).take k).map List.tail).map pid
          = ((B.map (decHead e)).take k).map pid := by
        rw [List.map_map]
        exact List.map_congr_left fun l hl => pid_tail (htake l hl).1
      rw [h1, ← List.map_append, hsplit, List.map_map]
      exact List.map_congr_left fun l _ => pid_decHead e l
    · exact hs1.sublist (List.drop_sublist k _)
    · rintro ⟨l, hl, hl0⟩
      have hk : 0 < k := by
        by_contra hk0
        have hk0 : k = 0 := by omega
        subst hk0
        rw [List.drop_zero] at hl
        cases hB1e : B.map (decHead e) with
        | nil => rw [hB1e] at hl; simp at hl
        | cons x xs =>
          rw [hB1e] at hl hs1 hpos hB1
          have hx0 : headDur x = 0 := by
            have hxnn : 0 ≤ headDur x := by
              obtain ⟨b, rest, rfl, _, hd, -⟩ := hB1 x (List.mem_cons_self _ _)
              exact hd
            rcases List.mem_cons.1 hl with rfl | hmem
            · exact hl0
            · have := List.rel_of_pairwise_cons hs1 hmem
              omega
          have := hpos (by simp) (by simp) (by simpa using hx0)
          omega
      cases hB1e : B.map (decHead e) with
      | nil => rw [hB1e] at hl; simp at hl
      | cons x xs =>
        obtain ⟨k1, rfl⟩ : ∃ k1, k = k1 + 1 := ⟨k - 1, by omega⟩
        simp
    · intro p
      rw [hrem]
      exact hcons p
    · intro p
      rw [hrem]
      exact remOf_map_congr bt.CPU p (decHead e) B fun l hl =>
        ⟨pid_decHead e l, durOf_cpu_decHead e (hB l hl)⟩
    · rw [htot]
      exact totalDur_map_le (decHead e) B fun l hl => sum_decHead he (hB l hl)
  · intro hBne hfront
    cases B with
    | nil => exact absurd rfl hBne
    | cons x xs =>
      have hx0 : headDur (decHead e x) = 0 := by
        rw [headDur_decHead he]
        simp only [List.headD_cons] at hfront
        simp [hfront]
      have hk := hpos (by simp) (by simp) (by simpa using hx0)
      constructor
      · obtain ⟨k1, rfl⟩ : ∃ k1, k = k1 + 1 := ⟨k - 1, by omega⟩
        simp
      · rw [htot]
        have h2 := totalDur_map_le (decHead e) xs fun l hl =>
          sum_decHead he (hB l (List.mem_cons_of_mem _ hl))
        obtain ⟨b, rest, rfl, -⟩ := hB x (List.mem_cons_self _ _)
        simp only [List.headD_cons, headDur] at hfront ⊢
        simp only [List.map_cons, totalDur_cons, decHead, hfront, if_true, List.sum_cons]
        omega

theorem sortQ_less_eq {x y : List Burst} (hx : x ≠ []) (hy : y ≠ []) :
    sortQ_less x y = decide (headDur x < headDur y) := by
  cases x with
  | nil => exact absurd rfl hx
  | cons a as =>
    cases y with
    | nil => exact absurd rfl hy
    | cons b bs => rfl

theorem stableInsert_perm (x : List Burst) :
    ∀ ys : List (List Burst), (stableInsert x ys).Perm (x :: ys) := by
  intro ys
  induction ys with
  | nil => exact List.Perm.refl _
  | cons y ys ih =>
    simp only [stableInsert]
    split_ifs
    · exact List.Perm.refl _
    · exact ((List.Perm.cons y ih).trans (List.Perm.swap x y ys))

theorem stableInsert_sorted (x : List Burst) (hx : x ≠ []) :
    ∀ ys : List (List Burst), (∀ l ∈ ys, l ≠ []) →
      (ys.Pairwise fun a b => headDur a ≤ headDur b) →
      (stableInsert x ys).Pairwise fun a b => headDur a ≤ headDur b := by
  intro ys
  induction ys with
  | nil => intro _ _; simp [stableInsert]
  | cons y ys ih =>
    intro hne hs
    have hy : y ≠ [] := hne y (List.mem_cons_self _ _)
    have hs' := List.pairwise_cons.1 hs
    simp only [stableInsert, sortQ_less_eq hx hy, decide_eq_true_eq]
    split_ifs with hlt
    · refine List.pairwise_cons.2 ⟨?_, hs⟩
      intro z hz
      rcases List.mem_cons.1 hz with rfl | hz
      · omega
      · have := hs'.1 z hz
        omega
    · refine List.pairwise_cons.2 ⟨?_, ih (fun l hl => hne l (List.mem_cons_of_mem _ hl)) hs'.2⟩
      intro z hz
      rcases List.mem_cons.1 ((stableInsert_perm x ys).subset hz) with rfl | hz
      · omega
      · exact hs'.1 z hz

theorem foldl_stableInsert_perm :
    ∀ (B acc : List (List Burst)),
      (B.foldl (fun acc x => stableInsert x acc) acc).Perm (acc ++ B) := by
  intro B
  induction B with
  | nil => intro acc; simp
  | cons x B ih =>
    intro acc
    simp only [List.foldl_cons]
    refine (ih (stableInsert x acc)).trans ?_
    refine ((stableInsert_perm x acc).append_right B).trans ?_
    simp only [List.cons_append]
    exact List.perm_middle.symm

theorem sortQ_perm (B : List (List Burst)) : (sortQ B).Perm B := by
  simpa [sortQ] using foldl_stableInsert_perm B []

theorem foldl_stableInsert_sorted :
    ∀ (B acc : List (List Burst)), (∀ l ∈ B, l ≠ []) → (∀ l ∈ acc, l ≠ []) →
      (acc.Pairwise fun a b => headDur a ≤ headDur b) →
      (B.foldl (fun acc x => stableInsert x acc) acc).Pairwise
        fun a b => headDur a ≤ headDur b := by
  intro B
  induction B with
  | nil => intro acc _ _ hs; simpa using hs
  | cons x B ih =>
    intro acc hB hacc hs
    simp only [List.foldl_cons]
    have hx : x ≠ [] := hB x (List.mem_cons_self _ _)
    refine ih _ (fun l hl => hB l (List.mem_cons_of_mem _ hl)) ?_
      (stableInsert_sorted x hx acc hacc hs)
    intro l hl
    rcases List.mem_cons.1 ((stableInsert_perm x acc).subset hl) with rfl | hl
    · exact hx
    · exact hacc l hl

/-- On a queue of non-empty entries `sortQ` yields a queue ordered by head
duration. -/
theorem sortQ_sorted (B : List (List Burst)) (hB : ∀ l ∈ B, l ≠ []) :
    (sortQ B).Pairwise fun a b => headDur a ≤ headDur b :=
  foldl_stableInsert_sorted B [] hB (by simp) List.Pairwise.nil

theorem blockedOK_ne_nil {n : Nat} {l : List Burst} (h : blockedOK n l) : l ≠ [] := by
  obtain ⟨b, rest, rfl, -⟩ := h
  exact List.cons_ne_nil _ _

theorem readyOK_cons {n : Nat} {l : List Burst} (h : readyOK n l) :
    ∃ b bs, l = b :: bs ∧ b.burst_type = bt.CPU ∧ 0 < b.duration ∧ b.id < n ∧
      altFrom b.id bt.IO_ bs = true ∧ bs.length % 2 = 0 := by
  obtain ⟨halt, hodd, hid⟩ := h
  cases l with
  | nil => simp at hodd
  | cons b bs =>
    simp only [pid, altFrom, Bool.and_eq_true, decide_eq_true_eq] at halt hid
    refine ⟨b, bs, rfl, halt.1.1.2, halt.1.2, hid, halt.2, ?_⟩
    simp only [List.length_cons] at hodd
    omega

/-- What is left of a ready entry after its head CPU burst, when anything is
left, is a well-formed blocked entry with a positive head. -/
theorem blockedOK_of_alt {n i : Nat} {bs : List Burst} (hi : i < n)
    (halt : altFrom i bt.IO_ bs = true) (heven : bs.length % 2 = 0) (hne : bs ≠ []) :
    blockedOK n bs ∧ 0 < headDur bs ∧ pid bs = i := by
  cases bs with
  | nil => exact absurd rfl hne
  | cons c cs =>
    simp only [altFrom, Bool.and_eq_true, decide_eq_true_eq, bt.flip] at halt
    simp only [List.length_cons] at heven
    obtain ⟨⟨⟨hid, hty⟩, hd⟩, hrest⟩ := halt
    refine ⟨⟨c, cs, rfl, hty, le_of_lt hd, ?_, by omega, by omega⟩, hd, hid⟩
    rw [hid]; exact hrest

theorem altFrom_sum_nonneg (i : Nat) :
    ∀ (k : bt) (l : List Burst), altFrom i k l = true →
      0 ≤ (l.map fun (b : Burst) => b.duration).sum := by
  intro k l
  induction l generalizing k with
  | nil => intro _; simp
  | cons b bs ih =>
    intro h
    simp only [altFrom, Bool.and_eq_true, decide_eq_true_eq] at h
    have := ih _ h.2
    simp only [List.map_cons, List.sum_cons]
    omega

theorem readyOK_sum_pos {n : Nat} {l : List Burst} (h : readyOK n l) :
    0 < (l.map fun (b : Burst) => b.duration).sum := by
  obtain ⟨b, bs, rfl, _, hd, _, halt, _⟩ := readyOK_cons h
  have := altFrom_sum_nonneg _ _ _ halt
  simp only [List.map_cons, List.sum_cons]
  omega

theorem blockedOK_sum_pos {n : Nat} {l : List Burst} (h : blockedOK n l) :
    0 < (l.map fun (b : Burst) => b.duration).sum := by
  have h1 := readyOK_sum_pos (readyOK_tail h)
  obtain ⟨b, rest, rfl, _, hd, -⟩ := h
  simp only [List.tail_cons] at h1
  simp only [List.map_cons, List.sum_cons]
  omega

theorem totalDur_nonneg_of (Q : List (List Burst))
    (h : ∀ l ∈ Q, 0 < (l.map fun (b : Burst) => b.duration).sum) :
    0 ≤ totalDur Q ∧ (Q ≠ [] → 0 < totalDur Q) := by
  induction Q with
  | nil => simp [totalDur]
  | cons l Q ih =>
    have h1 := h l (List.mem_cons_self _ _)
    have h2 := (ih (fun l hl => h l (List.mem_cons_of_mem _ hl))).1
    rw [totalDur_cons]
    exact ⟨by omega, fun _ => by omega⟩

theorem remOf_eq_zero (k : bt) (p : Nat) :
    ∀ (Q : List (List Burst)), (∀ l ∈ Q, pid l ≠ p) → remOf k p Q = 0 := by
  intro Q
  induction Q with
  | nil => intro _; rfl
  | cons l Q ih =>
    intro h
    rw [remOf_cons, ih (fun l hl => h l (List.mem_cons_of_mem _ hl)),
      if_neg (h l (List.mem_cons_self _ _))]
    rfl

theorem remOf_eq_zero_of_not_mem (k : bt) (p : Nat) (Q : List (List Burst))
    (h : p ∉ Q.map pid) : remOf k p Q = 0 :=
  remOf_eq_zero k p Q fun l hl hp => h (List.mem_map.2 ⟨l, hl, hp⟩)

section
variable {processes : List (List Burst)} {s : SimState} {b : Burst} {bs : List Burst}
  {rest : List (List Burst)} {e : Int} {P B2 : List (List Burst)} {io1 : List Int}

theorem DispatchCtx.head (c : DispatchCtx processes s b bs rest e P B2 io1) :
    b.burst_type = bt.CPU ∧ 0 < b.duration ∧ b.id < processes.length ∧
      altFrom b.id bt.IO_ bs = true ∧ bs.length % 2 = 0 := by
  have h := c.inv.ready_ok (b :: bs) (by rw [c.ready]; exact List.mem_cons_self _ _)
  obtain ⟨b0, bs0, heq, hty, hd, hid, halt, heven⟩ := readyOK_cons h
  simp only [List.cons.injEq] at heq
  obtain ⟨rfl, rfl⟩ := heq
  exact ⟨hty, hd, hid, halt, heven⟩

theorem DispatchCtx.rest_ok (c : DispatchCtx processes s b bs rest e P B2 io1) :
    ∀ l ∈ rest, readyOK processes.length l := fun l hl =>
  c.inv.ready_ok l (by rw [c.ready]; exact List.mem_cons_of_mem _ hl)

theorem DispatchCtx.ids_perm (c : DispatchCtx processes s b bs rest e P B2 io1) :
    (b.id :: (rest.map pid ++ (P.map pid ++ B2.map pid) ++ s.finished.map fun r => r.id)).Perm
      (List.range processes.length) := by
  have h := c.inv.ids
  rw [c.ready, ← c.phase.ids] at h
  simpa [pid] using h

theorem DispatchCtx.fresh (c : DispatchCtx processes s b bs rest e P B2 io1) :
    b.id ∉ rest.map pid ∧ b.id ∉ P.map pid ∧ b.id ∉ B2.map pid ∧
      b.id ∉ s.finished.map fun r => r.id := by
  have h : (b.id :: (rest.map pid ++ (P.map pid ++ B2.map pid) ++
      s.finished.map fun r => r.id)).Nodup :=
    c.ids_perm.nodup_iff.2 (List.nodup_range _)
  have h1 := (List.nodup_cons.1 h).1
  simp only [List.mem_append, not_or] at h1
  exact ⟨h1.1.1, h1.1.2.1, h1.1.2.2, h1.2⟩

theorem DispatchCtx.cons_cpu (c : DispatchCtx processes s b bs rest e P B2 io1) (p : Nat)
    (hp : p < processes.length) :
    (s.cpuExecutedTimes.set b.id (s.cpuExecutedTimes.getD b.id 0 + e)).getD p 0
      + ((if b.id = p then b.duration - e + durOf bt.CPU bs else 0)
        + remOf bt.CPU p rest + remOf bt.CPU p P + remOf bt.CPU p B2)
      = durOf bt.CPU (processes.getD p []) := by
  have h := c.inv.cons_cpu p hp
  have h2 := c.phase.cons_cpu p
  have hlt : b.id < s.cpuExecutedTimes.length := by rw [c.inv.cpu_len]; exact c.head.2.2.1
  rw [c.ready] at h
  rw [getD_set_add _ _ _ _ hlt]
  simp only [List.cons_append, remOf_cons, remOf_append, pid, durOf, c.head.1, if_true] at h h2
  split_ifs at h ⊢ <;> omega

theorem DispatchCtx.cons_io (c : DispatchCtx processes s b bs rest e P B2 io1) (p : Nat)
    (hp : p < processes.length) :
    io1.getD p 0
      + ((if b.id = p then durOf bt.IO_ bs else 0)
        + remOf bt.IO_ p rest + remOf bt.IO_ p P + remOf bt.IO_ p B2)
      = durOf bt.IO_ (processes.getD p []) := by
  have h := c.inv.cons_io p hp
  have h2 := c.phase.cons_io p
  rw [c.ready] at h
  simp only [List.cons_append, remOf_cons, remOf_append, pid, durOf, c.head.1] at h h2
  simp only [show (bt.CPU = bt.IO_) = False from by simp, if_false, zero_add] at h
  split_ifs at h ⊢ <;> omega

theorem DispatchCtx.total (c : DispatchCtx processes s b bs rest e P B2 io1) :
    totalDur rest + totalDur P + totalDur B2 + (bs.map fun (x : Burst) => x.duration).sum
      + b.duration ≤ totalDur s.readyQ + totalDur s.blockedQ := by
  have h := c.phase.total_le
  rw [c.ready]
  simp only [totalDur_cons, totalDur_append, List.map_cons, List.sum_cons] at h ⊢
  omega

end

section
variable {processes : List (List Burst)} {s : SimState} {b : Burst} {bs : List Burst}
  {rest : List (List Burst)} {e : Int} {P B2 : List (List Burst)} {io1 : List Int}

theorem inv_quantum_expired (c : DispatchCtx processes s b bs rest e P B2 io1)
    (hlt : e < b.duration) (ev : CpuEvent) (hev : ev.stopReason = QUANTUM_EXPIRED) :
    Inv processes
      { readyQ := (rest ++ P) ++ [{ b with duration := b.duration - e } :: bs]
        blockedQ := B2
        ioExecutedTimes := io1
        cpuExecutedTimes := s.cpuExecutedTimes.set b.id (s.cpuExecutedTimes.getD b.id 0 + e)
        total_time := s.total_time + e
        finished := s.finished
        trace := s.trace ++ [ev] } := by
  obtain ⟨hty, hd, hid, halt, heven⟩ := c.head
  have hpos := c.pos
  refine
    { ready_ok := ?_, blocked_ok := c.phase.blocked_ok, ids := ?_, sorted := c.phase.sorted,
      zero_front := ?_, io_len := c.phase.io_len, cpu_len := ?_, cons_cpu := ?_,
      cons_io := ?_, fin_sorted := c.inv.fin_sorted, fin_le := ?_, fin_cons := c.inv.fin_cons,
      trace_cons := ?_, time_lo := ?_, time_hi := ?_ }
  · intro l hl
    simp only [List.mem_append, List.mem_singleton] at hl
    rcases hl with (hl | hl) | rfl
    · exact c.rest_ok l hl
    · exact c.phase.promoted_ok l hl
    · refine ⟨?_, by simp only [List.length_cons]; omega, hid⟩
      simp only [pid, altFrom, hty, bt.flip, halt, Bool.and_eq_true, decide_eq_true_eq,
        and_true, true_and]
      omega
  · refine List.Perm.trans ?_ c.ids_perm
    rw [List.perm_iff_count]
    intro a
    simp only [List.map_append, List.map_cons, List.map_nil, pid, List.count_append,
      List.count_cons, List.count_nil]
    split_ifs <;> omega
  · intro _
    simp
  · simpa using c.inv.cpu_len
  · intro p hp
    have h := c.cons_cpu p hp
    simp only [remOf_append, remOf_cons, remOf_nil, pid, durOf, hty, if_true]
    split_ifs at h ⊢ <;> omega
  · intro p hp
    have h := c.cons_io p hp
    simp only [remOf_append, remOf_cons, remOf_nil, pid, durOf, hty]
    simp only [show (bt.CPU = bt.IO_) = False from by simp, if_false, zero_add]
    split_ifs at h ⊢ <;> omega
  · intro r hr
    have := c.inv.fin_le r hr
    show r.completionTime ≤ s.total_time + e
    omega
  · intro x hx hc
    simp only [List.mem_append, List.mem_singleton] at hx
    rcases hx with hx | rfl
    · exact c.inv.trace_cons x hx hc
    · rw [hev] at hc
      exact absurd hc (by decide)
  · show 0 ≤ s.total_time + e
    have := c.inv.time_lo
    omega
  · have htot := c.total
    have h := c.inv.time_hi
    simp only [totalDur_append, totalDur_cons, totalDur_nil, List.map_cons, List.sum_cons]
    omega

end

section
variable {processes : List (List Burst)} {s : SimState} {b : Burst} {bs : List Burst}
  {rest : List (List Burst)} {e : Int} {P B2 : List (List Burst)} {io1 : List Int}

theorem inv_enter_io (c : DispatchCtx processes s b bs rest e P B2 io1)
    (heq : e = b.duration) (hbs : bs ≠ []) (ev : CpuEvent) (hev : ev.stopReason = ENTER_IO) :
    Inv processes
      { readyQ := rest ++ P
        blockedQ := sortQ (B2 ++ [bs])
        ioExecutedTimes := io1
        cpuExecutedTimes := s.cpuExecutedTimes.set b.id (s.cpuExecutedTimes.getD b.id 0 + e)
        total_time := s.total_time + e
        finished := s.finished
        trace := s.trace ++ [ev] } := by
  obtain ⟨hty, hd, hid, halt, heven⟩ := c.head
  have hpos := c.pos
  obtain ⟨hbok, hbpos, hbpid⟩ := blockedOK_of_alt hid halt heven hbs
  have hperm := sortQ_perm (B2 ++ [bs])
  have hmem : ∀ l ∈ sortQ (B2 ++ [bs]), l ∈ B2 ∨ l = bs := by
    intro l hl
    simpa using hperm.subset hl
  refine
    { ready_ok := ?_, blocked_ok := ?_, ids := ?_, sorted := ?_,
      zero_front := ?_, io_len := c.phase.io_len, cpu_len := ?_, cons_cpu := ?_,
      cons_io := ?_, fin_sorted := c.inv.fin_sorted, fin_le := ?_, fin_cons := c.inv.fin_cons,
      trace_cons := ?_, time_lo := ?_, time_hi := ?_ }
  · intro l hl
    rcases List.mem_append.1 hl with hl | hl
    · exact c.rest_ok l hl
    · exact c.phase.promoted_ok l hl
  · intro l hl
    rcases hmem l hl with hl | rfl
    · exact c.phase.blocked_ok l hl
    · exact hbok
  · refine List.Perm.trans ?_ c.ids_perm
    refine List.Perm.trans
      (((hperm.map pid).append_left _).append_right _) ?_
    rw [List.perm_iff_count]
    intro a
    simp only [List.map_append, List.map_cons, List.map_nil, hbpid, List.count_append,
      List.count_cons, List.count_nil]
    split_ifs <;> omega
  · refine sortQ_sorted _ ?_
    intro l hl
    rcases List.mem_append.1 hl with hl | hl
    · exact blockedOK_ne_nil (c.phase.blocked_ok l hl)
    · rw [List.mem_singleton.1 hl]; exact hbs
  · rintro ⟨l, hl, h0⟩
    rcases hmem l hl with hl | rfl
    · have := c.phase.zero_front ⟨l, hl, h0⟩
      show rest ++ P ≠ []
      simp [this]
    · omega
  · simpa using c.inv.cpu_len
  · intro p hp
    have h := c.cons_cpu p hp
    show _ + remOf bt.CPU p (rest ++ P ++ sortQ (B2 ++ [bs])) = _
    rw [remOf_append, remOf_perm bt.CPU p hperm]
    simp only [remOf_append, remOf_cons, remOf_nil, hbpid]
    split_ifs at h ⊢ <;> omega
  · intro p hp
    have h := c.cons_io p hp
    show _ + remOf bt.IO_ p (rest ++ P ++ sortQ (B2 ++ [bs])) = _
    rw [remOf_append, remOf_perm bt.IO_ p hperm]
    simp only [remOf_append, remOf_cons, remOf_nil, hbpid]
    split_ifs at h ⊢ <;> omega
  · intro r hr
    have := c.inv.fin_le r hr
    show r.completionTime ≤ s.total_time + e
    omega
  · intro x hx hc
    simp only [List.mem_append, List.mem_singleton] at hx
    rcases hx with hx | rfl
    · exact c.inv.trace_cons x hx hc
    · rw [hev] at hc
      exact absurd hc (by decide)
  · show 0 ≤ s.total_time + e
    have := c.inv.time_lo
    omega
  · have htot := c.total
    have h := c.inv.time_hi
    simp only [totalDur_append, totalDur_perm (sortQ_perm _), totalDur_cons, totalDur_nil]
    omega

/-- At a completing dispatch the two counters of the process hold the sums of
its original CPU and IO bursts. -/
theorem DispatchCtx.done (c : DispatchCtx processes s b bs rest e P B2 io1)
    (heq : e = b.duration) (hbs : bs = []) :
    (s.cpuExecutedTimes.set b.id (s.cpuExecutedTimes.getD b.id 0 + e)).getD b.id 0
        = durOf bt.CPU (processes.getD b.id []) ∧
      io1.getD b.id 0 = durOf bt.IO_ (processes.getD b.id []) := by
  obtain ⟨hty, hd, hid, halt, heven⟩ := c.head
  obtain ⟨hf1, hf2, hf3, hf4⟩ := c.fresh
  have h1 := c.cons_cpu b.id hid
  have h2 := c.cons_io b.id hid
  subst hbs
  simp only [remOf_eq_zero_of_not_mem _ _ _ hf1, remOf_eq_zero_of_not_mem _ _ _ hf2,
    remOf_eq_zero_of_not_mem _ _ _ hf3, if_true, durOf] at h1 h2
  constructor <;> omega

theorem DispatchCtx.finished_lt (c : DispatchCtx processes s b bs rest e P B2 io1) :
    s.finished.length < processes.length := by
  have h := c.ids_perm.length_eq
  simp only [List.length_cons, List.length_append, List.length_map, List.length_range] at h
  omega

theorem inv_completed (c : DispatchCtx processes s b bs rest e P B2 io1)
    (heq : e = b.duration) (hbs : bs = []) (sr : ExecutionStopReasonType) :
    Inv processes
      { readyQ := rest ++ P
        blockedQ := B2
        ioExecutedTimes := io1
        cpuExecutedTimes := s.cpuExecutedTimes.set b.id (s.cpuExecutedTimes.getD b.id 0 + e)
        total_time := s.total_time + e
        finished := s.finished ++
          [{ id := b.id, completionTime := s.total_time + e,
             totalWaitTime := s.total_time + e
               - (s.cpuExecutedTimes.set b.id (s.cpuExecutedTimes.getD b.id 0 + e)).getD b.id 0
               - io1.getD b.id 0 }]
        trace := s.trace ++
          [{ procID := b.id
             cpuExecutedTime :=
               (s.cpuExecutedTimes.set b.id (s.cpuExecutedTimes.getD b.id 0 + e)).getD b.id 0
             ioExecutedTime := io1.getD b.id 0
             totalElapsedTime := s.total_time + e
             stopReason := sr }] } := by
  obtain ⟨hty, hd, hid, halt, heven⟩ := c.head
  have hpos := c.pos
  obtain ⟨hdc, hdi⟩ := c.done heq hbs
  refine
    { ready_ok := ?_, blocked_ok := c.phase.blocked_ok, ids := ?_, sorted := c.phase.sorted,
      zero_front := ?_, io_len := c.phase.io_len, cpu_len := ?_, cons_cpu := ?_,
      cons_io := ?_, fin_sorted := ?_, fin_le := ?_, fin_cons := ?_,
      trace_cons := ?_, time_lo := ?_, time_hi := ?_ }
  · intro l hl
    rcases List.mem_append.1 hl with hl | hl
    · exact c.rest_ok l hl
    · exact c.phase.promoted_ok l hl
  · refine List.Perm.trans ?_ c.ids_perm
    rw [List.perm_iff_count]
    intro a
    simp only [List.map_append, List.map_cons, List.map_nil, List.count_append,
      List.count_cons, List.count_nil]
    split_ifs <;> omega
  · intro h
    have := c.phase.zero_front h
    show rest ++ P ≠ []
    simp [this]
  · simpa using c.inv.cpu_len
  · intro p hp
    have h := c.cons_cpu p hp
    subst hbs
    simp only [remOf_append, durOf] at h ⊢
    split_ifs at h <;> omega
  · intro p hp
    have h := c.cons_io p hp
    subst hbs
    simp only [remOf_append, durOf] at h ⊢
    split_ifs at h <;> omega
  · refine List.pairwise_append.2 ⟨c.inv.fin_sorted, List.pairwise_singleton _ _, ?_⟩
    intro r hr x hx
    rw [List.mem_singleton.1 hx]
    have := c.inv.fin_le r hr
    show r.completionTime < s.total_time + e
    omega
  · intro r hr
    rcases List.mem_append.1 hr with hr | hr
    · have := c.inv.fin_le r hr
      show r.completionTime ≤ s.total_time + e
      omega
    · rw [List.mem_singleton.1 hr]
  · intro r hr
    rcases List.mem_append.1 hr with hr | hr
    · exact c.inv.fin_cons r hr
    · rw [List.mem_singleton.1 hr]
      simp only
      rw [← hdc, ← hdi]
      omega
  · intro x hx _
    simp only [List.mem_append, List.mem_singleton] at hx
    rcases hx with hx | rfl
    · exact c.inv.trace_cons x hx ‹_›
    · exact ⟨hdc, hdi⟩
  · show 0 ≤ s.total_time + e
    have := c.inv.time_lo
    omega
  · have htot := c.total
    have h := c.inv.time_hi
    have hl : (bs.map fun (x : Burst) => x.duration).sum = 0 := by rw [hbs]; rfl
    simp only [totalDur_append]
    omega

end

theorem finishDispatch_inv (processes : List (List Burst)) (s : SimState) (b : Burst)
    (bs : List Burst) (rest : List (List Burst)) (e : Int) (sr : ExecutionStopReasonType)
    (hinv : Inv processes s) (hready : s.readyQ = (b :: bs) :: rest) (hpos : 0 < e)
    (hle : e ≤ b.duration)
    (hsr : sr = if e < b.duration then QUANTUM_EXPIRED
      else if (b :: bs).length ≠ 1 then ENTER_IO else COMPLETED) :
    ∃ t, finishDispatchExact s (({ b with duration := b.duration - e } :: bs) :: rest)
        (s.cpuExecutedTimes.set b.id (s.cpuExecutedTimes.getD b.id 0 + e)) b.id e sr = some t ∧
      Inv processes t ∧ workLeft t < workLeft s := by
  obtain ⟨P, B2, io1, hpass, hprom, hph, -⟩ :=
    blockedPhase processes.length e s.blockedQ
      (({ b with duration := b.duration - e } :: bs) :: rest) s.ioExecutedTimes
      hinv.blocked_ok hinv.sorted hinv.io_len (le_of_lt hpos)
  have c : DispatchCtx processes s b bs rest e P B2 io1 :=
    { inv := hinv, ready := hready, pos := hpos, le := hle, phase := hph }
  obtain ⟨hty, hd, hid, halt, heven⟩ := c.head
  have htot := c.total
  have hphase : (if s.blockedQ.isEmpty then
        some ((s.blockedQ, ({ b with duration := b.duration - e } :: bs) :: rest),
          s.ioExecutedTimes)
      else
        (ioPassExact e s.blockedQ s.ioExecutedTimes).bind fun p =>
          (promoteLoop p.1.length 0 p.1
            (({ b with duration := b.duration - e } :: bs) :: rest)).map fun q => (q, p.2))
      = some ((B2, ({ b with duration := b.duration - e } :: bs) :: (rest ++ P)), io1) := by
    cases hB : s.blockedQ with
    | nil =>
      rw [hB] at hpass hprom
      simp only [ioPassExact, List.map_nil, Option.some.injEq, Prod.mk.injEq, true_and] at hpass
      simp only [promoteLoop, List.map_nil, List.length_nil, Option.some.injEq,
        Prod.mk.injEq] at hprom
      obtain ⟨h1, h2⟩ := hprom
      have hP : P = [] := by
        have := congrArg List.length h2
        simp only [List.length_cons, List.length_append] at this
        exact List.length_eq_zero.1 (by omega)
      subst hP
      simp [← h1, hpass]
    | cons x xs =>
      rw [hB] at hpass hprom
      simp only [List.isEmpty_cons, Bool.false_eq_true, if_false, hpass, Option.some_bind,
        hprom, Option.map_some', List.cons_append]
  have hcl : (s.cpuExecutedTimes.set b.id (s.cpuExecutedTimes.getD b.id 0 + e)).length
      = processes.length := by simpa using hinv.cpu_len
  have hguard : b.id < (s.cpuExecutedTimes.set b.id
      (s.cpuExecutedTimes.getD b.id 0 + e)).length ∧ b.id < io1.length := by
    rw [hcl, hph.io_len]; exact ⟨hid, hid⟩
  unfold finishDispatchExact
  rw [hphase]
  simp only [Option.some_bind, hguard, and_self, if_true]
  by_cases hlt : e < b.duration
  · rw [if_pos hlt] at hsr
    subst hsr
    refine ⟨_, rfl, inv_quantum_expired c hlt _ rfl, ?_⟩
    simp only [workLeft, totalDur_append, totalDur_cons, totalDur_nil, List.map_cons,
      List.sum_cons]
    omega
  · rw [if_neg hlt] at hsr
    have heq : e = b.duration := by omega
    by_cases hbs : bs = []
    · have h1 : ¬ (b :: bs).length ≠ 1 := by simp [hbs]
      rw [if_neg h1] at hsr
      subst hsr
      have hfin : s.finished.length < (s.cpuExecutedTimes.set b.id
          (s.cpuExecutedTimes.getD b.id 0 + e)).length := by
        rw [hcl]; exact c.finished_lt
      simp only [hfin, if_true]
      refine ⟨_, rfl, inv_completed c heq hbs _, ?_⟩
      have hl : (bs.map fun (x : Burst) => x.duration).sum = 0 := by rw [hbs]; rfl
      simp only [workLeft, totalDur_append]
      omega
    · have h1 : (b :: bs).length ≠ 1 := by
        cases bs with
        | nil => exact absurd rfl hbs
        | cons x xs => simp
      rw [if_pos h1] at hsr
      subst hsr
      refine ⟨_, rfl, inv_enter_io c heq hbs _ rfl, ?_⟩
      simp only [workLeft, totalDur_append, totalDur_perm (sortQ_perm _), totalDur_cons,
        totalDur_nil]
      omega

/-- In a state satisfying the invariant whose ready queue is empty, the head
duration of the front blocked entry is positive. -/
theorem Inv.front_pos {processes : List (List Burst)} {s : SimState} (hinv : Inv processes s)
    (hr : s.readyQ = []) {x : List Burst} {xs : List (List Burst)}
    (hb : s.blockedQ = x :: xs) : 0 < headDur x := by
  have hx : x ∈ s.blockedQ := by rw [hb]; exact List.mem_cons_self _ _
  obtain ⟨b, rest, rfl, _, hd, -⟩ := hinv.blocked_ok x hx
  by_contra hcon
  have h0 : headDur (b :: rest) = 0 := by
    simp only [headDur] at hcon ⊢
    omega
  exact hinv.zero_front ⟨_, hx, h0⟩ hr

theorem starve_inv (processes : List (List Burst)) (s : SimState) (hinv : Inv processes s)
    (hr : s.readyQ = []) (hb : s.blockedQ ≠ []) :
    ∃ t, starveExact s = some t ∧ Inv processes t ∧ workLeft t < workLeft s ∧
      s.total_time < t.total_time ∧ t.trace = s.trace ∧ t.finished = s.finished ∧
      t.total_time = s.total_time + headDur (s.blockedQ.headD []) := by
  cases hB : s.blockedQ with
  | nil => exact absurd hB hb
  | cons x xs =>
    have hpos := hinv.front_pos hr hB
    have hx : x ∈ s.blockedQ := by rw [hB]; exact List.mem_cons_self _ _
    obtain ⟨b, rest, rfl, hty, hd, halt, hodd, hid⟩ := hinv.blocked_ok x hx
    simp only [headDur] at hpos
    obtain ⟨P, B2, io1, hpass, hprom, hph, hfront⟩ :=
      blockedPhase processes.length b.duration s.blockedQ s.readyQ s.ioExecutedTimes
        hinv.blocked_ok hinv.sorted hinv.io_len hd
    obtain ⟨hPne, htot⟩ := hfront hb (by rw [hB]; exact le_refl _)
    have hids := hinv.ids
    have hcc := hinv.cons_cpu
    have hci := hinv.cons_io
    rw [hr] at hprom hids hcc hci
    rw [hB] at htot
    simp only [List.headD_cons, headDur] at htot
    refine ⟨{ s with
              blockedQ := B2
              readyQ := [] ++ P
              ioExecutedTimes := io1
              total_time := s.total_time + b.duration }, ?_, ?_, ?_, ?_, rfl, rfl, ?_⟩
    · unfold starveExact
      rw [hB]
      simp only
      rw [← hB, hpass, hr]
      simp only [Option.some_bind, hprom, Option.map_some']
    · refine
        { ready_ok := ?_, blocked_ok := hph.blocked_ok, ids := ?_, sorted := hph.sorted,
          zero_front := ?_, io_len := hph.io_len, cpu_len := hinv.cpu_len, cons_cpu := ?_,
          cons_io := ?_, fin_sorted := hinv.fin_sorted, fin_le := ?_,
          fin_cons := hinv.fin_cons, trace_cons := hinv.trace_cons, time_lo := ?_, time_hi := ?_ }
      · intro l hl
        exact hph.promoted_ok l (by simpa using hl)
      · simp only [List.nil_append, List.map_nil] at hids ⊢
        rw [hph.ids]
        exact hids
      · intro h
        simpa using hph.zero_front h
      · intro p hp
        have h := hcc p hp
        simp only [List.nil_append] at h ⊢
        rw [hph.cons_cpu p]
        exact h
      · intro p hp
        have h := hci p hp
        simp only [List.nil_append] at h ⊢
        rw [hph.cons_io p]
        exact h
      · intro r hrr
        have := hinv.fin_le r hrr
        show r.completionTime ≤ s.total_time + b.duration
        omega
      · show 0 ≤ s.total_time + b.duration
        have := hinv.time_lo
        omega
      · have h := hinv.time_hi
        rw [hr, hB] at h
        simp only [totalDur_nil, List.nil_append, totalDur_append, zero_add] at h htot ⊢
        omega
    · simp only [workLeft, hr, List.nil_append, totalDur_nil, zero_add]
      simp only [totalDur_append] at htot
      have h1 := (totalDur_nonneg_of P fun l hl => readyOK_sum_pos (hph.promoted_ok l hl)).1
      rw [hB]
      omega
    · show s.total_time < s.total_time + b.duration
      omega
    · simp [headDur]

/-- Every iteration of the `round_robin` loop that starts in a state satisfying
the invariant is defined, re-establishes the invariant and uses up work. -/
theorem rrStep_inv (processes : List (List Burst)) (quantum : Int) (s : SimState)
    (hinv : Inv processes s) (hq : s.readyQ ≠ [] → 0 < quantum)
    (hne : s.readyQ ≠ [] ∨ s.blockedQ ≠ []) :
    ∃ t, rrStepExact quantum s = some t ∧ Inv processes t ∧ workLeft t < workLeft s := by
  cases hR : s.readyQ with
  | nil =>
    have hb : s.blockedQ ≠ [] := by
      rcases hne with h | h
      · exact absurd hR h
      · exact h
    obtain ⟨t, h1, h2, h3, -⟩ := starve_inv processes s hinv hR hb
    refine ⟨t, ?_, h2, h3⟩
    unfold rrStepExact
    rw [hR]
    exact h1
  | cons x rest =>
    have hq0 : 0 < quantum := hq (by rw [hR]; exact List.cons_ne_nil _ _)
    obtain ⟨b, bs, rfl, hty, hd, hid, halt, heven⟩ :=
      readyOK_cons (hinv.ready_ok x (by rw [hR]; exact List.mem_cons_self _ _))
    have hlt : b.id < s.cpuExecutedTimes.length := by rw [hinv.cpu_len]; exact hid
    by_cases hle : b.duration ≤ quantum
    · obtain ⟨t, h1, h2, h3⟩ := finishDispatch_inv processes s b bs rest b.duration
        (if (b :: bs).length ≠ 1 then ENTER_IO else COMPLETED) hinv hR hd (le_refl _)
        (by simp)
      refine ⟨t, ?_, h2, h3⟩
      unfold rrStepExact
      rw [hR]
      simp only [hle, if_true, addAt_some _ _ _ hlt, Option.some_bind]
      rw [sub_self] at h1
      exact h1
    · obtain ⟨t, h1, h2, h3⟩ := finishDispatch_inv processes s b bs rest quantum
        QUANTUM_EXPIRED hinv hR hq0 (by omega) (by rw [if_pos (by omega)])
      refine ⟨t, ?_, h2, h3⟩
      unfold rrStepExact
      rw [hR]
      simp only [hle, if_false, addAt_some _ _ _ hlt, Option.some_bind]
      exact h1

/-- An iteration of `fcfs` is an iteration of `round_robin` whose quantum is the
remaining duration of the burst being dispatched. -/
theorem fcfsStep_eq_rrStep (s : SimState) :
    fcfsStepExact s = rrStepExact (headDur (s.readyQ.headD [])) s := by
  unfold fcfsStepExact rrStepExact
  cases hR : s.readyQ with
  | nil => rfl
  | cons x rest =>
    cases x with
    | nil => rfl
    | cons b bs => simp [headDur]

/-- Every iteration of the `fcfs` loop that starts in a state satisfying the
invariant is defined, re-establishes the invariant and uses up work. -/
theorem fcfsStep_inv (processes : List (List Burst)) (s : SimState)
    (hinv : Inv processes s) (hne : s.readyQ ≠ [] ∨ s.blockedQ ≠ []) :
    ∃ t, fcfsStepExact s = some t ∧ Inv processes t ∧ workLeft t < workLeft s := by
  rw [fcfsStep_eq_rrStep]
  refine rrStep_inv processes _ s hinv ?_ hne
  intro hR
  cases hRq : s.readyQ with
  | nil => exact absurd hRq hR
  | cons x rest =>
    obtain ⟨b, bs, rfl, hty, hd, -⟩ :=
      readyOK_cons (hinv.ready_ok x (by rw [hRq]; exact List.mem_cons_self _ _))
    simpa [headDur] using hd

theorem Inv.workLeft_nonneg {processes : List (List Burst)} {s : SimState}
    (hinv : Inv processes s) :
    0 ≤ workLeft s ∧ ((s.readyQ ≠ [] ∨ s.blockedQ ≠ []) → 0 < workLeft s) := by
  have h1 := totalDur_nonneg_of s.readyQ fun l hl => readyOK_sum_pos (hinv.ready_ok l hl)
  have h2 := totalDur_nonneg_of s.blockedQ fun l hl => blockedOK_sum_pos (hinv.blocked_ok l hl)
  refine ⟨by unfold workLeft; omega, ?_⟩
  rintro (h | h)
  · have := h1.2 h
    unfold workLeft; omega
  · have := h2.2 h
    unfold workLeft; omega

theorem runLoop_done (step : SimState → Option SimState) (fuel : Nat) (s : SimState)
    (hr : s.readyQ = []) (hb : s.blockedQ = []) : runLoop step fuel s = some s := by
  cases fuel <;> simp [runLoop, hr, hb]

theorem runLoop_step (step : SimState → Option SimState) (fuel : Nat) (s : SimState)
    (hne : s.readyQ ≠ [] ∨ s.blockedQ ≠ []) :
    runLoop step (fuel + 1) s = (step s).bind (runLoop step fuel) := by
  have h : ¬ (s.readyQ.isEmpty = true ∧ s.blockedQ.isEmpty = true) := by
    simp only [List.isEmpty_iff]
    rintro ⟨h1, h2⟩
    rcases hne with h | h
    · exact h h1
    · exact h h2
  rw [runLoop]
  simp only [h, if_false]

theorem runLoop_zero (step : SimState → Option SimState) (s : SimState)
    (hne : s.readyQ ≠ [] ∨ s.blockedQ ≠ []) : runLoop step 0 s = none := by
  have h : ¬ (s.readyQ.isEmpty = true ∧ s.blockedQ.isEmpty = true) := by
    simp only [List.isEmpty_iff]
    rintro ⟨h1, h2⟩
    rcases hne with h | h
    · exact h h1
    · exact h h2
  rw [runLoop]
  simp only [h, if_false]

/-- A loop whose iterations keep the invariant and use up work ends, given fuel
for the work that is left, in a reachable state with both queues empty. -/
theorem runLoop_spec (processes : List (List Burst)) (step : SimState → Option SimState)
    (hstep : ∀ s, Inv processes s → (s.readyQ ≠ [] ∨ s.blockedQ ≠ []) →
      ∃ t, step s = some t ∧ Inv processes t ∧ workLeft t < workLeft s)
    (s0 : SimState) :
    ∀ (fuel : Nat) (s : SimState), Reach step s0 s → Inv processes s →
      (workLeft s).toNat ≤ fuel →
      ∃ t, runLoop step fuel s = some t ∧ Reach step s0 t ∧ Inv processes t ∧
        t.readyQ = [] ∧ t.blockedQ = [] := by
  intro fuel
  induction fuel with
  | zero =>
    intro s hreach hinv hfuel
    by_cases hne : s.readyQ ≠ [] ∨ s.blockedQ ≠ []
    · have := hinv.workLeft_nonneg.2 hne
      omega
    · simp only [not_or, not_not] at hne
      exact ⟨s, runLoop_done step 0 s hne.1 hne.2, hreach, hinv, hne.1, hne.2⟩
  | succ fuel ih =>
    intro s hreach hinv hfuel
    by_cases hne : s.readyQ ≠ [] ∨ s.blockedQ ≠ []
    · obtain ⟨t, h1, h2, h3⟩ := hstep s hinv hne
      have h4 := h2.workLeft_nonneg.1
      obtain ⟨u, hu⟩ := ih t (Reach.next hreach hne h1) h2 (by omega)
      refine ⟨u, ?_, hu.2⟩
      rw [runLoop_step step fuel s hne, h1]
      exact hu.1
    · simp only [not_or, not_not] at hne
      exact ⟨s, runLoop_done step _ s hne.1 hne.2, hreach, hinv, hne.1, hne.2⟩

theorem reach_inv (processes : List (List Burst)) (step : SimState → Option SimState)
    (hstep : ∀ s, Inv processes s → (s.readyQ ≠ [] ∨ s.blockedQ ≠ []) →
      ∃ t, step s = some t ∧ Inv processes t ∧ workLeft t < workLeft s)
    (s0 : SimState) (h0 : Inv processes s0) :
    ∀ s, Reach step s0 s → Inv processes s := by
  intro s hreach
  induction hreach with
  | init => exact h0
  | next _ hne hst ih =>
    obtain ⟨t, h1, h2, -⟩ := hstep _ ih hne
    rw [h1] at hst
    cases hst
    exact h2

/-- On a run of valid processes numbered from `i`: the entry ids are
`i, i + 1, ...`, every entry is well-formed, and the entry of process `p` is the
only one counted by `remOf`. -/
theorem validFrom_spec (k : bt) :
    ∀ (ps : List (List Burst)) (i : Nat), validFrom i ps = true →
      ps.map pid = List.range' i ps.length ∧
      (∀ n, i + ps.length ≤ n → ∀ l ∈ ps, readyOK n l) ∧
      (∀ p, remOf k p ps = if i ≤ p then durOf k (ps.getD (p - i) []) else 0) := by
  intro ps
  induction ps with
  | nil =>
    intro i _
    refine ⟨rfl, fun _ _ l hl => absurd hl (List.not_mem_nil l), fun p => ?_⟩
    simp [remOf, durOf]
  | cons l ps ih =>
    intro i h
    simp only [validFrom, validProcess, Bool.and_eq_true, decide_eq_true_eq] at h
    obtain ⟨⟨halt, hodd⟩, hrest⟩ := h
    obtain ⟨h1, h2, h3⟩ := ih (i + 1) hrest
    have hpid : pid l = i := by
      cases l with
      | nil => simp at hodd
      | cons b bs =>
        simp only [altFrom, Bool.and_eq_true, decide_eq_true_eq] at halt
        exact halt.1.1.1
    refine ⟨?_, ?_, ?_⟩
    · simp only [List.map_cons, List.length_cons, List.range'_succ, h1, hpid]
    · intro n hn x hx
      rcases List.mem_cons.1 hx with rfl | hx
      · refine ⟨by rw [hpid]; exact halt, hodd, ?_⟩
        rw [hpid]
        simp only [List.length_cons] at hn
        omega
      · exact h2 n (by simp only [List.length_cons] at hn; omega) x hx
    · intro p
      rw [remOf_cons, h3 p, hpid]
      by_cases hip : i = p
      · subst hip
        simp
      · by_cases hle : i ≤ p
        · have h4 : i + 1 ≤ p := by omega
          obtain ⟨d, rfl⟩ : ∃ d, p = i + 1 + d := ⟨p - (i + 1), by omega⟩
          have h5 : i + 1 + d - i = d + 1 := by omega
          simp [hip, h5, hle]
        · have h4 : ¬ i + 1 ≤ p := by omega
          simp [hip, hle, h4]

theorem getD_replicate_zero (n p : Nat) : (List.replicate n (0 : Int)).getD p 0 = 0 := by
  simp only [List.getD_eq_getElem?_getD, List.getElem?_replicate]
  split_ifs <;> rfl

/-- The state on entry to either loop satisfies the invariant. -/
theorem initState_inv (processes : List (List Burst)) (hv : validInput processes = true) :
    Inv processes (initState processes) := by
  simp only [validInput, Bool.and_eq_true] at hv
  have hc := validFrom_spec bt.CPU processes 0 hv.2
  have hi := validFrom_spec bt.IO_ processes 0 hv.2
  refine
    { ready_ok := ?_, blocked_ok := ?_, ids := ?_, sorted := List.Pairwise.nil,
      zero_front := ?_, io_len := ?_, cpu_len := ?_, cons_cpu := ?_,
      cons_io := ?_, fin_sorted := List.Pairwise.nil, fin_le := ?_, fin_cons := ?_,
      trace_cons := ?_, time_lo := ?_, time_hi := ?_ }
  · exact hc.2.1 processes.length (by omega)
  · intro l hl
    exact absurd hl (List.not_mem_nil l)
  · simp only [initState, List.map_nil, List.append_nil, hc.1]
    rw [List.range_eq_range']
  · rintro ⟨l, hl, -⟩
    exact absurd hl (List.not_mem_nil l)
  · simp [initState]
  · simp [initState]
  · intro p _
    simp only [initState, List.append_nil, getD_replicate_zero, zero_add, hc.2.2 p]
    simp
  · intro p _
    simp only [initState, List.append_nil, getD_replicate_zero, zero_add, hi.2.2 p]
    simp
  · intro r hr
    exact absurd hr (List.not_mem_nil r)
  · intro r hr
    exact absurd hr (List.not_mem_nil r)
  · intro e he
    exact absurd he (List.not_mem_nil e)
  · simp [initState]
  · simp [initState, totalDur_nil]

theorem loopFuel_eq (processes : List (List Burst)) :
    loopFuel processes = (workLeft (initState processes)).toNat := by
  simp [loopFuel, workLeft, initState, totalDur]

/-- What a starvation iteration leaves untouched, and by how much it advances
the time. -/
theorem starve_shape {s t : SimState} (h : starveExact s = some t) :
    t.trace = s.trace ∧ t.finished = s.finished ∧ t.cpuExecutedTimes = s.cpuExecutedTimes ∧
      t.total_time = s.total_time + headDur (s.blockedQ.headD []) := by
  unfold starveExact at h
  split at h
  · exact absurd h (by simp)
  · exact absurd h (by simp)
  · rename_i b bs rest hB
    simp only [Option.bind_eq_some, Option.map_eq_some'] at h
    obtain ⟨p, -, q, -, rfl⟩ := h
    simp [hB, headDur]

/-- What the common part of a dispatch iteration does to the time, the CPU
array and the trace. -/
theorem finishDispatch_shape {s t : SimState} {R : List (List Burst)} {cpu : List Int}
    {id : Nat} {e : Int} {sr : ExecutionStopReasonType}
    (h : finishDispatchExact s R cpu id e sr = some t) :
    t.total_time = s.total_time + e ∧ t.cpuExecutedTimes = cpu ∧ id < cpu.length ∧
      t.trace = s.trace ++
        [{ procID := id, cpuExecutedTime := cpu.getD id 0,
           ioExecutedTime := t.ioExecutedTimes.getD id 0,
           totalElapsedTime := s.total_time + e, stopReason := sr }] := by
  unfold finishDispatchExact at h
  simp only [Option.bind_eq_some] at h
  obtain ⟨r, -, h⟩ := h
  by_cases hg : id < cpu.length ∧ id < r.2.length
  swap
  · rw [if_neg hg] at h
    exact absurd h (by simp)
  rw [if_pos hg] at h
  cases hR : r.1.2 with
  | nil =>
    rw [hR] at h
    exact absurd h (by simp)
  | cons front others =>
    rw [hR] at h
    cases sr with
    | QUANTUM_EXPIRED =>
      simp only [Option.some.injEq] at h
      subst h
      exact ⟨rfl, rfl, hg.1, rfl⟩
    | ENTER_IO =>
      cases front with
      | nil => exact absurd h (by simp)
      | cons x xs =>
        simp only [Option.some.injEq] at h
        subst h
        exact ⟨rfl, rfl, hg.1, rfl⟩
    | COMPLETED =>
      by_cases hf : s.finished.length < cpu.length
      · simp only [hf, if_true, Option.some.injEq] at h
        subst h
        exact ⟨rfl, rfl, hg.1, rfl⟩
      · simp only [hf, if_false] at h
        exact absurd h (by simp)

theorem getD_set_self (a : List Int) (i : Nat) (v : Int) (h : i < a.length) :
    (a.set i (a.getD i 0 + v)).getD i 0 = a.getD i 0 + v := by
  rw [getD_set_add a i i v h]
  simp

/-- What a dispatch iteration of `round_robin` does to the time, the CPU counter
of the dispatched process and the trace. -/
theorem rrStep_dispatch {quantum : Int} {s t : SimState} {b : Burst} {bs : List Burst}
    {rest : List (List Burst)} (hR : s.readyQ = (b :: bs) :: rest)
    (h : rrStepExact quantum s = some t) :
    t.total_time = s.total_time + min quantum b.duration ∧
      t.cpuExecutedTimes.getD b.id 0
        = s.cpuExecutedTimes.getD b.id 0 + min quantum b.duration ∧
      ∃ ev, t.trace = s.trace ++ [ev] ∧ ev.procID = b.id ∧
        ev.cpuExecutedTime = t.cpuExecutedTimes.getD b.id 0 ∧
        ev.ioExecutedTime = t.ioExecutedTimes.getD b.id 0 ∧
        ev.totalElapsedTime = t.total_time ∧
        ev.stopReason = (if quantum < b.duration then QUANTUM_EXPIRED
          else if bs = [] then COMPLETED else ENTER_IO) := by
  unfold rrStepExact at h
  rw [hR] at h
  simp only at h
  by_cases hle : b.duration ≤ quantum
  · simp only [hle, if_true, Option.bind_eq_some] at h
    obtain ⟨cpu, hcpu, h⟩ := h
    unfold addAtExact at hcpu
    split_ifs at hcpu with hlt
    simp only [Option.some.injEq] at hcpu
    subst hcpu
    obtain ⟨h1, h2, -, h4⟩ := finishDispatch_shape h
    have hmin : min quantum b.duration = b.duration := min_eq_right hle
    refine ⟨by rw [h1, hmin], by rw [h2, hmin, getD_set_self _ _ _ hlt], _, h4, rfl, ?_, rfl,
      by simp only [h1], ?_⟩
    · simp only [h2]
    · have hnlt : ¬ quantum < b.duration := by omega
      simp only [hnlt, if_false]
      cases bs <;> simp
  · simp only [hle, if_false, Option.bind_eq_some] at h
    obtain ⟨cpu, hcpu, h⟩ := h
    unfold addAtExact at hcpu
    split_ifs at hcpu with hlt
    simp only [Option.some.injEq] at hcpu
    subst hcpu
    obtain ⟨h1, h2, -, h4⟩ := finishDispatch_shape h
    have hmin : min quantum b.duration = quantum := min_eq_left (by omega)
    refine ⟨by rw [h1, hmin], by rw [h2, hmin, getD_set_self _ _ _ hlt], _, h4, rfl, ?_, rfl,
      by simp only [h1], ?_⟩
    · simp only [h2]
    · have hnlt : quantum < b.duration := by omega
      simp only [hnlt, if_true]

/-- The time strictly increases in every iteration of `round_robin` that starts
from a state satisfying the invariant. -/
theorem rrStep_time (processes : List (List Burst)) (quantum : Int) (s t : SimState)
    (hinv : Inv processes s) (hq : s.readyQ ≠ [] → 0 < quantum)
    (hne : s.readyQ ≠ [] ∨ s.blockedQ ≠ []) (h : rrStepExact quantum s = some t) :
    s.total_time < t.total_time := by
  cases hR : s.readyQ with
  | nil =>
    have hb : s.blockedQ ≠ [] := by
      rcases hne with h1 | h1
      · exact absurd hR h1
      · exact h1
    obtain ⟨u, h1, -, -, h2, -⟩ := starve_inv processes s hinv hR hb
    unfold rrStepExact at h
    rw [hR] at h
    simp only at h
    rw [h1] at h
    cases h
    exact h2
  | cons x rest =>
    have hq0 : 0 < quantum := hq (by rw [hR]; exact List.cons_ne_nil _ _)
    obtain ⟨b, bs, rfl, hty, hd, -⟩ :=
      readyOK_cons (hinv.ready_ok x (by rw [hR]; exact List.mem_cons_self _ _))
    have h1 := (rrStep_dispatch hR h).1
    have : 0 < min quantum b.duration := lt_min hq0 hd
    omega

theorem runLoop_mono (step : SimState → Option SimState) :
    ∀ (fuel : Nat) (s t : SimState), runLoop step fuel s = some t →
      ∀ k, runLoop step (fuel + k) s = some t := by
  intro fuel
  induction fuel with
  | zero =>
    intro s t h k
    by_cases hne : s.readyQ ≠ [] ∨ s.blockedQ ≠ []
    · rw [runLoop_zero step s hne] at h
      exact absurd h (by simp)
    · simp only [not_or, not_not] at hne
      rw [runLoop_done step 0 s hne.1 hne.2] at h
      rw [runLoop_done step _ s hne.1 hne.2]
      exact h
  | succ fuel ih =>
    intro s t h k
    by_cases hne : s.readyQ ≠ [] ∨ s.blockedQ ≠ []
    · rw [runLoop_step step fuel s hne] at h
      rw [show fuel + 1 + k = (fuel + k) + 1 by omega, runLoop_step step _ s hne]
      cases hs : step s with
      | none => rw [hs] at h; exact absurd h (by simp)
      | some u =>
        rw [hs] at h
        simp only [Option.some_bind] at h ⊢
        exact ih u t h k
    · simp only [not_or, not_not] at hne
      rw [runLoop_done step _ s hne.1 hne.2] at h
      rw [runLoop_done step _ s hne.1 hne.2]
      exact h

theorem durOf_add (l : List Burst) :
    durOf bt.CPU l + durOf bt.IO_ l = (l.map fun (b : Burst) => b.duration).sum := by
  induction l with
  | nil => rfl
  | cons b bs ih =>
    simp only [durOf, List.map_cons, List.sum_cons]
    cases hb : b.burst_type <;> simp <;> omega

/-- In a state satisfying the invariant the two counters of a process that has
a completion record hold the sums of its original CPU and IO bursts. -/
theorem Inv.finished_counters {processes : List (List Burst)} {s : SimState}
    (hinv : Inv processes s) {r : completionLog} (hr : r ∈ s.finished) :
    r.id < processes.length ∧
      s.cpuExecutedTimes.getD r.id 0 = durOf bt.CPU (processes.getD r.id []) ∧
      s.ioExecutedTimes.getD r.id 0 = durOf bt.IO_ (processes.getD r.id []) := by
  have hmem : r.id ∈ s.finished.map fun r => r.id := List.mem_map.2 ⟨r, hr, rfl⟩
  have hlt : r.id < processes.length := by
    have := hinv.ids.subset (List.mem_append_right _ hmem)
    simpa using this
  have hnd : (s.readyQ.map pid ++ s.blockedQ.map pid ++ s.finished.map fun r => r.id).Nodup :=
    hinv.ids.nodup_iff.2 (List.nodup_range _)
  have hdis := (List.nodup_append.1 hnd).2.2
  have hq : r.id ∉ (s.readyQ ++ s.blockedQ).map pid := by
    intro hin
    rw [List.map_append] at hin
    exact hdis hin hmem
  have h1 := hinv.cons_cpu r.id hlt
  have h2 := hinv.cons_io r.id hlt
  rw [remOf_eq_zero_of_not_mem _ _ _ hq] at h1 h2
  exact ⟨hlt, by omega, by omega⟩

/-- Both step functions keep the invariant and use up work: `fcfsStepExact`, and
`rrStepExact` for a positive quantum. -/
theorem step_inv (processes : List (List Burst)) (quantum : Int) (hq : 0 < quantum)
    (step : SimState → Option SimState)
    (hstep : step = fcfsStepExact ∨ step = rrStepExact quantum) :
    ∀ s, Inv processes s → (s.readyQ ≠ [] ∨ s.blockedQ ≠ []) →
      ∃ t, step s = some t ∧ Inv processes t ∧ workLeft t < workLeft s := by
  intro s hinv hne
  rcases hstep with rfl | rfl
  · exact fcfsStep_inv processes s hinv hne
  · exact rrStep_inv processes quantum s hinv (fun _ => hq) hne

theorem step_time (processes : List (List Burst)) (quantum : Int) (hq : 0 < quantum)
    (step : SimState → Option SimState)
    (hstep : step = fcfsStepExact ∨ step = rrStepExact quantum)
    (s t : SimState) (hinv : Inv processes s) (hne : s.readyQ ≠ [] ∨ s.blockedQ ≠ [])
    (h : step s = some t) : s.total_time < t.total_time := by
  rcases hstep with rfl | rfl
  · rw [fcfsStep_eq_rrStep] at h
    refine rrStep_time processes _ s t hinv ?_ hne h
    intro hR
    cases hRq : s.readyQ with
    | nil => exact absurd hRq hR
    | cons x rest =>
      obtain ⟨b, bs, rfl, hty, hd, -⟩ :=
        readyOK_cons (hinv.ready_ok x (by rw [hRq]; exact List.mem_cons_self _ _))
      simpa [headDur] using hd
  · exact rrStep_time processes quantum s t hinv (fun _ => hq) hne h

/-- Either loop, run on a valid input with the fuel `loopFuel`, ends in a
reachable state that satisfies the invariant and has both queues empty. -/
theorem loop_spec (processes : List (List Burst)) (quantum : Int)
    (hv : validInput processes = true) (hq : 0 < quantum)
    (step : SimState → Option SimState)
    (hstep : step = fcfsStepExact ∨ step = rrStepExact quantum) :
    ∃ sf, runLoop step (loopFuel processes) (initState processes) = some sf ∧
      Reach step (initState processes) sf ∧ Inv processes sf ∧
      sf.readyQ = [] ∧ sf.blockedQ = [] :=
  runLoop_spec processes step (step_inv processes quantum hq step hstep) (initState processes)
    (loopFuel processes) (initState processes) Reach.init (initState_inv processes hv)
    (by rw [loopFuel_eq])

theorem reachable_inv (processes : List (List Burst)) (quantum : Int)
    (hv : validInput processes = true) (hq : 0 < quantum)
    (step : SimState → Option SimState)
    (hstep : step = fcfsStepExact ∨ step = rrStepExact quantum)
    (s : SimState) (hs : Reach step (initState processes) s) : Inv processes s :=
  reach_inv processes step (step_inv processes quantum hq step hstep) (initState processes)
    (initState_inv processes hv) s hs

/-- In a state with both queues empty that satisfies the invariant, the
completion records are those of the processes `0 .. n-1`, each once. -/
theorem Inv.finished_perm {processes : List (List Burst)} {s : SimState}
    (hinv : Inv processes s) (hr : s.readyQ = []) (hb : s.blockedQ = []) :
    (s.finished.map fun r => r.id).Perm (List.range processes.length) := by
  have h := hinv.ids
  rw [hr, hb] at h
  simpa using h

theorem runLoop_unroll (step : SimState → Option SimState) (fuel : Nat) (s t : SimState)
    (hne : s.readyQ ≠ [] ∨ s.blockedQ ≠ []) (h : step s = some t) :
    runLoop step (fuel + 1) s = runLoop step fuel t := by
  rw [runLoop_step step fuel s hne, h]
  rfl

theorem step_of_ready_nil (quantum : Int) (step : SimState → Option SimState)
    (hstep : step = fcfsStepExact ∨ step = rrStepExact quantum) (s : SimState)
    (hR : s.readyQ = []) :
    step s = starveExact s := by
  rcases hstep with rfl | rfl
  · unfold fcfsStepExact; rw [hR]
  · unfold rrStepExact; rw [hR]

/-- An iteration of `fcfs` either leaves the trace alone or appends one event
whose stop reason is not `quantum expired`. -/
theorem fcfsStep_trace {s t : SimState} (h : fcfsStepExact s = some t) :
    t.trace = s.trace ∨ ∃ ev, t.trace = s.trace ++ [ev] ∧ ev.stopReason ≠ QUANTUM_EXPIRED := by
  cases hR : s.readyQ with
  | nil =>
    rw [step_of_ready_nil 1 fcfsStepExact (Or.inl rfl) s hR] at h
    exact Or.inl (starve_shape h).1
  | cons x rest =>
    cases x with
    | nil =>
      unfold fcfsStepExact at h
      rw [hR] at h
      exact absurd h (by simp)
    | cons b bs =>
      rw [fcfsStep_eq_rrStep, hR] at h
      simp only [List.headD_cons, headDur] at h
      obtain ⟨-, -, ev, h1, -, -, -, -, h2⟩ := rrStep_dispatch hR h
      refine Or.inr ⟨ev, h1, ?_⟩
      rw [h2, if_neg (lt_irrefl _)]
      split_ifs <;> simp

theorem fcfs_reach_trace (s0 : SimState) (h0 : s0.trace = []) :
    ∀ s, Reach fcfsStepExact s0 s → ∀ ev ∈ s.trace, ev.stopReason ≠ QUANTUM_EXPIRED := by
  intro s hs
  induction hs with
  | init => intro ev hev; rw [h0] at hev; exact absurd hev (List.not_mem_nil ev)
  | next _ _ hst ih =>
    intro ev hev
    rcases fcfsStep_trace hst with h | ⟨ev1, h, h1⟩
    · rw [h] at hev; exact ih ev hev
    · rw [h] at hev
      rcases List.mem_append.1 hev with hev | hev
      · exact ih ev hev
      · rw [List.mem_singleton.1 hev]; exact h1

theorem mkProcess_length (i : Nat) : ∀ (vals : List Int) (j : Nat),
    (mkProcess i j vals).length = vals.length := by
  intro vals
  induction vals with
  | nil => intro j; rfl
  | cons v vs ih => intro j; simp [mkProcess, ih]

theorem mkProcess_getElem? (i : Nat) : ∀ (vals : List Int) (j a : Nat),
    (mkProcess i j vals)[a]? = vals[a]?.map fun v =>
      { id := i, duration := v, burst_type := if (j + a) % 2 = 1 then bt.IO_ else bt.CPU } := by
  intro vals
  induction vals with
  | nil => intro j a; simp [mkProcess]
  | cons v vs ih =>
    intro j a
    cases a with
    | zero => simp [mkProcess]
    | succ a =>
      simp only [mkProcess, List.getElem?_cons_succ, ih]
      rw [show j + 1 + a = j + (a + 1) by omega]

theorem mkProcesses_length : ∀ (lines : List (List Int)) (i : Nat),
    (mkProcesses i lines).length = lines.length := by
  intro lines
  induction lines with
  | nil => intro i; rfl
  | cons l ls ih => intro i; simp [mkProcesses, ih]

theorem mkProcesses_getElem? : ∀ (lines : List (List Int)) (k i : Nat),
    (mkProcesses k lines)[i]? = lines[i]?.map (mkProcess (k + i) 0) := by
  intro lines
  induction lines with
  | nil => intro k i; simp [mkProcesses]
  | cons l ls ih =>
    intro k i
    cases i with
    | zero => simp [mkProcesses]
    | succ i =>
      simp only [mkProcesses, List.getElem?_cons_succ, ih]
      rw [show k + 1 + i = k + (i + 1) by omega]

theorem altFrom_mkProcess (i : Nat) : ∀ (vals : List Int) (j : Nat), (∀ v ∈ vals, 0 < v) →
    altFrom i (if j % 2 = 1 then bt.IO_ else bt.CPU) (mkProcess i j vals) = true := by
  intro vals
  induction vals with
  | nil => intro j _; rfl
  | cons v vs ih =>
    intro j h
    have h1 := ih (j + 1) (fun x hx => h x (List.mem_cons_of_mem _ hx))
    have hv := h v (List.mem_cons_self _ _)
    simp only [mkProcess, altFrom, decide_True, Bool.true_and, hv, Bool.and_eq_true,
      decide_eq_true_eq, true_and]
    by_cases hj : j % 2 = 1
    · have hj1 : ¬ (j + 1) % 2 = 1 := by omega
      simpa [hj, hj1, bt.flip] using h1
    · have hj1 : (j + 1) % 2 = 1 := by omega
      simpa [hj, hj1, bt.flip] using h1

theorem validFrom_mkProcesses : ∀ (lines : List (List Int)) (i : Nat),
    (∀ line ∈ lines, (∀ v ∈ line, 0 < v) ∧ line.length % 2 = 1) →
    validFrom i (mkProcesses i lines) = true := by
  intro lines
  induction lines with
  | nil => intro i _; rfl
  | cons l ls ih =>
    intro i h
    have hl := h l (List.mem_cons_self _ _)
    have h1 := altFrom_mkProcess i l 0 hl.1
    simp only [Nat.zero_mod, zero_ne_one, if_false] at h1
    simp [mkProcesses, validFrom, validProcess, h1, mkProcess_length, hl.2,
      ih (i + 1) (fun x hx => h x (List.mem_cons_of_mem _ hx))]

theorem stableInsert_filter_ne (x : List Burst) (d : Int) (hx : headDur x ≠ d) :
    ∀ ys : List (List Burst),
      (stableInsert x ys).filter (fun l => decide (headDur l = d))
        = ys.filter (fun l => decide (headDur l = d)) := by
  intro ys
  induction ys with
  | nil => simp [stableInsert, hx]
  | cons y ys ih =>
    simp only [stableInsert]
    split_ifs
    · simp [List.filter_cons, hx]
    · simp only [List.filter_cons, ih]

theorem stableInsert_filter_eq (x : List Burst) (hx : x ≠ []) :
    ∀ ys : List (List Burst), (∀ l ∈ ys, l ≠ []) →
      (ys.Pairwise fun a b => headDur a ≤ headDur b) →
      (stableInsert x ys).filter (fun l => decide (headDur l = headDur x))
        = ys.filter (fun l => decide (headDur l = headDur x)) ++ [x] := by
  intro ys
  induction ys with
  | nil => intro _ _; simp [stableInsert]
  | cons y ys ih =>
    intro hne hs
    have hy : y ≠ [] := hne y (List.mem_cons_self _ _)
    have hs' := List.pairwise_cons.1 hs
    simp only [stableInsert, sortQ_less_eq hx hy, decide_eq_true_eq]
    split_ifs with hlt
    · have hnone : (y :: ys).filter (fun l => decide (headDur l = headDur x)) = [] := by
        rw [List.filter_eq_nil_iff]
        intro z hz
        simp only [decide_eq_true_eq]
        rcases List.mem_cons.1 hz with rfl | hz
        · omega
        · have := hs'.1 z hz
          omega
      rw [hnone]
      rw [List.filter_cons, hnone]
      simp
    · have h1 := ih (fun l hl => hne l (List.mem_cons_of_mem _ hl)) hs'.2
      simp only [List.filter_cons, h1]
      split_ifs <;> simp

theorem foldl_stableInsert_filter (d : Int) :
    ∀ (B acc : List (List Burst)), (∀ l ∈ B, l ≠ []) → (∀ l ∈ acc, l ≠ []) →
      (acc.Pairwise fun a b => headDur a ≤ headDur b) →
      (B.foldl (fun acc x => stableInsert x acc) acc).filter (fun l => decide (headDur l = d))
        = acc.filter (fun l => decide (headDur l = d))
          ++ B.filter (fun l => decide (headDur l = d)) := by
  intro B
  induction B with
  | nil => intro acc _ _ _; simp
  | cons x B ih =>
    intro acc hB hacc hs
    have hx : x ≠ [] := hB x (List.mem_cons_self _ _)
    have hacc1 : ∀ l ∈ stableInsert x acc, l ≠ [] := by
      intro l hl
      rcases List.mem_cons.1 ((stableInsert_perm x acc).subset hl) with rfl | hl
      · exact hx
      · exact hacc l hl
    simp only [List.foldl_cons]
    rw [ih (stableInsert x acc) (fun l hl => hB l (List.mem_cons_of_mem _ hl)) hacc1
      (stableInsert_sorted x hx acc hacc hs)]
    by_cases hd : headDur x = d
    · subst hd
      rw [stableInsert_filter_eq x hx acc hacc hs]
      simp [List.filter_cons]
    · rw [stableInsert_filter_ne x d hd acc]
      simp [List.filter_cons, hd]

/-- The blocked-queue part of an iteration in explicit form: the range-for maps
every entry by `decHead`, the promotion loop then moves the tails of the first
`k` entries, all with a zero head, to the back of the ready queue. -/
theorem blockedPass_explicit (n : Nat) (e : Int) (B R : List (List Burst)) (io : List Int)
    (hB : ∀ l ∈ B, blockedOK n l) (hio : io.length = n) :
    ∃ k io1, ioPassExact e B io = some (B.map (decHead e), io1) ∧
      promoteLoop (B.map (decHead e)).length 0 (B.map (decHead e)) R
        = some ((B.map (decHead e)).drop k, R ++ ((B.map (decHead e)).take k).map List.tail) ∧
      (∀ l ∈ (B.map (decHead e)).take k, headDur l = 0) ∧
      (B ≠ [] → headDur (decHead e (B.headD [])) = 0 → 0 < k) ∧
      io1.length = n ∧
      ∀ p, io1.getD p 0 + remOf bt.IO_ p (B.map (decHead e))
        = io.getD p 0 + remOf bt.IO_ p B := by
  obtain ⟨io1, hpass, hlen, hcons⟩ := ioPass_spec n e B io hB hio
  have hne : ∀ l ∈ B.map (decHead e), l ≠ [] := by
    intro l hl
    obtain ⟨l0, hl0, rfl⟩ := List.mem_map.1 hl
    exact blockedOK_ne_nil (blockedOK_decHead (hB l0 hl0))
  obtain ⟨k, hprom, hzero, hpos⟩ :=
    promoteLoop_spec (B.map (decHead e)).length 0 (B.map (decHead e)) R hne
  refine ⟨k, io1, hpass, hprom, hzero, ?_, hlen, hcons⟩
  intro hBne h0
  cases B with
  | nil => exact absurd rfl hBne
  | cons x xs => exact hpos (by simp) (by simp) (by simpa using h0)

/-- A starvation iteration in explicit form. -/
theorem starve_explicit (n : Nat) (s : SimState) (x : List Burst) (xs : List (List Burst))
    (hB : ∀ l ∈ s.blockedQ, blockedOK n l) (hio : s.ioExecutedTimes.length = n)
    (hb : s.blockedQ = x :: xs) :
    ∃ k io1, ioPassExact (headDur x) s.blockedQ s.ioExecutedTimes
        = some (s.blockedQ.map (decHead (headDur x)), io1) ∧
      (∀ l ∈ (s.blockedQ.map (decHead (headDur x))).take k, headDur l = 0) ∧
      0 < k ∧
      starveExact s = some
        { s with
          blockedQ := (s.blockedQ.map (decHead (headDur x))).drop k
          readyQ := s.readyQ ++ ((s.blockedQ.map (decHead (headDur x))).take k).map List.tail
          ioExecutedTimes := io1
          total_time := s.total_time + headDur x } := by
  obtain ⟨k, io1, hpass, hprom, hzero, hpos, -, -⟩ :=
    blockedPass_explicit n (headDur x) s.blockedQ s.readyQ s.ioExecutedTimes hB hio
  have hx : x ∈ s.blockedQ := by rw [hb]; exact List.mem_cons_self _ _
  obtain ⟨b, rest, rfl, -⟩ := hB x hx
  have hk : 0 < k := by
    refine hpos (by rw [hb]; exact List.cons_ne_nil _ _) ?_
    rw [hb]
    simp [decHead, headDur]
  refine ⟨k, io1, hpass, hzero, hk, ?_⟩
  unfold starveExact
  rw [hb]
  simp only
  rw [← hb]
  simp only [headDur] at hpass hprom ⊢
  rw [hpass]
  simp only [Option.some_bind, hprom, Option.map_some']

/-- The common part of a dispatch iteration in explicit form, for each stop
reason; `b :: bs` is the front ready entry after its head burst was charged. -/
theorem finishDispatch_explicit (n : Nat) (s : SimState) (b : Burst) (bs : List Burst)
    (rest : List (List Burst)) (cpu : List Int) (id : Nat) (e : Int)
    (sr : ExecutionStopReasonType)
    (hB : ∀ l ∈ s.blockedQ, blockedOK n l) (hio : s.ioExecutedTimes.length = n)
    (hcpu : cpu.length = n) (hid : id < n) (hfin : s.finished.length < n) :
    ∃ k io1, ioPassExact e s.blockedQ s.ioExecutedTimes
        = some (s.blockedQ.map (decHead e), io1) ∧
      (∀ l ∈ (s.blockedQ.map (decHead e)).take k, headDur l = 0) ∧
      finishDispatchExact s ((b :: bs) :: rest) cpu id e sr = some
        { readyQ :=
            match sr with
            | QUANTUM_EXPIRED =>
              rest ++ ((s.blockedQ.map (decHead e)).take k).map List.tail ++ [b :: bs]
            | _ => rest ++ ((s.blockedQ.map (decHead e)).take k).map List.tail
          blockedQ :=
            match sr with
            | ENTER_IO => sortQ ((s.blockedQ.map (decHead e)).drop k ++ [bs])
            | _ => (s.blockedQ.map (decHead e)).drop k
          ioExecutedTimes := io1
          cpuExecutedTimes := cpu
          total_time := s.total_time + e
          finished :=
            match sr with
            | COMPLETED => s.finished ++
                [{ id := id, completionTime := s.total_time + e,
                   totalWaitTime := s.total_time + e - cpu.getD id 0 - io1.getD id 0 }]
            | _ => s.finished
          trace := s.trace ++
            [{ procID := id, cpuExecutedTime := cpu.getD id 0,
               ioExecutedTime := io1.getD id 0, totalElapsedTime := s.total_time + e,
               stopReason := sr }] } := by
  obtain ⟨k, io1, hpass, hprom, hzero, -, hlen, -⟩ :=
    blockedPass_explicit n e s.blockedQ ((b :: bs) :: rest) s.ioExecutedTimes hB hio
  have hphase : (if s.blockedQ.isEmpty then
        some ((s.blockedQ, (b :: bs) :: rest), s.ioExecutedTimes)
      else
        (ioPassExact e s.blockedQ s.ioExecutedTimes).bind fun p =>
          (promoteLoop p.1.length 0 p.1 ((b :: bs) :: rest)).map fun q => (q, p.2))
      = some (((s.blockedQ.map (decHead e)).drop k,
          (b :: bs) :: (rest ++ ((s.blockedQ.map (decHead e)).take k).map List.tail)), io1) := by
    cases hBq : s.blockedQ with
    | nil =>
      rw [hBq] at hpass
      simp only [ioPassExact, List.map_nil, Option.some.injEq, Prod.mk.injEq, true_and] at hpass
      simp [hpass]
    | cons x xs =>
      rw [hBq] at hpass hprom
      simp only [List.isEmpty_cons, Bool.false_eq_true, if_false, hpass, Option.some_bind,
        hprom, Option.map_some', List.cons_append]
  have hguard : id < cpu.length ∧ id < io1.length := by
    rw [hcpu, hlen]; exact ⟨hid, hid⟩
  have hf : s.finished.length < cpu.length := by rw [hcpu]; exact hfin
  refine ⟨k, io1, hpass, hzero, ?_⟩
  unfold finishDispatchExact
  rw [hphase]
  simp only [Option.some_bind, hguard, and_self, if_true]
  cases sr with
  | QUANTUM_EXPIRED => simp only [List.append_assoc]
  | ENTER_IO => rfl
  | COMPLETED => simp only [hf, if_true]

/-- The facts about the front ready entry `b :: bs` of a state satisfying the
invariant that the explicit forms of a dispatch need. -/
theorem Inv.dispatch_pre {processes : List (List Burst)} {s : SimState}
    (hinv : Inv processes s) {b : Burst} {bs : List Burst} {rest : List (List Burst)}
    (hR : s.readyQ = (b :: bs) :: rest) :
    b.burst_type = bt.CPU ∧ 0 < b.duration ∧ b.id < processes.length ∧
      b.id < s.cpuExecutedTimes.length ∧ s.finished.length < processes.length ∧
      altFrom b.id bt.IO_ bs = true ∧ bs.length % 2 = 0 := by
  obtain ⟨b0, bs0, heq, hty, hd, hid, halt, heven⟩ :=
    readyOK_cons (hinv.ready_ok (b :: bs) (by rw [hR]; exact List.mem_cons_self _ _))
  simp only [List.cons.injEq] at heq
  obtain ⟨rfl, rfl⟩ := heq
  refine ⟨hty, hd, hid, by rw [hinv.cpu_len]; exact hid, ?_, halt, heven⟩
  have h := hinv.ids.length_eq
  rw [hR] at h
  simp only [List.length_cons, List.length_append, List.length_map, List.length_range] at h
  omega

/-- A `round_robin` dispatch that ends with `quantum expired`, in explicit form. -/
theorem rrStep_expired (processes : List (List Burst)) (quantum : Int) (s : SimState)
    (b : Burst) (bs : List Burst) (rest : List (List Burst))
    (hinv : Inv processes s) (hR : s.readyQ = (b :: bs) :: rest) (hlt : quantum < b.duration) :
    ∃ k io1, ioPassExact quantum s.blockedQ s.ioExecutedTimes
        = some (s.blockedQ.map (decHead quantum), io1) ∧
      (∀ l ∈ (s.blockedQ.map (decHead quantum)).take k, headDur l = 0) ∧
      rrStepExact quantum s = some
        { readyQ := rest ++ ((s.blockedQ.map (decHead quantum)).take k).map List.tail
            ++ [{ b with duration := b.duration - quantum } :: bs]
          blockedQ := (s.blockedQ.map (decHead quantum)).drop k
          ioExecutedTimes := io1
          cpuExecutedTimes :=
            s.cpuExecutedTimes.set b.id (s.cpuExecutedTimes.getD b.id 0 + quantum)
          total_time := s.total_time + quantum
          finished := s.finished
          trace := s.trace ++
            [{ procID := b.id
               cpuExecutedTime := (s.cpuExecutedTimes.set b.id
                 (s.cpuExecutedTimes.getD b.id 0 + quantum)).getD b.id 0
               ioExecutedTime := io1.getD b.id 0
               totalElapsedTime := s.total_time + quantum
               stopReason := QUANTUM_EXPIRED }] } := by
  obtain ⟨-, -, hid, hlen, hfin, -, -⟩ := hinv.dispatch_pre hR
  obtain ⟨k, io1, h1, h2, h3⟩ := finishDispatch_explicit processes.length s
    { b with duration := b.duration - quantum } bs rest
    (s.cpuExecutedTimes.set b.id (s.cpuExecutedTimes.getD b.id 0 + quantum)) b.id quantum
    QUANTUM_EXPIRED hinv.blocked_ok hinv.io_len (by simpa using hinv.cpu_len) hid hfin
  refine ⟨k, io1, h1, h2, ?_⟩
  have hle : ¬ b.duration ≤ quantum := by omega
  unfold rrStepExact
  rw [hR]
  simp only [hle, if_false, addAt_some _ _ _ hlen, Option.some_bind]
  exact h3

/-- A dispatch that consumes the whole head burst and is followed by an IO
burst (`enter io`), in explicit form. -/
theorem rrStep_enter_io (processes : List (List Burst)) (quantum : Int) (s : SimState)
    (b : Burst) (bs : List Burst) (rest : List (List Burst))
    (hinv : Inv processes s) (hR : s.readyQ = (b :: bs) :: rest) (hle : b.duration ≤ quantum)
    (hbs : bs ≠ []) :
    ∃ k io1, ioPassExact b.duration s.blockedQ s.ioExecutedTimes
        = some (s.blockedQ.map (decHead b.duration), io1) ∧
      (∀ l ∈ (s.blockedQ.map (decHead b.duration)).take k, headDur l = 0) ∧
      rrStepExact quantum s = some
        { readyQ := rest ++ ((s.blockedQ.map (decHead b.duration)).take k).map List.tail
          blockedQ := sortQ ((s.blockedQ.map (decHead b.duration)).drop k ++ [bs])
          ioExecutedTimes := io1
          cpuExecutedTimes :=
            s.cpuExecutedTimes.set b.id (s.cpuExecutedTimes.getD b.id 0 + b.duration)
          total_time := s.total_time + b.duration
          finished := s.finished
          trace := s.trace ++
            [{ procID := b.id
               cpuExecutedTime := (s.cpuExecutedTimes.set b.id
                 (s.cpuExecutedTimes.getD b.id 0 + b.duration)).getD b.id 0
               ioExecutedTime := io1.getD b.id 0
               totalElapsedTime := s.total_time + b.duration
               stopReason := ENTER_IO }] } := by
  obtain ⟨-, -, hid, hlen, hfin, -, -⟩ := hinv.dispatch_pre hR
  obtain ⟨k, io1, h1, h2, h3⟩ := finishDispatch_explicit processes.length s
    { b with duration := 0 } bs rest
    (s.cpuExecutedTimes.set b.id (s.cpuExecutedTimes.getD b.id 0 + b.duration)) b.id b.duration
    ENTER_IO hinv.blocked_ok hinv.io_len (by simpa using hinv.cpu_len) hid hfin
  refine ⟨k, io1, h1, h2, ?_⟩
  have hlen1 : (b :: bs).length ≠ 1 := by
    cases bs with
    | nil => exact absurd rfl hbs
    | cons x xs => simp
  unfold rrStepExact
  rw [hR]
  simp only [hle, if_true, addAt_some _ _ _ hlen, Option.some_bind, hlen1, ne_eq,
    not_false_eq_true]
  exact h3

/-- A dispatch that consumes the last burst of a process (`completed`), in
explicit form. -/
theorem rrStep_completed (processes : List (List Burst)) (quantum : Int) (s : SimState)
    (b : Burst) (rest : List (List Burst))
    (hinv : Inv processes s) (hR : s.readyQ = [b] :: rest) (hle : b.duration ≤ quantum) :
    ∃ k io1, ioPassExact b.duration s.blockedQ s.ioExecutedTimes
        = some (s.blockedQ.map (decHead b.duration), io1) ∧
      (∀ l ∈ (s.blockedQ.map (decHead b.duration)).take k, headDur l = 0) ∧
      rrStepExact quantum s = some
        { readyQ := rest ++ ((s.blockedQ.map (decHead b.duration)).take k).map List.tail
          blockedQ := (s.blockedQ.map (decHead b.duration)).drop k
          ioExecutedTimes := io1
          cpuExecutedTimes :=
            s.cpuExecutedTimes.set b.id (s.cpuExecutedTimes.getD b.id 0 + b.duration)
          total_time := s.total_time + b.duration
          finished := s.finished ++
            [{ id := b.id, completionTime := s.total_time + b.duration,
               totalWaitTime := s.total_time + b.duration
                 - (s.cpuExecutedTimes.set b.id
                     (s.cpuExecutedTimes.getD b.id 0 + b.duration)).getD b.id 0
                 - io1.getD b.id 0 }]
          trace := s.trace ++
            [{ procID := b.id
               cpuExecutedTime := (s.cpuExecutedTimes.set b.id
                 (s.cpuExecutedTimes.getD b.id 0 + b.duration)).getD b.id 0
               ioExecutedTime := io1.getD b.id 0
               totalElapsedTime := s.total_time + b.duration
               stopReason := COMPLETED }] } := by
  obtain ⟨-, -, hid, hlen, hfin, -, -⟩ := hinv.dispatch_pre hR
  obtain ⟨k, io1, h1, h2, h3⟩ := finishDispatch_explicit processes.length s
    { b with duration := 0 } [] rest
    (s.cpuExecutedTimes.set b.id (s.cpuExecutedTimes.getD b.id 0 + b.duration)) b.id b.duration
    COMPLETED hinv.blocked_ok hinv.io_len (by simpa using hinv.cpu_len) hid hfin
  refine ⟨k, io1, h1, h2, ?_⟩
  unfold rrStepExact
  rw [hR]
  simp only [hle, if_true, addAt_some _ _ _ hlen, Option.some_bind, List.length_singleton,
    ne_eq, not_true_eq_false, if_false]
  exact h3

theorem remOf_of_mem_nodup (k : bt) :
    ∀ (Q : List (List Burst)), (Q.map pid).Nodup → ∀ l ∈ Q, remOf k (pid l) Q = durOf k l := by
  intro Q
  induction Q with
  | nil => intro _ l hl; exact absurd hl (List.not_mem_nil l)
  | cons x Q ih =>
    intro hnd l hl
    rw [List.map_cons, List.nodup_cons] at hnd
    rcases List.mem_cons.1 hl with rfl | hl
    · rw [remOf_cons, if_pos rfl, remOf_eq_zero_of_not_mem _ _ _ hnd.1, add_zero]
    · have hne : pid x ≠ pid l := by
        intro heq
        exact hnd.1 (heq ▸ List.mem_map.2 ⟨l, hl, rfl⟩)
      rw [remOf_cons, if_neg hne, ih hnd.2 l hl, zero_add]

/-- What the range-for over the blocked queue adds to the IO counters, when the
entries belong to distinct processes: the amount taken from the head of each
entry goes to the counter of its process; the other counters are unchanged. -/
theorem ioPass_gain (n : Nat) (e : Int) (B : List (List Burst)) (io io1 : List Int)
    (hB : ∀ l ∈ B, blockedOK n l) (hnd : (B.map pid).Nodup)
    (hcons : ∀ p, io1.getD p 0 + remOf bt.IO_ p (B.map (decHead e))
      = io.getD p 0 + remOf bt.IO_ p B) :
    (∀ l ∈ B, io1.getD (pid l) 0
        = io.getD (pid l) 0 + (headDur l - headDur (decHead e l))) ∧
      (∀ p, p ∉ B.map pid → io1.getD p 0 = io.getD p 0) := by
  have hmap : (B.map (decHead e)).map pid = B.map pid := by
    rw [List.map_map]
    exact List.map_congr_left fun l _ => pid_decHead e l
  constructor
  · intro l hl
    have h := hcons (pid l)
    rw [remOf_of_mem_nodup bt.IO_ B hnd l hl] at h
    have h2 := remOf_of_mem_nodup bt.IO_ (B.map (decHead e)) (by rw [hmap]; exact hnd)
      (decHead e l) (List.mem_map.2 ⟨l, hl, rfl⟩)
    rw [pid_decHead] at h2
    rw [h2] at h
    obtain ⟨b, rest, rfl, hty, -⟩ := hB l hl
    simp only [decHead, durOf, hty, if_true, headDur] at h ⊢
    omega
  · intro p hp
    have h := hcons p
    rw [remOf_eq_zero_of_not_mem _ _ _ hp,
      remOf_eq_zero_of_not_mem _ _ _ (by rw [hmap]; exact hp)] at h
    omega

theorem decHead_gain_bounds {n : Nat} {e : Int} (he : 0 ≤ e) {l : List Burst}
    (h : blockedOK n l) :
    0 ≤ headDur l - headDur (decHead e l) ∧ headDur l - headDur (decHead e l) ≤ e ∧
      headDur (decHead e l) = max 0 (headDur l - e) := by
  obtain ⟨b, rest, rfl, -, hd, -⟩ := h
  simp only [decHead, headDur]
  split_ifs with hle
  · refine ⟨by omega, by omega, ?_⟩
    rw [max_eq_left (by omega)]
  · refine ⟨by omega, by omega, ?_⟩
    rw [max_eq_right (by omega)]

theorem Inv.blocked_nodup {processes : List (List Burst)} {s : SimState}
    (hinv : Inv processes s) : (s.blockedQ.map pid).Nodup := by
  have hnd : (s.readyQ.map pid ++ s.blockedQ.map pid ++ s.finished.map fun r => r.id).Nodup :=
    hinv.ids.nodup_iff.2 (List.nodup_range _)
  exact (List.nodup_append.1 (List.nodup_append.1 hnd).1).2.1

theorem Inv.head_not_blocked {processes : List (List Burst)} {s : SimState}
    (hinv : Inv processes s) {b : Burst} {bs : List Burst} {rest : List (List Burst)}
    (hR : s.readyQ = (b :: bs) :: rest) : b.id ∉ s.blockedQ.map pid := by
  have hnd : (s.readyQ.map pid ++ s.blockedQ.map pid ++ s.finished.map fun r => r.id).Nodup :=
    hinv.ids.nodup_iff.2 (List.nodup_range _)
  have hdis := (List.nodup_append.1 (List.nodup_append.1 hnd).1).2.2
  intro hmem
  exact hdis (by rw [hR]; simp [pid]) hmem

theorem pairwise_decHead {e : Int} (he : 0 ≤ e) {B : List (List Burst)}
    (hs : B.Pairwise fun a b => headDur a ≤ headDur b) :
    (B.map (decHead e)).Pairwise fun a b => headDur a ≤ headDur b := by
  rw [List.pairwise_map]
  refine hs.imp ?_
  intro a b hab
  rw [headDur_decHead he, headDur_decHead he]
  split_ifs <;> omega

theorem cpuBounded_append {q : Int} {Q R : List (List Burst)} :
    cpuBounded q (Q ++ R) ↔ cpuBounded q Q ∧ cpuBounded q R := by
  unfold cpuBounded
  constructor
  · intro h
    exact ⟨fun l hl => h l (List.mem_append_left _ hl), fun l hl => h l (List.mem_append_right _ hl)⟩
  · rintro ⟨h1, h2⟩ l hl
    rcases List.mem_append.1 hl with hl | hl
    · exact h1 l hl
    · exact h2 l hl

theorem cpuBounded_subset {q : Int} {Q R : List (List Burst)} (h : cpuBounded q Q)
    (hsub : ∀ l ∈ R, l ∈ Q) : cpuBounded q R :=
  fun l hl => h l (hsub l hl)

theorem cpuBounded_decHead {n : Nat} {q : Int} (e : Int) {B : List (List Burst)}
    (hB : ∀ l ∈ B, blockedOK n l) (h : cpuBounded q B) : cpuBounded q (B.map (decHead e)) := by
  intro l hl x hx hty
  obtain ⟨l0, hl0, rfl⟩ := List.mem_map.1 hl
  obtain ⟨b, rest, rfl, hb, -⟩ := hB l0 hl0
  simp only [decHead, List.mem_cons] at hx
  rcases hx with rfl | hx
  · simp only at hty
    rw [hb] at hty
    exact absurd hty (by decide)
  · exact h _ hl0 x (List.mem_cons_of_mem _ hx) hty

theorem cpuBounded_tails {q : Int} {B : List (List Burst)} (h : cpuBounded q B) :
    cpuBounded q (B.map List.tail) := by
  intro l hl x hx hty
  obtain ⟨l0, hl0, rfl⟩ := List.mem_map.1 hl
  exact h l0 hl0 x (List.mem_of_mem_tail hx) hty

/-- The blocked-queue part of an iteration keeps the bound on the CPU bursts. -/
theorem cpuBounded_phase {n : Nat} {q : Int} (e : Int) (k : Nat) {B : List (List Burst)}
    (hB : ∀ l ∈ B, blockedOK n l) (h : cpuBounded q B) :
    cpuBounded q (((B.map (decHead e)).take k).map List.tail) ∧
      cpuBounded q ((B.map (decHead e)).drop k) := by
  have h1 := cpuBounded_decHead e hB h
  exact ⟨cpuBounded_tails (cpuBounded_subset h1 fun l hl => List.mem_of_mem_take hl),
    cpuBounded_subset h1 fun l hl => List.mem_of_mem_drop hl⟩

/-- With a quantum that no dispatched burst exceeds, an iteration of
`round_robin` is an iteration of `fcfs`. -/
theorem rrStep_eq_fcfsStep (quantum : Int) (s : SimState)
    (h : ∀ b bs rest, s.readyQ = (b :: bs) :: rest → b.duration ≤ quantum) :
    rrStepExact quantum s = fcfsStepExact s := by
  unfold rrStepExact fcfsStepExact
  cases hR : s.readyQ with
  | nil => rfl
  | cons x rest =>
    cases x with
    | nil => rfl
    | cons b bs =>
      have hle := h b bs rest hR
      simp only [hle, if_true]

/-- An iteration of `fcfs` keeps the bound on the CPU bursts held in the queues. -/
theorem fcfsStep_cpuBounded (processes : List (List Burst)) (q : Int) (s t : SimState)
    (hinv : Inv processes s) (hb : cpuBounded q (s.readyQ ++ s.blockedQ))
    (h : fcfsStepExact s = some t) : cpuBounded q (t.readyQ ++ t.blockedQ) := by
  rw [cpuBounded_append] at hb
  obtain ⟨hbr, hbb⟩ := hb
  cases hR : s.readyQ with
  | nil =>
    rw [step_of_ready_nil 1 fcfsStepExact (Or.inl rfl) s hR] at h
    cases hB : s.blockedQ with
    | nil =>
      unfold starveExact at h
      rw [hB] at h
      exact absurd h (by simp)
    | cons x xs =>
      obtain ⟨k, io1, -, -, -, hst⟩ :=
        starve_explicit processes.length s x xs hinv.blocked_ok hinv.io_len hB
      rw [h] at hst
      simp only [Option.some.injEq] at hst
      subst hst
      have hph := cpuBounded_phase (headDur x) k hinv.blocked_ok hbb
      simp only [hR, List.nil_append]
      exact cpuBounded_append.2 hph
  | cons y rest =>
    obtain ⟨b, bs, rfl, -⟩ :=
      readyOK_cons (hinv.ready_ok y (by rw [hR]; exact List.mem_cons_self _ _))
    rw [hR] at hbr
    have hrest : cpuBounded q rest := cpuBounded_subset hbr fun l hl => List.mem_cons_of_mem _ hl
    have hbs : cpuBounded q [bs] := by
      intro l hl x hx hty
      rw [List.mem_singleton.1 hl] at hx
      exact hbr (b :: bs) (List.mem_cons_self _ _) x (List.mem_cons_of_mem _ hx) hty
    rw [fcfsStep_eq_rrStep, hR] at h
    simp only [List.headD_cons, headDur] at h
    by_cases hnil : bs = []
    · subst hnil
      obtain ⟨k, io1, -, -, hst⟩ :=
        rrStep_completed processes b.duration s b rest hinv hR (le_refl _)
      rw [h] at hst
      simp only [Option.some.injEq] at hst
      subst hst
      have hph := cpuBounded_phase b.duration k hinv.blocked_ok hbb
      exact cpuBounded_append.2 ⟨cpuBounded_append.2 ⟨hrest, hph.1⟩, hph.2⟩
    · obtain ⟨k, io1, -, -, hst⟩ :=
        rrStep_enter_io processes b.duration s b bs rest hinv hR (le_refl _) hnil
      rw [h] at hst
      simp only [Option.some.injEq] at hst
      subst hst
      have hph := cpuBounded_phase b.duration k hinv.blocked_ok hbb
      refine cpuBounded_append.2 ⟨cpuBounded_append.2 ⟨hrest, hph.1⟩, ?_⟩
      exact cpuBounded_subset (cpuBounded_append.2 ⟨hph.2, hbs⟩)
        fun l hl => (sortQ_perm _).subset hl

/-- From a state satisfying the invariant in which no CPU burst exceeds the
quantum, the two loops run identically. -/
theorem runLoop_rr_eq_fcfs (processes : List (List Burst)) (quantum : Int) :
    ∀ (fuel : Nat) (s : SimState), Inv processes s →
      cpuBounded quantum (s.readyQ ++ s.blockedQ) →
      runLoop (rrStepExact quantum) fuel s = runLoop fcfsStepExact fuel s := by
  intro fuel
  induction fuel with
  | zero =>
    intro s _ _
    by_cases hne : s.readyQ ≠ [] ∨ s.blockedQ ≠ []
    · rw [runLoop_zero _ s hne, runLoop_zero _ s hne]
    · simp only [not_or, not_not] at hne
      rw [runLoop_done _ 0 s hne.1 hne.2, runLoop_done _ 0 s hne.1 hne.2]
  | succ fuel ih =>
    intro s hinv hb
    by_cases hne : s.readyQ ≠ [] ∨ s.blockedQ ≠ []
    · have heq : rrStepExact quantum s = fcfsStepExact s := by
        refine rrStep_eq_fcfsStep quantum s ?_
        intro b bs rest hR
        refine hb (b :: bs) ?_ b (List.mem_cons_self _ _) (hinv.dispatch_pre hR).1
        rw [hR]
        simp
      obtain ⟨t, ht, hinvt, -⟩ := fcfsStep_inv processes s hinv hne
      have hbt := fcfsStep_cpuBounded processes quantum s t hinv hb ht
      rw [runLoop_step _ fuel s hne, runLoop_step _ fuel s hne, heq, ht]
      simp only [Option.some_bind]
      exact ih t hinvt hbt
    · simp only [not_or, not_not] at hne
      rw [runLoop_done _ _ s hne.1 hne.2, runLoop_done _ _ s hne.1 hne.2]

/-- What the range-for adds to an IO counter is between zero and the elapsed
time, and zero for a process that is not blocked. -/
theorem io_gain_bound (n : Nat) (e : Int) (he : 0 ≤ e) (B : List (List Burst))
    (io io1 : List Int) (hB : ∀ l ∈ B, blockedOK n l) (hnd : (B.map pid).Nodup)
    (hpass : ioPassExact e B io = some (B.map (decHead e), io1)) (hio : io.length = n) (p : Nat) :
    io.getD p 0 ≤ io1.getD p 0 ∧ io1.getD p 0 ≤ io.getD p 0 + e ∧
      (p ∉ B.map pid → io1.getD p 0 = io.getD p 0) := by
  obtain ⟨io2, hpass2, -, hcons⟩ := ioPass_spec n e B io hB hio
  rw [hpass] at hpass2
  simp only [Option.some.injEq, Prod.mk.injEq, true_and] at hpass2
  subst hpass2
  obtain ⟨hg1, hg2⟩ := ioPass_gain n e B io io1 hB hnd hcons
  by_cases hp : p ∈ B.map pid
  · obtain ⟨l, hl, rfl⟩ := List.mem_map.1 hp
    have hb := decHead_gain_bounds he (hB l hl)
    rw [hg1 l hl]
    exact ⟨by omega, by omega, fun h => absurd hp h⟩
  · rw [hg2 p hp]
    exact ⟨le_refl _, by omega, fun _ => rfl⟩

/-- Summary of a dispatch iteration of `round_robin` from a state satisfying the
invariant: the elapsed time, the two arrays and the record written, if any. -/
theorem rrStep_summary (processes : List (List Burst)) (quantum : Int) (s t : SimState)
    (b : Burst) (bs : List Burst) (rest : List (List Burst))
    (hinv : Inv processes s) (hR : s.readyQ = (b :: bs) :: rest)
    (h : rrStepExact quantum s = some t) :
    ∃ io1, ioPassExact (min quantum b.duration) s.blockedQ s.ioExecutedTimes
        = some (s.blockedQ.map (decHead (min quantum b.duration)), io1) ∧
      t.ioExecutedTimes = io1 ∧
      t.cpuExecutedTimes = s.cpuExecutedTimes.set b.id
        (s.cpuExecutedTimes.getD b.id 0 + min quantum b.duration) ∧
      t.total_time = s.total_time + min quantum b.duration ∧
      (t.finished = s.finished ∨
        t.finished = s.finished ++
          [{ id := b.id, completionTime := t.total_time,
             totalWaitTime := t.total_time - t.cpuExecutedTimes.getD b.id 0
               - t.ioExecutedTimes.getD b.id 0 }]) := by
  by_cases hlt : quantum < b.duration
  · obtain ⟨k, io1, hpass, -, hst⟩ := rrStep_expired processes quantum s b bs rest hinv hR hlt
    rw [h] at hst
    simp only [Option.some.injEq] at hst
    subst hst
    rw [min_eq_left (le_of_lt hlt)]
    exact ⟨io1, hpass, rfl, rfl, rfl, Or.inl rfl⟩
  · have hle : b.duration ≤ quantum := by omega
    rw [min_eq_right hle]
    by_cases hnil : bs = []
    · subst hnil
      obtain ⟨k, io1, hpass, -, hst⟩ := rrStep_completed processes quantum s b rest hinv hR hle
      rw [h] at hst
      simp only [Option.some.injEq] at hst
      subst hst
      exact ⟨io1, hpass, rfl, rfl, rfl, Or.inr rfl⟩
    · obtain ⟨k, io1, hpass, -, hst⟩ :=
        rrStep_enter_io processes quantum s b bs rest hinv hR hle hnil
      rw [h] at hst
      simp only [Option.some.injEq] at hst
      subst hst
      exact ⟨io1, hpass, rfl, rfl, rfl, Or.inl rfl⟩

/-- In an iteration of `round_robin` from a state satisfying the invariant, no
counter decreases, and the two counters of a process together grow by at most
the elapsed time; a record written in the iteration holds the time and the
counters of its process at the end of the iteration. -/
theorem rrStep_counters (processes : List (List Burst)) (quantum : Int) (s t : SimState)
    (hinv : Inv processes s) (hq : s.readyQ ≠ [] → 0 < quantum)
    (h : rrStepExact quantum s = some t) :
    (∀ p, s.cpuExecutedTimes.getD p 0 ≤ t.cpuExecutedTimes.getD p 0 ∧
      s.ioExecutedTimes.getD p 0 ≤ t.ioExecutedTimes.getD p 0 ∧
      t.cpuExecutedTimes.getD p 0 + t.ioExecutedTimes.getD p 0
          - (s.cpuExecutedTimes.getD p 0 + s.ioExecutedTimes.getD p 0)
        ≤ t.total_time - s.total_time) ∧
    (t.finished = s.finished ∨
      ∃ id, t.finished = s.finished ++
        [{ id := id, completionTime := t.total_time,
           totalWaitTime := t.total_time - t.cpuExecutedTimes.getD id 0
             - t.ioExecutedTimes.getD id 0 }]) := by
  cases hR : s.readyQ with
  | nil =>
    rw [step_of_ready_nil quantum (rrStepExact quantum) (Or.inr rfl) s hR] at h
    cases hB : s.blockedQ with
    | nil =>
      unfold starveExact at h
      rw [hB] at h
      exact absurd h (by simp)
    | cons x xs =>
      have hpos := hinv.front_pos hR hB
      obtain ⟨k, io1, hpass, -, -, hst⟩ :=
        starve_explicit processes.length s x xs hinv.blocked_ok hinv.io_len hB
      rw [h] at hst
      simp only [Option.some.injEq] at hst
      subst hst
      refine ⟨fun p => ?_, Or.inl rfl⟩
      have hg := io_gain_bound processes.length (headDur x) (le_of_lt hpos) s.blockedQ
        s.ioExecutedTimes io1 hinv.blocked_ok hinv.blocked_nodup hpass hinv.io_len p
      simp only
      exact ⟨le_refl _, hg.1, by omega⟩
  | cons y rest =>
    have hq0 : 0 < quantum := hq (by rw [hR]; exact List.cons_ne_nil _ _)
    obtain ⟨b, bs, rfl, -⟩ :=
      readyOK_cons (hinv.ready_ok y (by rw [hR]; exact List.mem_cons_self _ _))
    obtain ⟨-, hd, -, hlen, -, -, -⟩ := hinv.dispatch_pre hR
    obtain ⟨io1, hpass, hio, hcpu, htime, hfin⟩ :=
      rrStep_summary processes quantum s t b bs rest hinv hR h
    have he : 0 < min quantum b.duration := lt_min hq0 hd
    refine ⟨fun p => ?_, ?_⟩
    · have hg := io_gain_bound processes.length _ (le_of_lt he) s.blockedQ
        s.ioExecutedTimes io1 hinv.blocked_ok hinv.blocked_nodup hpass hinv.io_len p
      rw [hio, hcpu, htime, getD_set_add _ _ _ _ hlen]
      by_cases hp : b.id = p
      · subst hp
        have := hg.2.2 (hinv.head_not_blocked hR)
        simp only [if_true]
        exact ⟨by omega, by omega, by omega⟩
      · simp only [hp, if_false, add_zero]
        exact ⟨le_refl _, hg.1, by omega⟩
    · rcases hfin with hfin | hfin
      · exact Or.inl hfin
      · exact Or.inr ⟨b.id, hfin⟩

/-- The same for either step function. -/
theorem step_counters (processes : List (List Burst)) (quantum : Int) (hq : 0 < quantum)
    (step : SimState → Option SimState)
    (hstep : step = fcfsStepExact ∨ step = rrStepExact quantum)
    (s t : SimState) (hinv : Inv processes s) (h : step s = some t) :
    (∀ p, s.cpuExecutedTimes.getD p 0 ≤ t.cpuExecutedTimes.getD p 0 ∧
      s.ioExecutedTimes.getD p 0 ≤ t.ioExecutedTimes.getD p 0 ∧
      t.cpuExecutedTimes.getD p 0 + t.ioExecutedTimes.getD p 0
          - (s.cpuExecutedTimes.getD p 0 + s.ioExecutedTimes.getD p 0)
        ≤ t.total_time - s.total_time) ∧
    (t.finished = s.finished ∨
      ∃ id, t.finished = s.finished ++
        [{ id := id, completionTime := t.total_time,
           totalWaitTime := t.total_time - t.cpuExecutedTimes.getD id 0
             - t.ioExecutedTimes.getD id 0 }]) := by
  rcases hstep with rfl | rfl
  · rw [fcfsStep_eq_rrStep] at h
    refine rrStep_counters processes _ s t hinv ?_ h
    intro hR
    cases hRq : s.readyQ with
    | nil => exact absurd hRq hR
    | cons x rest =>
      obtain ⟨b, bs, rfl, hty, hd, -⟩ :=
        readyOK_cons (hinv.ready_ok x (by rw [hRq]; exact List.mem_cons_self _ _))
      simpa [headDur] using hd
  · exact rrStep_counters processes quantum s t hinv (fun _ => hq) h

/-- In every reachable state the two counters of a process together do not
exceed the time, and no record holds a negative wait time. -/
theorem reach_wait (processes : List (List Burst)) (quantum : Int)
    (hv : validInput processes = true) (hq : 0 < quantum)
    (step : SimState → Option SimState)
    (hstep : step = fcfsStepExact ∨ step = rrStepExact quantum) :
    ∀ s, Reach step (initState processes) s →
      (∀ p, s.cpuExecutedTimes.getD p 0 + s.ioExecutedTimes.getD p 0 ≤ s.total_time) ∧
      (∀ r ∈ s.finished, 0 ≤ r.totalWaitTime) := by
  intro s hs
  induction hs with
  | init =>
    refine ⟨fun p => ?_, fun r hr => absurd hr (List.not_mem_nil r)⟩
    simp [initState, getD_replicate_zero]
  | @next u w hprev _ hst ih =>
    have hinv := reachable_inv processes quantum hv hq step hstep u hprev
    obtain ⟨hc, hf⟩ := step_counters processes quantum hq step hstep u w hinv hst
    have hw : ∀ p, w.cpuExecutedTimes.getD p 0 + w.ioExecutedTimes.getD p 0 ≤ w.total_time := by
      intro p
      have h1 := (hc p).2.2
      have h2 := ih.1 p
      omega
    refine ⟨hw, ?_⟩
    intro r hr
    rcases hf with hf | ⟨id, hf⟩
    · rw [hf] at hr
      exact ih.2 r hr
    · rw [hf] at hr
      rcases List.mem_append.1 hr with hr | hr
      · exact ih.2 r hr
      · rw [List.mem_singleton.1 hr]
        have := hw id
        show 0 ≤ w.total_time - w.cpuExecutedTimes.getD id 0 - w.ioExecutedTimes.getD id 0
        omega

theorem ceilDiv_bounds (d q : Int) (hq : 0 < q) :
    q * (ceilDiv d q - 1) < d ∧ d ≤ q * ceilDiv d q := by
  unfold ceilDiv
  have h1 := Int.emod_add_ediv (d + q - 1) q
  have h2 := Int.emod_nonneg (d + q - 1) (ne_of_gt hq)
  have h3 := Int.emod_lt_of_pos (d + q - 1) hq
  constructor
  · rw [mul_sub, mul_one]
    omega
  · omega

theorem ceilDiv_eq_ceil (d q : Int) (hq : 0 < q) :
    ceilDiv d q = ⌈(d : ℚ) / (q : ℚ)⌉ := by
  symm
  rw [Int.ceil_eq_iff]
  obtain ⟨h1, h2⟩ := ceilDiv_bounds d q hq
  have hq' : (0 : ℚ) < (q : ℚ) := by exact_mod_cast hq
  constructor
  · rw [lt_div_iff₀ hq']
    have : ((ceilDiv d q - 1 : Int) : ℚ) * (q : ℚ) < (d : ℚ) := by
      rw [mul_comm]
      exact_mod_cast h1
    simpa using this
  · rw [div_le_iff₀ hq']
    have : (d : ℚ) ≤ ((ceilDiv d q : Int) : ℚ) * (q : ℚ) := by
      rw [mul_comm]
      exact_mod_cast h2
    exact this

theorem ceilDiv_unique (d q c : Int) (hq : 0 < q) (h1 : q * (c - 1) < d) (h2 : d ≤ q * c) :
    ceilDiv d q = c := by
  obtain ⟨h3, h4⟩ := ceilDiv_bounds d q hq
  have ha : ceilDiv d q - 1 < c := by
    by_contra hcon
    have : q * c ≤ q * (ceilDiv d q - 1) := Int.mul_le_mul_of_nonneg_left (by omega) (le_of_lt hq)
    omega
  have hb : c - 1 < ceilDiv d q := by
    by_contra hcon
    have : q * ceilDiv d q ≤ q * (c - 1) := Int.mul_le_mul_of_nonneg_left (by omega) (le_of_lt hq)
    omega
  omega

theorem ceilDiv_le (d q : Int) (hq : 0 < q) (hd : 0 < d) (hle : d ≤ q) : ceilDiv d q = 1 :=
  ceilDiv_unique d q 1 hq (by simpa using hd) (by simpa using hle)

theorem ceilDiv_sub (d q : Int) (hq : 0 < q) : ceilDiv d q = ceilDiv (d - q) q + 1 := by
  obtain ⟨h3, h4⟩ := ceilDiv_bounds (d - q) q hq
  refine ceilDiv_unique d q _ hq ?_ ?_
  · rw [add_sub_cancel_right]
    rw [mul_sub, mul_one] at h3
    omega
  · rw [mul_add, mul_one]
    omega

theorem pid_cons (b : Burst) (bs : List Burst) : pid (b :: bs) = b.id := rfl

theorem remF_nil (f : List Burst → Int) (p : Nat) : remF f p [] = 0 := rfl

theorem remF_cons (f : List Burst → Int) (p : Nat) (l : List Burst) (Q : List (List Burst)) :
    remF f p (l :: Q) = (if pid l = p then f l else 0) + remF f p Q := by
  simp [remF]

theorem remF_append (f : List Burst → Int) (p : Nat) (Q R : List (List Burst)) :
    remF f p (Q ++ R) = remF f p Q + remF f p R := by
  simp [remF]

theorem remF_perm (f : List Burst → Int) (p : Nat) {Q R : List (List Burst)} (h : Q.Perm R) :
    remF f p Q = remF f p R := by
  unfold remF
  exact (h.map _).sum_eq

theorem remF_map_congr (f : List Burst → Int) (p : Nat) (g : List Burst → List Burst) :
    ∀ (Q : List (List Burst)), (∀ l ∈ Q, pid (g l) = pid l ∧ f (g l) = f l) →
      remF f p (Q.map g) = remF f p Q := by
  intro Q
  induction Q with
  | nil => intro _; rfl
  | cons l Q ih =>
    intro h
    have h1 := h l (List.mem_cons_self _ _)
    simp only [List.map_cons, remF_cons, h1.1, h1.2,
      ih (fun l hl => h l (List.mem_cons_of_mem _ hl))]

/-- The blocked-queue part of an iteration leaves the `f`-content of the blocked
entries unchanged, for an `f` that ignores head IO bursts. -/
theorem remF_phase {n : Nat} (f : List Burst → Int) (hf : BlockedStable f) (p : Nat) (e : Int)
    (k : Nat) (B : List (List Burst)) (hB : ∀ l ∈ B, blockedOK n l) :
    remF f p (((B.map (decHead e)).take k).map List.tail)
      + remF f p ((B.map (decHead e)).drop k) = remF f p B := by
  have hB1 : ∀ l ∈ B.map (decHead e), blockedOK n l := by
    intro l hl
    obtain ⟨l0, hl0, rfl⟩ := List.mem_map.1 hl
    exact blockedOK_decHead (hB l0 hl0)
  have h1 : remF f p (((B.map (decHead e)).take k).map List.tail)
      = remF f p ((B.map (decHead e)).take k) := by
    refine remF_map_congr f p List.tail _ ?_
    intro l hl
    have hl1 := hB1 l (List.mem_of_mem_take hl)
    refine ⟨pid_tail hl1, ?_⟩
    obtain ⟨b, rest, rfl, hty, -⟩ := hl1
    exact (hf b rest b.duration hty).2
  have h2 : remF f p (B.map (decHead e)) = remF f p B := by
    refine remF_map_congr f p (decHead e) B ?_
    intro l hl
    refine ⟨pid_decHead e l, ?_⟩
    obtain ⟨b, rest, rfl, hty, -⟩ := hB l hl
    exact (hf b rest _ hty).1
  rw [h1, ← remF_append, List.take_append_drop, h2]

theorem eventCount_append (pred : ExecutionStopReasonType → Bool) (p : Nat)
    (tr : List CpuEvent) (ev : CpuEvent) :
    (eventCount pred p (tr ++ [ev]) : Int)
      = eventCount pred p tr + (if ev.procID = p ∧ pred ev.stopReason = true then 1 else 0) := by
  unfold eventCount
  rw [List.countP_append, List.countP_cons, List.countP_nil]
  simp only [Bool.and_eq_true, decide_eq_true_eq, Nat.zero_add]
  split_ifs <;> simp

/-- An iteration of `round_robin` from a state satisfying the invariant leaves
every tally unchanged whose `f` ignores head IO bursts and pays for the events
counted. -/
theorem rrStep_tally (processes : List (List Burst)) (quantum : Int) (s t : SimState)
    (pred : ExecutionStopReasonType → Bool) (f : List Burst → Int)
    (hf : BlockedStable f) (hc : Charges quantum pred f)
    (hinv : Inv processes s) (h : rrStepExact quantum s = some t) (p : Nat) :
    tally pred f p t = tally pred f p s := by
  cases hR : s.readyQ with
  | nil =>
    rw [step_of_ready_nil quantum (rrStepExact quantum) (Or.inr rfl) s hR] at h
    cases hB : s.blockedQ with
    | nil =>
      unfold starveExact at h
      rw [hB] at h
      exact absurd h (by simp)
    | cons x xs =>
      obtain ⟨k, io1, -, -, -, hst⟩ :=
        starve_explicit processes.length s x xs hinv.blocked_ok hinv.io_len hB
      rw [h] at hst
      simp only [Option.some.injEq] at hst
      subst hst
      have hph := remF_phase f hf p (headDur x) k s.blockedQ hinv.blocked_ok
      simp only [tally, hR, List.nil_append, remF_append]
      rw [hB] at hph ⊢
      omega
  | cons y rest =>
    obtain ⟨b, bs, rfl, -⟩ :=
      readyOK_cons (hinv.ready_ok y (by rw [hR]; exact List.mem_cons_self _ _))
    obtain ⟨hty, hd, -, -, -, halt, heven⟩ := hinv.dispatch_pre hR
    obtain ⟨hc1, hc2, hc3⟩ := hc b bs hty hd
    by_cases hlt : quantum < b.duration
    · obtain ⟨k, io1, -, -, hst⟩ := rrStep_expired processes quantum s b bs rest hinv hR hlt
      rw [h] at hst
      simp only [Option.some.injEq] at hst
      subst hst
      have hph := remF_phase f hf p quantum k s.blockedQ hinv.blocked_ok
      have hc1' := hc1 hlt
      simp only [tally, hR, eventCount_append, remF_append, remF_cons, remF_nil, pid_cons,
        List.cons_append]
      by_cases hp : b.id = p <;> by_cases hpr : pred QUANTUM_EXPIRED = true <;>
        simp only [hp, hpr, if_true, if_false, true_and, false_and, and_true, and_false,
          Bool.false_eq_true] at hc1' ⊢ <;> omega
    · have hle : b.duration ≤ quantum := by omega
      by_cases hnil : bs = []
      · subst hnil
        obtain ⟨k, io1, -, -, hst⟩ := rrStep_completed processes quantum s b rest hinv hR hle
        rw [h] at hst
        simp only [Option.some.injEq] at hst
        subst hst
        have hph := remF_phase f hf p b.duration k s.blockedQ hinv.blocked_ok
        have hc3' := hc3 hle
        simp only [tally, hR, eventCount_append, remF_append, remF_cons, remF_nil, pid_cons,
          List.cons_append]
        by_cases hp : b.id = p <;> by_cases hpr : pred COMPLETED = true <;>
          simp only [hp, hpr, if_true, if_false, true_and, false_and, and_true, and_false,
            Bool.false_eq_true] at hc3' ⊢ <;> omega
      · obtain ⟨k, io1, -, -, hst⟩ :=
          rrStep_enter_io processes quantum s b bs rest hinv hR hle hnil
        rw [h] at hst
        simp only [Option.some.injEq] at hst
        subst hst
        have hph := remF_phase f hf p b.duration k s.blockedQ hinv.blocked_ok
        have hc2' := hc2 hle hnil
        have hpid : pid bs = b.id := (blockedOK_of_alt (n := processes.length)
          (hinv.dispatch_pre hR).2.2.1 halt heven hnil).2.2
        simp only [tally, hR, eventCount_append, remF_append, remF_cons, remF_nil, pid_cons,
          List.cons_append, remF_perm f p (sortQ_perm _), hpid]
        by_cases hp : b.id = p <;> by_cases hpr : pred ENTER_IO = true <;>
          simp only [hp, hpr, if_true, if_false, true_and, false_and, and_true, and_false,
            Bool.false_eq_true] at hc2' ⊢ <;> omega

theorem sliceCount_cons (q : Int) (b : Burst) (bs : List Burst) :
    sliceCount q (b :: bs)
      = (if b.burst_type = bt.CPU then ceilDiv b.duration q else 0) + sliceCount q bs := by
  simp [sliceCount]

theorem typeCount_cons (k : bt) (b : Burst) (bs : List Burst) :
    typeCount k (b :: bs) = (if b.burst_type = k then 1 else 0) + typeCount k bs := by
  simp [typeCount]

theorem stable_sliceCount (q : Int) : BlockedStable (sliceCount q) := by
  intro b rest d hty
  simp [sliceCount_cons, hty]

theorem stable_cpuCount : BlockedStable fun l => typeCount bt.CPU l - 1 := by
  intro b rest d hty
  simp [typeCount_cons, hty]

theorem stable_one : BlockedStable fun _ => 1 := by
  intro b rest d _
  exact ⟨rfl, rfl⟩

theorem stable_expired (q : Int) :
    BlockedStable fun l => sliceCount q l - typeCount bt.CPU l := by
  intro b rest d hty
  simp [sliceCount_cons, typeCount_cons, hty]

theorem charges_all (q : Int) (hq : 0 < q) : Charges q (fun _ => true) (sliceCount q) := by
  intro b bs hty hd
  refine ⟨fun _ => ?_, fun hle _ => ?_, fun hle => ?_⟩
  · simp only [sliceCount_cons, hty, if_true]
    rw [ceilDiv_sub b.duration q hq]
    omega
  · simp only [sliceCount_cons, hty, if_true, ceilDiv_le b.duration q hq hd hle]
    omega
  · simp [sliceCount, hty, ceilDiv_le b.duration q hq hd hle]

theorem charges_enter_io (q : Int) :
    Charges q (fun r => decide (r = ENTER_IO)) (fun l => typeCount bt.CPU l - 1) := by
  intro b bs hty hd
  refine ⟨fun _ => ?_, fun hle _ => ?_, fun hle => ?_⟩
  · simp [typeCount_cons, hty]
  · simp only [typeCount_cons, hty, if_true, decide_True]
    omega
  · simp [typeCount, hty]

theorem charges_completed (q : Int) :
    Charges q (fun r => decide (r = COMPLETED)) (fun _ => 1) := by
  intro b bs hty hd
  refine ⟨fun _ => ?_, fun hle _ => ?_, fun hle => ?_⟩ <;> simp

theorem charges_expired (q : Int) (hq : 0 < q) :
    Charges q (fun r => decide (r = QUANTUM_EXPIRED))
      (fun l => sliceCount q l - typeCount bt.CPU l) := by
  intro b bs hty hd
  refine ⟨fun _ => ?_, fun hle _ => ?_, fun hle => ?_⟩
  · simp only [sliceCount_cons, typeCount_cons, hty, if_true, decide_True]
    rw [ceilDiv_sub b.duration q hq]
    omega
  · simp only [sliceCount_cons, typeCount_cons, hty, if_true,
      ceilDiv_le b.duration q hq hd hle]
    simp
  · simp [sliceCount, typeCount, hty, ceilDiv_le b.duration q hq hd hle]

/-- On a run of valid processes numbered from `i`, the entry of process `p` is
the only one counted by `remF`. -/
theorem validFrom_remF (f : List Burst → Int) :
    ∀ (ps : List (List Burst)) (i : Nat), validFrom i ps = true →
      ∀ p, remF f p ps = if i ≤ p ∧ p < i + ps.length then f (ps.getD (p - i) []) else 0 := by
  intro ps
  induction ps with
  | nil =>
    intro i _ p
    have h : ¬ (i ≤ p ∧ p < i + ([] : List (List Burst)).length) := by
      simp only [List.length_nil]; omega
    rw [if_neg h]
    rfl
  | cons l ps ih =>
    intro i h p
    simp only [validFrom, validProcess, Bool.and_eq_true, decide_eq_true_eq] at h
    obtain ⟨⟨halt, hodd⟩, hrest⟩ := h
    have hpid : pid l = i := by
      cases l with
      | nil => simp at hodd
      | cons b bs =>
        simp only [altFrom, Bool.and_eq_true, decide_eq_true_eq] at halt
        exact halt.1.1.1
    rw [remF_cons, ih (i + 1) hrest p, hpid]
    by_cases hip : i = p
    · subst hip
      simp
    · by_cases hle : i + 1 ≤ p ∧ p < i + 1 + ps.length
      · obtain ⟨d, rfl⟩ : ∃ d, p = i + 1 + d := ⟨p - (i + 1), by omega⟩
        have h5 : i + 1 + d - i = d + 1 := by omega
        have h6 : i + 1 + d - (i + 1) = d := by omega
        have h7 : i ≤ i + 1 + d ∧ i + 1 + d < i + (l :: ps).length := by
          simp only [List.length_cons]; omega
        simp only [hip, if_false, hle, and_self, if_true, h7, h5, h6, zero_add,
          List.getD_cons_succ]
      · have h7 : ¬ (i ≤ p ∧ p < i + (l :: ps).length) := by
          simp only [List.length_cons]; omega
        simp only [hip, if_false, hle, h7, zero_add]

/-- Every tally of a reachable state of `round_robin` has the value it had on
entry to the loop. -/
theorem reach_tally (processes : List (List Burst)) (quantum : Int)
    (hv : validInput processes = true) (hq : 0 < quantum)
    (pred : ExecutionStopReasonType → Bool) (f : List Burst → Int)
    (hf : BlockedStable f) (hc : Charges quantum pred f) (p : Nat) (hp : p < processes.length) :
    ∀ s, Reach (rrStepExact quantum) (initState processes) s →
      tally pred f p s = f (processes.getD p []) := by
  intro s hs
  induction hs with
  | init =>
    simp only [validInput, Bool.and_eq_true] at hv
    have h := validFrom_remF f processes 0 hv.2 p
    simp only [tally, initState, eventCount, List.countP_nil, List.append_nil, h]
    simp [hp]
  | @next u w hprev _ hst ih =>
    have hinv := reachable_inv processes quantum hv hq _ (Or.inr rfl) u hprev
    rw [rrStep_tally processes quantum u w pred f hf hc hinv hst p]
    exact ih

/-- In a burst list of alternating types the bursts of the first type are as
many as the others, plus one when the length is odd. -/
theorem altFrom_typeCount (i : Nat) : ∀ (l : List Burst) (k : bt), altFrom i k l = true →
    typeCount k l = typeCount k.flip l + (if l.length % 2 = 1 then 1 else 0) := by
  intro l
  induction l with
  | nil => intro k _; simp [typeCount]
  | cons b bs ih =>
    intro k h
    simp only [altFrom, Bool.and_eq_true, decide_eq_true_eq] at h
    have h1 := ih k.flip h.2
    have hflip : k.flip.flip = k := by cases k <;> rfl
    have hne : ¬ k = k.flip := by
      cases k <;> simp [bt.flip]
    rw [hflip] at h1
    simp only [typeCount_cons, h.1.1.2, if_true, hne, if_false, List.length_cons]
    by_cases hpar : bs.length % 2 = 1
    · have hpar1 : ¬ (bs.length + 1) % 2 = 1 := by omega
      simp only [hpar, if_true] at h1
      simp only [hpar1, if_false]
      omega
    · have hpar1 : (bs.length + 1) % 2 = 1 := by omega
      simp only [hpar, if_false] at h1
      simp only [hpar1, if_true]
      omega

theorem typeCount_eq_countP (k : bt) (l : List Burst) :
    typeCount k l = (l.countP fun b => decide (b.burst_type = k) : Nat) := by
  induction l with
  | nil => rfl
  | cons b bs ih =>
    rw [typeCount_cons, ih, List.countP_cons]
    by_cases hb : b.burst_type = k
    · simp only [hb, if_true, decide_True, Nat.cast_add, Nat.cast_one]
      omega
    · simp only [hb, if_false, decide_False, Bool.false_eq_true, Nat.add_zero, zero_add]

theorem validFrom_getD : ∀ (ps : List (List Burst)) (i j : Nat), validFrom i ps = true →
    j < ps.length → validProcess (i + j) (ps.getD j []) = true := by
  intro ps
  induction ps with
  | nil => intro i j _ hj; simp at hj
  | cons l ps ih =>
    intro i j h hj
    simp only [validFrom, Bool.and_eq_true] at h
    cases j with
    | zero => simpa using h.1
    | succ j =>
      have := ih (i + 1) j h.2 (by simpa using hj)
      rw [show i + (j + 1) = i + 1 + j by omega]
      simpa using this

theorem cpuOnly_length : ∀ (ds : List Int) (i : Nat), (cpuOnly i ds).length = ds.length := by
  intro ds
  induction ds with
  | nil => intro i; rfl
  | cons d ds ih => intro i; simp [cpuOnly, ih]

/-- An iteration of `fcfs` on a state whose front ready entry is a single CPU
burst and whose blocked queue is empty. -/
theorem fcfsStep_single (s : SimState) (i : Nat) (d : Int) (rest : List (List Burst))
    (hR : s.readyQ = [⟨i, d, bt.CPU⟩] :: rest) (hB : s.blockedQ = [])
    (hc : i < s.cpuExecutedTimes.length) (hio : i < s.ioExecutedTimes.length)
    (hf : s.finished.length < s.cpuExecutedTimes.length)
    (hc0 : s.cpuExecutedTimes.getD i 0 = 0) (hio0 : s.ioExecutedTimes.getD i 0 = 0) :
    fcfsStepExact s = some
      { readyQ := rest
        blockedQ := []
        ioExecutedTimes := s.ioExecutedTimes
        cpuExecutedTimes := s.cpuExecutedTimes.set i d
        total_time := s.total_time + d
        finished := s.finished ++ [⟨i, s.total_time + d, s.total_time⟩]
        trace := s.trace ++ [⟨i, d, 0, s.total_time + d, COMPLETED⟩] } := by
  have hget : (s.cpuExecutedTimes.set i (s.cpuExecutedTimes.getD i 0 + d)).getD i 0 = d := by
    rw [getD_set_self _ _ _ hc, hc0, zero_add]
  have hlen : (s.cpuExecutedTimes.set i (s.cpuExecutedTimes.getD i 0 + d)).length
      = s.cpuExecutedTimes.length := by simp
  unfold fcfsStepExact
  rw [hR]
  simp only [addAt_some _ _ _ hc, Option.some_bind]
  unfold finishDispatchExact
  rw [hB]
  simp only [List.isEmpty_nil, if_true, Option.some_bind, hlen, hc, hio, and_self,
    List.length_singleton, ne_eq, not_true_eq_false, if_false, hf, hget, hio0]
  rw [hc0, zero_add]
  simp

/-- The loop of `fcfs` from a state that holds only single-burst processes,
numbered from the number of records written, with untouched counters. -/
theorem runLoop_cpuOnly : ∀ (ds : List Int) (i : Nat) (s : SimState),
    s.readyQ = cpuOnly i ds → s.blockedQ = [] →
    i + ds.length ≤ s.cpuExecutedTimes.length → i + ds.length ≤ s.ioExecutedTimes.length →
    s.finished.length = i →
    (∀ j, i ≤ j → s.cpuExecutedTimes.getD j 0 = 0) →
    (∀ j, s.ioExecutedTimes.getD j 0 = 0) →
    ∃ t, runLoop fcfsStepExact ds.length s = some t ∧ t.readyQ = [] ∧ t.blockedQ = [] ∧
      t.finished = s.finished ++ cpuOnlyRecords i s.total_time ds ∧
      t.trace = s.trace ++ cpuOnlyTrace i s.total_time ds := by
  intro ds
  induction ds with
  | nil =>
    intro i s hR hB _ _ _ _ _
    exact ⟨s, runLoop_done fcfsStepExact _ s hR hB, hR, hB, by simp [cpuOnlyRecords],
      by simp [cpuOnlyTrace]⟩
  | cons d ds ih =>
    intro i s hR hB hc hio hf hc0 hio0
    simp only [List.length_cons] at hc hio
    simp only [cpuOnly] at hR
    have hstep := fcfsStep_single s i d (cpuOnly (i + 1) ds) hR hB (by omega) (by omega)
      (by omega) (hc0 i (le_refl _)) (hio0 i)
    obtain ⟨t, ht, h1, h2, h3, h4⟩ := ih (i + 1)
      { readyQ := cpuOnly (i + 1) ds
        blockedQ := []
        ioExecutedTimes := s.ioExecutedTimes
        cpuExecutedTimes := s.cpuExecutedTimes.set i d
        total_time := s.total_time + d
        finished := s.finished ++ [⟨i, s.total_time + d, s.total_time⟩]
        trace := s.trace ++ [⟨i, d, 0, s.total_time + d, COMPLETED⟩] }
      rfl rfl (by simp; omega) (by simp; omega) (by simp [hf])
      (by
        intro j hj
        have hne : i ≠ j := by omega
        simp only [List.getD_eq_getElem?_getD, List.getElem?_set, hne, if_false]
        simpa [List.getD_eq_getElem?_getD] using hc0 j (by omega))
      hio0
    refine ⟨t, ?_, h1, h2, ?_, ?_⟩
    · rw [List.length_cons, runLoop_unroll fcfsStepExact ds.length s _
        (Or.inl (by rw [hR]; exact List.cons_ne_nil _ _)) hstep]
      exact ht
    · rw [h3]
      simp [cpuOnlyRecords]
    · rw [h4]
      simp [cpuOnlyTrace]

theorem cpuOnlyRecords_eq : ∀ (ds : List Int) (i : Nat) (T : Int),
    cpuOnlyRecords i T ds = (List.range ds.length).map fun j =>
      ⟨i + j, T + (ds.take (j + 1)).sum, T + (ds.take j).sum⟩ := by
  intro ds
  induction ds with
  | nil => intro i T; rfl
  | cons d ds ih =>
    intro i T
    rw [cpuOnlyRecords, ih, List.length_cons, List.range_succ_eq_map, List.map_cons,
      List.map_map]
    refine congrArg₂ _ (by simp) (List.map_congr_left fun j _ => ?_)
    simp only [Function.comp, List.take_succ_cons, List.sum_cons, completionLog.mk.injEq]
    exact ⟨by omega, by omega, by omega⟩

theorem cpuOnlyTrace_eq : ∀ (ds : List Int) (i : Nat) (T : Int),
    cpuOnlyTrace i T ds = (List.range ds.length).map fun j =>
      ⟨i + j, ds.getD j 0, 0, T + (ds.take (j + 1)).sum, COMPLETED⟩ := by
  intro ds
  induction ds with
  | nil => intro i T; rfl
  | cons d ds ih =>
    intro i T
    rw [cpuOnlyTrace, ih, List.length_cons, List.range_succ_eq_map, List.map_cons,
      List.map_map]
    refine congrArg₂ _ (by simp) (List.map_congr_left fun j _ => ?_)
    simp only [Function.comp, List.take_succ_cons, List.sum_cons, CpuEvent.mk.injEq,
      List.getD_cons_succ, and_true, true_and]
    exact ⟨by omega, by omega⟩

theorem loopFuel_cpuOnly : ∀ (ds : List Int) (i : Nat), (∀ d ∈ ds, 0 < d) →
    (ds.length : Int) ≤ totalDur (cpuOnly i ds) := by
  intro ds
  induction ds with
  | nil => intro i _; simp [cpuOnly, totalDur]
  | cons d ds ih =>
    intro i h
    have h1 := ih (i + 1) fun x hx => h x (List.mem_cons_of_mem _ hx)
    have h2 := h d (List.mem_cons_self _ _)
    simp only [cpuOnly, totalDur_cons, List.map_cons, List.map_nil, List.sum_cons,
      List.sum_nil, List.length_cons, Nat.cast_add, Nat.cast_one]
    omega

/-! ## The program as the 32-bit image of the exact computation -/

theorem wrap32_zero : wrap32 0 = 0 := by decide

theorem wrap32_add_left (a b : Int) : wrap32 (wrap32 a + b) = wrap32 (a + b) := by
  unfold wrap32
  omega

theorem wrap32_idem (a : Int) : wrap32 (wrap32 a) = wrap32 a := by
  unfold wrap32
  omega

theorem wrap32_sub_sub (t c i : Int) :
    wrap32 (wrap32 (wrap32 t - wrap32 c) - wrap32 i) = wrap32 (t - c - i) := by
  unfold wrap32
  omega

theorem wrap32_of_range {x : Int} (h1 : INT_MIN ≤ x) (h2 : x ≤ INT_MAX) : wrap32 x = x := by
  unfold INT_MIN at h1
  unfold INT_MAX at h2
  unfold wrap32
  omega

theorem wrap32_range (x : Int) : INT_MIN ≤ wrap32 x ∧ wrap32 x ≤ INT_MAX := by
  unfold INT_MIN INT_MAX wrap32
  omega

theorem getD_map_wrap32 (a : List Int) (i : Nat) :
    (a.map wrap32).getD i 0 = wrap32 (a.getD i 0) := by
  induction a generalizing i with
  | nil => simp [wrap32_zero]
  | cons x xs ih =>
    cases i with
    | zero => simp
    | succ i => simpa using ih i

theorem addAt_wrap (a : List Int) (i : Nat) (v : Int) :
    addAt (a.map wrap32) i v = (addAtExact a i v).map (List.map wrap32) := by
  unfold addAt addAtExact
  by_cases h : i < a.length
  · simp only [List.length_map, h, if_true, Option.map_some', getD_map_wrap32, wrap32_add_left,
      List.map_set]
  · simp [h]

theorem ioPass_wrap (e : Int) : ∀ (B : List (List Burst)) (io : List Int),
    ioPass e B (io.map wrap32)
      = (ioPassExact e B io).map fun r => (r.1, r.2.map wrap32) := by
  intro B
  induction B with
  | nil => intro io; simp [ioPass, ioPassExact]
  | cons l B ih =>
    intro io
    cases l with
    | nil => simp [ioPass, ioPassExact]
    | cons b bs =>
      simp only [ioPass, ioPassExact, addAt_wrap]
      split_ifs with hle
      · cases h : addAtExact io b.id b.duration with
        | none => simp
        | some io1 =>
          simp only [Option.map_some', Option.some_bind, ih]
          cases ioPassExact e B io1 <;> simp
      · cases h : addAtExact io b.id e with
        | none => simp
        | some io1 =>
          simp only [Option.map_some', Option.some_bind, ih]
          cases ioPassExact e B io1 <;> simp

theorem starve_wrap (s : SimState) : starve (wrapState s) = (starveExact s).map wrapState := by
  unfold starve starveExact
  cases hB : s.blockedQ with
  | nil => simp [wrapState, hB]
  | cons l B =>
    cases l with
    | nil => simp [wrapState, hB]
    | cons b bs =>
      simp only [wrapState, hB, ioPass_wrap]
      cases ioPassExact b.duration ((b :: bs) :: B) s.ioExecutedTimes with
      | none => simp
      | some p =>
        simp only [Option.map_some', Option.some_bind]
        cases promoteLoop p.1.length 0 p.1 s.readyQ with
        | none => simp
        | some q => simp [wrap32_add_left, wrapState]

theorem finishDispatch_wrap (s : SimState) (R : List (List Burst)) (cpu : List Int) (id : Nat)
    (e : Int) (sr : ExecutionStopReasonType) :
    finishDispatch (wrapState s) R (cpu.map wrap32) id e sr
      = (finishDispatchExact s R cpu id e sr).map wrapState := by
  unfold finishDispatch finishDispatchExact
  have hphase : (if (wrapState s).blockedQ.isEmpty then
        some (((wrapState s).blockedQ, R), (wrapState s).ioExecutedTimes)
      else (ioPass e (wrapState s).blockedQ (wrapState s).ioExecutedTimes).bind fun p =>
        (promoteLoop p.1.length 0 p.1 R).map fun q => (q, p.2))
      = (if s.blockedQ.isEmpty then some ((s.blockedQ, R), s.ioExecutedTimes)
        else (ioPassExact e s.blockedQ s.ioExecutedTimes).bind fun p =>
          (promoteLoop p.1.length 0 p.1 R).map fun q => (q, p.2)).map
        fun r => (r.1, r.2.map wrap32) := by
    by_cases hB : s.blockedQ.isEmpty
    · simp [wrapState, hB]
    · simp only [wrapState, hB, ioPass_wrap]
      cases ioPassExact e s.blockedQ s.ioExecutedTimes with
      | none => simp
      | some p =>
        simp only [Option.map_some', Option.some_bind]
        cases promoteLoop p.1.length 0 p.1 R <;> simp
  rw [hphase]
  cases (if s.blockedQ.isEmpty then some ((s.blockedQ, R), s.ioExecutedTimes)
        else (ioPassExact e s.blockedQ s.ioExecutedTimes).bind fun p =>
          (promoteLoop p.1.length 0 p.1 R).map fun q => (q, p.2)) with
  | none => simp
  | some r =>
    obtain ⟨⟨B2, R2⟩, io⟩ := r
    simp only [Option.map_some', Option.some_bind, List.length_map, getD_map_wrap32]
    by_cases hid : id < cpu.length ∧ id < io.length
    · simp only [hid, and_self, if_true]
      cases R2 with
      | nil => simp
      | cons front others =>
        cases sr with
        | QUANTUM_EXPIRED =>
          simp [wrapState, wrapEvent, wrap32_add_left]
        | ENTER_IO =>
          cases front with
          | nil => simp
          | cons x remaining => simp [wrapState, wrapEvent, wrap32_add_left]
        | COMPLETED =>
          by_cases hf : s.finished.length < cpu.length
          · simp [wrapState, wrapEvent, wrapRecord, wrap32_add_left, hf]
            exact wrap32_sub_sub _ _ _
          · simp [wrapState, hf]
    · simp [hid]

theorem wrapState_readyQ (s : SimState) : (wrapState s).readyQ = s.readyQ := rfl

theorem wrapState_blockedQ (s : SimState) : (wrapState s).blockedQ = s.blockedQ := rfl

theorem bind_wrap (o : Option (List Int)) (f g : List Int → Option SimState)
    (h : ∀ cpu, f (cpu.map wrap32) = (g cpu).map wrapState) :
    (o.map (List.map wrap32)).bind f = (o.bind g).map wrapState := by
  cases o with
  | none => rfl
  | some cpu => exact h cpu

theorem rrStep_wrap (quantum : Int) (s : SimState) :
    rrStep quantum (wrapState s) = (rrStepExact quantum s).map wrapState := by
  unfold rrStep rrStepExact
  rw [wrapState_readyQ]
  cases hR : s.readyQ with
  | nil => exact starve_wrap s
  | cons l rest =>
    cases l with
    | nil => rfl
    | cons b bs =>
      simp only
      have hcpu : (wrapState s).cpuExecutedTimes = s.cpuExecutedTimes.map wrap32 := rfl
      rw [hcpu]
      by_cases hle : b.duration ≤ quantum
      · rw [if_pos hle, if_pos hle, addAt_wrap]
        exact bind_wrap _ _ _ fun cpu => finishDispatch_wrap _ _ _ _ _ _
      · rw [if_neg hle, if_neg hle, addAt_wrap]
        exact bind_wrap _ _ _ fun cpu => finishDispatch_wrap _ _ _ _ _ _

theorem fcfsStep_wrap (s : SimState) :
    fcfsStep (wrapState s) = (fcfsStepExact s).map wrapState := by
  unfold fcfsStep fcfsStepExact
  rw [wrapState_readyQ]
  cases hR : s.readyQ with
  | nil => exact starve_wrap s
  | cons l rest =>
    cases l with
    | nil => rfl
    | cons b bs =>
      simp only
      have hcpu : (wrapState s).cpuExecutedTimes = s.cpuExecutedTimes.map wrap32 := rfl
      rw [hcpu, addAt_wrap]
      exact bind_wrap _ _ _ fun cpu => finishDispatch_wrap _ _ _ _ _ _

/-- The pairs of a step function of the program and the step function that
computes the same iteration in exact integers. -/
theorem step_exact (quantum : Int) (step : SimState → Option SimState)
    (hstep : step = fcfsStep ∨ step = rrStep quantum) :
    ∃ stepE : SimState → Option SimState,
      (stepE = fcfsStepExact ∨ stepE = rrStepExact quantum) ∧
      ∀ s, step (wrapState s) = (stepE s).map wrapState := by
  rcases hstep with rfl | rfl
  · exact ⟨fcfsStepExact, Or.inl rfl, fcfsStep_wrap⟩
  · exact ⟨rrStepExact quantum, Or.inr rfl, rrStep_wrap quantum⟩

theorem wrapState_initState (processes : List (List Burst)) :
    wrapState (initState processes) = initState processes := by
  simp [wrapState, initState, wrap32_zero]

theorem runLoop_wrap (step stepE : SimState → Option SimState)
    (hsim : ∀ s, step (wrapState s) = (stepE s).map wrapState) :
    ∀ (fuel : Nat) (s : SimState),
      runLoop step fuel (wrapState s) = (runLoop stepE fuel s).map wrapState := by
  intro fuel
  induction fuel with
  | zero =>
    intro s
    unfold runLoop
    rw [wrapState_readyQ, wrapState_blockedQ]
    split_ifs <;> rfl
  | succ n ih =>
    intro s
    unfold runLoop
    rw [wrapState_readyQ, wrapState_blockedQ]
    split_ifs
    · rfl
    · simp only [hsim]
      cases stepE s with
      | none => rfl
      | some t => exact ih t

theorem reach_of_exact (step stepE : SimState → Option SimState)
    (hsim : ∀ s, step (wrapState s) = (stepE s).map wrapState) (s0 : SimState) :
    ∀ s, Reach stepE s0 s → Reach step (wrapState s0) (wrapState s) := by
  intro s hs
  induction hs with
  | init => exact Reach.init
  | @next u w _ hne hst ih =>
    refine Reach.next ih hne ?_
    rw [hsim, hst]
    rfl

theorem reach_exact (step stepE : SimState → Option SimState)
    (hsim : ∀ s, step (wrapState s) = (stepE s).map wrapState) (s0 : SimState) :
    ∀ s, Reach step (wrapState s0) s → ∃ sE, Reach stepE s0 sE ∧ s = wrapState sE := by
  intro s hs
  induction hs with
  | init => exact ⟨s0, Reach.init, rfl⟩
  | @next u w _ hne hst ih =>
    obtain ⟨uE, hu, rfl⟩ := ih
    rw [hsim] at hst
    cases hE : stepE uE with
    | none => rw [hE] at hst; exact absurd hst (by simp)
    | some wE =>
      rw [hE] at hst
      simp only [Option.map_some', Option.some.injEq] at hst
      exact ⟨wE, Reach.next hu hne hE, hst.symm⟩

theorem durOf_nonneg (i : Nat) : ∀ (l : List Burst) (k0 k : bt), altFrom i k0 l = true →
    0 ≤ durOf k l := by
  intro l
  induction l with
  | nil => intro k0 k _; simp [durOf]
  | cons b bs ih =>
    intro k0 k h
    simp only [altFrom, Bool.and_eq_true, decide_eq_true_eq] at h
    have := ih k0.flip k h.2
    simp only [durOf]
    split_ifs <;> omega

theorem durOf_getD_nonneg (processes : List (List Burst)) (hv : validInput processes = true)
    (k : bt) (p : Nat) : 0 ≤ durOf k (processes.getD p []) := by
  by_cases hp : p < processes.length
  · simp only [validInput, Bool.and_eq_true] at hv
    have h := validFrom_getD processes 0 p hv.2 hp
    simp only [validProcess, Bool.and_eq_true] at h
    exact durOf_nonneg _ _ _ k h.1
  · have : processes.getD p [] = [] := by
      simp [List.getD_eq_getElem?_getD, List.getElem?_eq_none (not_lt.1 hp)]
    rw [this]
    simp [durOf]

theorem step_trace_shape (processes : List (List Burst)) (quantum : Int)
    (step : SimState → Option SimState)
    (hstep : step = fcfsStepExact ∨ step = rrStepExact quantum)
    (s t : SimState) (hinv : Inv processes s) (h : step s = some t) :
    t.trace = s.trace ∨ ∃ ev, t.trace = s.trace ++ [ev] ∧
      ev.cpuExecutedTime = t.cpuExecutedTimes.getD ev.procID 0 ∧
      ev.ioExecutedTime = t.ioExecutedTimes.getD ev.procID 0 ∧
      ev.totalElapsedTime = t.total_time := by
  cases hR : s.readyQ with
  | nil =>
    rw [step_of_ready_nil quantum step hstep s hR] at h
    exact Or.inl (starve_shape h).1
  | cons x rest =>
    obtain ⟨b, bs, rfl, -⟩ :=
      readyOK_cons (hinv.ready_ok x (by rw [hR]; exact List.mem_cons_self _ _))
    right
    rcases hstep with rfl | rfl
    · rw [fcfsStep_eq_rrStep] at h
      obtain ⟨-, -, ev, h3, h4, h5, h6, h7, -⟩ := rrStep_dispatch hR h
      exact ⟨ev, h3, by rw [h4]; exact h5, by rw [h4]; exact h6, h7⟩
    · obtain ⟨-, -, ev, h3, h4, h5, h6, h7, -⟩ := rrStep_dispatch hR h
      exact ⟨ev, h3, by rw [h4]; exact h5, by rw [h4]; exact h6, h7⟩

/-- In the exact computation on a valid input no counter is negative, and every
trace event holds counters that are not negative and add up to at most its
time, which is at most the current time. -/
theorem reach_range (processes : List (List Burst)) (quantum : Int)
    (hv : validInput processes = true) (hq : 0 < quantum)
    (step : SimState → Option SimState)
    (hstep : step = fcfsStepExact ∨ step = rrStepExact quantum) :
    ∀ s, Reach step (initState processes) s →
      (∀ p, 0 ≤ s.cpuExecutedTimes.getD p 0 ∧ 0 ≤ s.ioExecutedTimes.getD p 0) ∧
      (∀ ev ∈ s.trace, 0 ≤ ev.cpuExecutedTime ∧ 0 ≤ ev.ioExecutedTime ∧
        ev.cpuExecutedTime + ev.ioExecutedTime ≤ ev.totalElapsedTime ∧
        ev.totalElapsedTime ≤ s.total_time) := by
  intro s hs
  induction hs with
  | init =>
    refine ⟨fun p => ?_, fun ev hev => ?_⟩
    · simp [initState, getD_replicate_zero]
    · exact absurd hev (by simp [initState])
  | @next u w hprev hne hst ih =>
    have hinv := reachable_inv processes quantum hv hq step hstep u hprev
    obtain ⟨hc, -⟩ := step_counters processes quantum hq step hstep u w hinv hst
    have hw := (reach_wait processes quantum hv hq step hstep w (Reach.next hprev hne hst)).1
    have htime := step_time processes quantum hq step hstep u w hinv hne hst
    have hcnt : ∀ p, 0 ≤ w.cpuExecutedTimes.getD p 0 ∧ 0 ≤ w.ioExecutedTimes.getD p 0 := by
      intro p
      have h1 := ih.1 p
      have h2 := hc p
      exact ⟨by omega, by omega⟩
    refine ⟨hcnt, ?_⟩
    intro ev hev
    rcases step_trace_shape processes quantum step hstep u w hinv hst with htr | ⟨e1, htr, h1, h2, h3⟩
    · rw [htr] at hev
      have := ih.2 ev hev
      exact ⟨this.1, this.2.1, this.2.2.1, by omega⟩
    · rw [htr] at hev
      rcases List.mem_append.1 hev with hev | hev
      · have := ih.2 ev hev
        exact ⟨this.1, this.2.1, this.2.2.1, by omega⟩
      · rw [List.mem_singleton.1 hev, h1, h2, h3]
        exact ⟨(hcnt _).1, (hcnt _).2, hw _, le_refl _⟩

theorem getD_mem_or {a : List Int} {x : Int} (hx : x ∈ a) : ∃ p, x = a.getD p 0 := by
  obtain ⟨n, hn, rfl⟩ := List.getElem_of_mem hx
  exact ⟨n, by simp [List.getD_eq_getElem?_getD, List.getElem?_eq_getElem hn]⟩

theorem map_eq_self {α : Type} (f : α → α) (a : List α) (h : ∀ x ∈ a, f x = x) :
    a.map f = a := by
  induction a with
  | nil => rfl
  | cons x xs ih =>
    simp only [List.map_cons]
    rw [h x (List.mem_cons_self _ _), ih fun y hy => h y (List.mem_cons_of_mem _ hy)]

/-- When the burst durations of a valid input add up to at most `INT_MAX`, every
value that the exact computation holds fits in an `int`: reducing a reached
state to 32 bits changes nothing. -/
theorem reach_fits (processes : List (List Burst)) (quantum : Int)
    (hv : validInput processes = true) (hq : 0 < quantum)
    (hfit : totalDur processes ≤ INT_MAX)
    (step : SimState → Option SimState)
    (hstep : step = fcfsStepExact ∨ step = rrStepExact quantum) :
    ∀ s, Reach step (initState processes) s → wrapState s = s := by
  intro s hs
  have hinv := reachable_inv processes quantum hv hq step hstep s hs
  obtain ⟨hcnt, hev⟩ := reach_range processes quantum hv hq step hstep s hs
  obtain ⟨hsum, hwait⟩ := reach_wait processes quantum hv hq step hstep s hs
  have hT0 := hinv.time_lo
  have hT1 := hinv.time_hi
  have hW := hinv.workLeft_nonneg.1
  unfold workLeft at hW
  have hTmax : s.total_time ≤ INT_MAX := by omega
  have hmin : INT_MIN ≤ 0 := by decide
  have hfits : ∀ x : Int, 0 ≤ x → x ≤ s.total_time → wrap32 x = x := by
    intro x h0 h1
    exact wrap32_of_range (by omega) (by omega)
  have hio : s.ioExecutedTimes.map wrap32 = s.ioExecutedTimes := by
    refine map_eq_self _ _ fun x hx => ?_
    obtain ⟨p, rfl⟩ := getD_mem_or hx
    have := hcnt p
    have := hsum p
    exact hfits _ (by omega) (by omega)
  have hcpu : s.cpuExecutedTimes.map wrap32 = s.cpuExecutedTimes := by
    refine map_eq_self _ _ fun x hx => ?_
    obtain ⟨p, rfl⟩ := getD_mem_or hx
    have := hcnt p
    have := hsum p
    exact hfits _ (by omega) (by omega)
  have hfin : s.finished.map wrapRecord = s.finished := by
    refine map_eq_self _ _ fun r hr => ?_
    have h1 := hinv.fin_le r hr
    have h2 := hinv.fin_cons r hr
    have h3 := hwait r hr
    have h4 := durOf_getD_nonneg processes hv bt.CPU r.id
    have h5 := durOf_getD_nonneg processes hv bt.IO_ r.id
    unfold wrapRecord
    rw [hfits r.completionTime (by omega) h1, hfits r.totalWaitTime h3 (by omega)]
  have htr : s.trace.map wrapEvent = s.trace := by
    refine map_eq_self _ _ fun ev he => ?_
    obtain ⟨h1, h2, h3, h4⟩ := hev ev he
    unfold wrapEvent
    rw [hfits ev.cpuExecutedTime h1 (by omega), hfits ev.ioExecutedTime h2 (by omega),
      hfits ev.totalElapsedTime (by omega) h4]
  unfold wrapState
  rw [hio, hcpu, hfin, htr, hfits s.total_time hT0 (le_refl _)]

theorem runLoop_reach (step : SimState → Option SimState) (s0 : SimState) :
    ∀ (fuel : Nat) (s t : SimState), Reach step s0 s → runLoop step fuel s = some t →
      Reach step s0 t := by
  intro fuel
  induction fuel with
  | zero =>
    intro s t hs h
    unfold runLoop at h
    split_ifs at h with hc
    · simp only [Option.some.injEq] at h
      exact h ▸ hs
  | succ n ih =>
    intro s t hs h
    unfold runLoop at h
    split_ifs at h with hc
    · simp only [Option.some.injEq] at h
      exact h ▸ hs
    · cases hst : step s with
      | none => rw [hst] at h; exact absurd h (by simp)
      | some u =>
        rw [hst] at h
        have hne : s.readyQ ≠ [] ∨ s.blockedQ ≠ [] := by
          by_contra hcon
          simp only [not_or, not_not] at hcon
          exact hc (by simp [hcon.1, hcon.2])
        exact ih u t (Reach.next hs hne hst) h

/-- In exact integers (conservation). On a valid input, for `fcfs` and for `round_robin` with a
positive quantum: in every iteration of the loop that writes a completion
record, the counters `cpuExecutedTimes` and `ioExecutedTimes` of the recorded
process then hold the sum of its original CPU bursts and the sum of its original
IO bursts, so together the sum of all its original bursts; and the loop ends
with such a record for every process, in which `completionTime - totalWaitTime`
(the two counters as the code read them when it wrote the record) is that sum. -/
theorem exact_conservation (processes : List (List Burst)) (quantum : Int)
    (hv : validInput processes = true) (hq : 0 < quantum)
    (step : SimState → Option SimState)
    (hstep : step = fcfsStepExact ∨ step = rrStepExact quantum) :
    (∀ s t r, Reach step (initState processes) s → (s.readyQ ≠ [] ∨ s.blockedQ ≠ []) →
      step s = some t → t.finished = s.finished ++ [r] →
        t.cpuExecutedTimes.getD r.id 0 = durOf bt.CPU (processes.getD r.id []) ∧
        t.ioExecutedTimes.getD r.id 0 = durOf bt.IO_ (processes.getD r.id []) ∧
        t.cpuExecutedTimes.getD r.id 0 + t.ioExecutedTimes.getD r.id 0
          = ((processes.getD r.id []).map fun (b : Burst) => b.duration).sum) ∧
    ∃ sf, runLoop step (loopFuel processes) (initState processes) = some sf ∧
      ∀ p, p < processes.length → ∃ r ∈ sf.finished, r.id = p ∧
        r.completionTime - r.totalWaitTime
          = ((processes.getD p []).map fun (b : Burst) => b.duration).sum := by
  constructor
  · intro s t r hs hne hst hfin
    have hinv : Inv processes t :=
      reachable_inv processes quantum hv hq step hstep t (Reach.next hs hne hst)
    have hr : r ∈ t.finished := by rw [hfin]; simp
    obtain ⟨-, h1, h2⟩ := hinv.finished_counters hr
    refine ⟨h1, h2, ?_⟩
    rw [h1, h2, durOf_add]
  · obtain ⟨sf, hrun, -, hinv, hr, hb⟩ := loop_spec processes quantum hv hq step hstep
    refine ⟨sf, hrun, ?_⟩
    intro p hp
    have hmem : p ∈ sf.finished.map fun r => r.id :=
      (hinv.finished_perm hr hb).mem_iff.2 (List.mem_range.2 hp)
    obtain ⟨r, hrmem, rfl⟩ := List.mem_map.1 hmem
    refine ⟨r, hrmem, rfl, ?_⟩
    rw [hinv.fin_cons r hrmem, durOf_add]

/-- In exact integers (queue disjointness). In every state that `fcfs` or `round_robin`
(positive quantum) reaches on a valid input of `n` processes, at an iteration
boundary: the ids of the ready entries, followed by those of the blocked
entries, followed by those of the completion records, are a permutation of
`0 .. n-1`; so every process id occurs exactly once, in exactly one of the
three places. In particular no id is in both queues, and every queue entry is
a non-empty burst list. -/
theorem exact_disjointness (processes : List (List Burst)) (quantum : Int)
    (hv : validInput processes = true) (hq : 0 < quantum)
    (step : SimState → Option SimState)
    (hstep : step = fcfsStepExact ∨ step = rrStepExact quantum)
    (s : SimState) (hs : Reach step (initState processes) s) :
    (s.readyQ.map pid ++ s.blockedQ.map pid ++ s.finished.map fun r => r.id).Perm
        (List.range processes.length) ∧
      (∀ p, p < processes.length →
        (s.readyQ.map pid).count p + (s.blockedQ.map pid).count p
          + (s.finished.map fun r => r.id).count p = 1) ∧
      List.Disjoint (s.readyQ.map pid) (s.blockedQ.map pid) ∧
      (∀ l ∈ s.readyQ ++ s.blockedQ, l ≠ []) := by
  have hinv := reachable_inv processes quantum hv hq step hstep s hs
  have hnd : (s.readyQ.map pid ++ s.blockedQ.map pid ++ s.finished.map fun r => r.id).Nodup :=
    hinv.ids.nodup_iff.2 (List.nodup_range _)
  refine ⟨hinv.ids, ?_, ?_, ?_⟩
  · intro p hp
    have h := hinv.ids.count_eq p
    rw [List.count_append, List.count_append,
      List.count_eq_one_of_mem (List.nodup_range _) (List.mem_range.2 hp)] at h
    exact h
  · exact (List.nodup_append.1 (List.nodup_append.1 hnd).1).2.2
  · intro l hl
    rcases List.mem_append.1 hl with hl | hl
    · obtain ⟨b, bs, rfl, -⟩ := readyOK_cons (hinv.ready_ok l hl)
      exact List.cons_ne_nil _ _
    · exact blockedOK_ne_nil (hinv.blocked_ok l hl)

/-- In exact integers (monotonic global time). In every iteration that `fcfs` or `round_robin`
(positive quantum) runs from a state reached on a valid input, `total_time`
does not decrease; it strictly increases when the iteration consumes a burst
(the number of bursts held in the queues goes down), and in fact in every
iteration; in a starvation iteration (empty ready queue) the head duration of
the front blocked entry is positive and is the amount by which the time
advances. -/
theorem exact_time (processes : List (List Burst)) (quantum : Int)
    (hv : validInput processes = true) (hq : 0 < quantum)
    (step : SimState → Option SimState)
    (hstep : step = fcfsStepExact ∨ step = rrStepExact quantum)
    (s t : SimState) (hs : Reach step (initState processes) s)
    (hne : s.readyQ ≠ [] ∨ s.blockedQ ≠ []) (h : step s = some t) :
    s.total_time ≤ t.total_time ∧
      (burstCount t < burstCount s → s.total_time < t.total_time) ∧
      s.total_time < t.total_time ∧
      (s.readyQ = [] → 0 < headDur (s.blockedQ.headD []) ∧
        t.total_time = s.total_time + headDur (s.blockedQ.headD [])) := by
  have hinv := reachable_inv processes quantum hv hq step hstep s hs
  have hlt := step_time processes quantum hq step hstep s t hinv hne h
  refine ⟨le_of_lt hlt, fun _ => hlt, hlt, ?_⟩
  intro hR
  rw [step_of_ready_nil quantum step hstep s hR] at h
  have h1 := (starve_shape h).2.2.2
  cases hB : s.blockedQ with
  | nil =>
    rcases hne with hne | hne
    · exact absurd hR hne
    · exact absurd hB hne
  | cons x xs =>
    rw [hB] at h1
    exact ⟨by simpa using hinv.front_pos hR hB, h1⟩

/-- In exact integers (the simulation cannot fail). In every state that `fcfs` or
`round_robin` (positive quantum) reaches on a valid input, at an iteration
boundary: every ready entry is a non-empty burst list whose head is a CPU burst
with a positive remaining duration, every blocked entry is a non-empty burst
list whose head is an IO burst, and, while a queue is non-empty, the next
iteration is defined: no `front()` is taken on an empty container and no array
is indexed out of range. -/
theorem exact_safety (processes : List (List Burst)) (quantum : Int)
    (hv : validInput processes = true) (hq : 0 < quantum)
    (step : SimState → Option SimState)
    (hstep : step = fcfsStepExact ∨ step = rrStepExact quantum)
    (s : SimState) (hs : Reach step (initState processes) s) :
    (∀ l ∈ s.readyQ, ∃ b bs, l = b :: bs ∧ b.burst_type = bt.CPU ∧ 0 < b.duration) ∧
      (∀ l ∈ s.blockedQ, ∃ b bs, l = b :: bs ∧ b.burst_type = bt.IO_) ∧
      ((s.readyQ ≠ [] ∨ s.blockedQ ≠ []) → ∃ t, step s = some t) := by
  have hinv := reachable_inv processes quantum hv hq step hstep s hs
  refine ⟨?_, ?_, ?_⟩
  · intro l hl
    obtain ⟨b, bs, rfl, hty, hd, -⟩ := readyOK_cons (hinv.ready_ok l hl)
    exact ⟨b, bs, rfl, hty, hd⟩
  · intro l hl
    obtain ⟨b, rest, rfl, hty, -⟩ := hinv.blocked_ok l hl
    exact ⟨b, rest, rfl, hty⟩
  · intro hne
    obtain ⟨t, ht, -⟩ := step_inv processes quantum hq step hstep s hinv hne
    exact ⟨t, ht⟩

/-- In exact integers (blocked-queue ordering). In every state that `fcfs` or `round_robin`
(positive quantum) reaches on a valid input, at an iteration boundary, the
blocked queue is ordered by non-decreasing remaining duration of the head
bursts; the order survives the equal floored decrement of all heads by any
`e ≥ 0` and the removal of any number of front entries, which is why sorting
on the enter-io transition alone keeps it. -/
theorem exact_sorted (processes : List (List Burst)) (quantum : Int)
    (hv : validInput processes = true) (hq : 0 < quantum)
    (step : SimState → Option SimState)
    (hstep : step = fcfsStepExact ∨ step = rrStepExact quantum)
    (s : SimState) (hs : Reach step (initState processes) s) :
    (s.blockedQ.Pairwise fun a b => headDur a ≤ headDur b) ∧
      ∀ (e : Int) (k : Nat), 0 ≤ e →
        ((s.blockedQ.map (decHead e)).drop k).Pairwise fun a b => headDur a ≤ headDur b := by
  have hinv := reachable_inv processes quantum hv hq step hstep s hs
  refine ⟨hinv.sorted, ?_⟩
  intro e k he
  exact (pairwise_decHead he hinv.sorted).sublist (List.drop_sublist k _)

/-- In exact integers (requeue on quantum expiry). In every state that `round_robin` with a
positive quantum reaches on a valid input and whose front ready entry is
`b :: bs`: an iteration whose trace event has stop reason `quantum expired`
leaves the ready queue as the other ready entries in their order, then the
entries promoted from the blocked queue in this iteration, then, last, the
pre-empted entry, whose head CPU burst has its remaining duration reduced by
exactly the quantum and is otherwise unchanged; and such an iteration is the one
that is run whenever the remaining duration exceeds the quantum. -/
theorem exact_requeue (processes : List (List Burst)) (quantum : Int)
    (hv : validInput processes = true) (hq : 0 < quantum) (s : SimState)
    (hs : Reach (rrStepExact quantum) (initState processes) s)
    (b : Burst) (bs : List Burst) (rest : List (List Burst))
    (hR : s.readyQ = (b :: bs) :: rest) :
    (∀ t ev, rrStepExact quantum s = some t → t.trace = s.trace ++ [ev] →
      ev.stopReason = QUANTUM_EXPIRED →
      quantum < b.duration ∧
      ∃ k, t.readyQ = rest ++ ((s.blockedQ.map (decHead quantum)).take k).map List.tail
            ++ [{ b with duration := b.duration - quantum } :: bs] ∧
        t.readyQ.getLast? = some ({ b with duration := b.duration - quantum } :: bs) ∧
        t.blockedQ = (s.blockedQ.map (decHead quantum)).drop k ∧
        ∀ l ∈ (s.blockedQ.map (decHead quantum)).take k, headDur l = 0) ∧
    (quantum < b.duration →
      ∃ t ev, rrStepExact quantum s = some t ∧ t.trace = s.trace ++ [ev] ∧
        ev.stopReason = QUANTUM_EXPIRED) := by
  have hinv := reachable_inv processes quantum hv hq _ (Or.inr rfl) s hs
  constructor
  · intro t ev ht htr hev
    obtain ⟨-, -, ev1, h3, -, -, -, -, h5⟩ := rrStep_dispatch hR ht
    have hev1 : ev1 = ev := by
      rw [h3] at htr
      have := List.append_cancel_left htr
      simpa using this
    subst hev1
    have hlt : quantum < b.duration := by
      by_contra hcon
      rw [h5, if_neg hcon] at hev
      split_ifs at hev
    obtain ⟨k, io1, -, hzero, hst⟩ := rrStep_expired processes quantum s b bs rest hinv hR hlt
    rw [ht] at hst
    simp only [Option.some.injEq] at hst
    subst hst
    exact ⟨hlt, k, rfl, by simp, rfl, hzero⟩
  · intro hlt
    obtain ⟨k, io1, -, -, hst⟩ := rrStep_expired processes quantum s b bs rest hinv hR hlt
    exact ⟨_, _, hst, rfl, rfl⟩

/-- In exact integers (wait time). On a valid input, for `fcfs` and for
`round_robin` with a positive quantum: in every iteration from a reached state
no counter decreases and `cpuExecutedTimes[p] + ioExecutedTimes[p]` grows by at
most the elapsed time, so it never exceeds `total_time`; a record written in an
iteration has `totalWaitTime = completionTime - cpuExecutedTimes[id] -
ioExecutedTimes[id]` with the values at that moment, which is not negative. -/
theorem exact_wait (processes : List (List Burst)) (quantum : Int)
    (hv : validInput processes = true) (hq : 0 < quantum)
    (step : SimState → Option SimState)
    (hstep : step = fcfsStepExact ∨ step = rrStepExact quantum) :
    ∀ s t, Reach step (initState processes) s → (s.readyQ ≠ [] ∨ s.blockedQ ≠ []) →
      step s = some t →
      (∀ p, s.cpuExecutedTimes.getD p 0 ≤ t.cpuExecutedTimes.getD p 0 ∧
        s.ioExecutedTimes.getD p 0 ≤ t.ioExecutedTimes.getD p 0 ∧
        t.cpuExecutedTimes.getD p 0 + t.ioExecutedTimes.getD p 0
            - (s.cpuExecutedTimes.getD p 0 + s.ioExecutedTimes.getD p 0)
          ≤ t.total_time - s.total_time ∧
        t.cpuExecutedTimes.getD p 0 + t.ioExecutedTimes.getD p 0 ≤ t.total_time) ∧
      (∀ r, t.finished = s.finished ++ [r] →
        r.completionTime = t.total_time ∧
        r.totalWaitTime = r.completionTime - t.cpuExecutedTimes.getD r.id 0
          - t.ioExecutedTimes.getD r.id 0 ∧
        0 ≤ r.totalWaitTime) := by
  intro s t hs hne hst
  have hinv := reachable_inv processes quantum hv hq step hstep s hs
  obtain ⟨hc, hf⟩ := step_counters processes quantum hq step hstep s t hinv hst
  have hwt := reach_wait processes quantum hv hq step hstep t (Reach.next hs hne hst)
  refine ⟨fun p => ⟨(hc p).1, (hc p).2.1, (hc p).2.2, hwt.1 p⟩, ?_⟩
  intro r hr
  have hr0 : 0 ≤ r.totalWaitTime := hwt.2 r (by rw [hr]; simp)
  rcases hf with hf | ⟨id, hf⟩
  · rw [hf] at hr
    have := congrArg List.length hr
    simp at this
  · rw [hf] at hr
    have h1 := List.append_cancel_left hr
    simp only [List.cons.injEq, and_true] at h1
    subst h1
    exact ⟨rfl, rfl, hr0⟩

/-- A state that the program reaches from the initial state is the 32-bit image
of a state that the exact computation reaches. -/
theorem reach_exact_init (processes : List (List Burst))
    (step stepE : SimState → Option SimState)
    (hsim : ∀ s, step (wrapState s) = (stepE s).map wrapState) :
    ∀ s, Reach step (initState processes) s →
      ∃ sE, Reach stepE (initState processes) sE ∧ s = wrapState sE := by
  intro s hs
  rw [← wrapState_initState processes] at hs
  exact reach_exact step stepE hsim (initState processes) s hs

theorem runLoop_wrap_init (processes : List (List Burst))
    (step stepE : SimState → Option SimState)
    (hsim : ∀ s, step (wrapState s) = (stepE s).map wrapState) (fuel : Nat) :
    runLoop step fuel (initState processes)
      = (runLoop stepE fuel (initState processes)).map wrapState := by
  rw [← runLoop_wrap step stepE hsim fuel (initState processes), wrapState_initState]

theorem step_wrap_some (step stepE : SimState → Option SimState)
    (hsim : ∀ s, step (wrapState s) = (stepE s).map wrapState) {sE : SimState} {t : SimState}
    (h : step (wrapState sE) = some t) : ∃ tE, stepE sE = some tE ∧ t = wrapState tE := by
  rw [hsim] at h
  cases hE : stepE sE with
  | none => rw [hE] at h; exact absurd h (by simp)
  | some tE =>
    rw [hE] at h
    simp only [Option.map_some', Option.some.injEq] at h
    exact ⟨tE, rfl, h.symm⟩

theorem stepExact_empty (quantum : Int) (step : SimState → Option SimState)
    (hstep : step = fcfsStepExact ∨ step = rrStepExact quantum) (s : SimState)
    (hr : s.readyQ = []) (hb : s.blockedQ = []) : step s = none := by
  rw [step_of_ready_nil quantum step hstep s hr]
  unfold starveExact
  rw [hb]

/-- When the burst durations of a valid input add up to at most `INT_MAX`, the
program and the exact computation pass through the same states. -/
theorem bounded_exact (processes : List (List Burst)) (quantum : Int)
    (hv : validInput processes = true) (hq : 0 < quantum)
    (hfit : totalDur processes ≤ INT_MAX)
    (step : SimState → Option SimState) (hstep : step = fcfsStep ∨ step = rrStep quantum) :
    ∃ stepE : SimState → Option SimState,
      (stepE = fcfsStepExact ∨ stepE = rrStepExact quantum) ∧
      (∀ s, Reach step (initState processes) s → Reach stepE (initState processes) s) ∧
      (∀ s, Reach stepE (initState processes) s → step s = stepE s) ∧
      (∀ fuel, runLoop step fuel (initState processes)
        = runLoop stepE fuel (initState processes)) := by
  obtain ⟨stepE, hE, hsim⟩ := step_exact quantum step hstep
  have hfits := reach_fits processes quantum hv hq hfit stepE hE
  refine ⟨stepE, hE, ?_, ?_, ?_⟩
  · intro s hs
    obtain ⟨sE, hsE, rfl⟩ := reach_exact_init processes step stepE hsim s hs
    rw [hfits sE hsE]
    exact hsE
  · intro s hs
    have h := hsim s
    rw [hfits s hs] at h
    rw [h]
    cases hst : stepE s with
    | none => rfl
    | some t =>
      have hne : s.readyQ ≠ [] ∨ s.blockedQ ≠ [] := by
        by_contra hcon
        simp only [not_or, not_not] at hcon
        rw [stepExact_empty quantum stepE hE s hcon.1 hcon.2] at hst
        exact absurd hst (by simp)
      simp only [Option.map_some', hfits t (Reach.next hs hne hst)]
  · intro fuel
    rw [runLoop_wrap_init processes step stepE hsim fuel]
    cases hrun : runLoop stepE fuel (initState processes) with
    | none => rfl
    | some t =>
      simp only [Option.map_some',
        hfits t (runLoop_reach stepE _ fuel _ t Reach.init hrun)]

theorem wrapState_finished_ids (s : SimState) :
    ((wrapState s).finished.map fun r => r.id) = s.finished.map fun r => r.id := by
  simp [wrapState, wrapRecord]

theorem wrapState_finished_length (s : SimState) :
    (wrapState s).finished.length = s.finished.length := by
  simp [wrapState]

theorem wrapState_cpu (s : SimState) (p : Nat) :
    (wrapState s).cpuExecutedTimes.getD p 0 = wrap32 (s.cpuExecutedTimes.getD p 0) :=
  getD_map_wrap32 _ _

theorem wrapState_io (s : SimState) (p : Nat) :
    (wrapState s).ioExecutedTimes.getD p 0 = wrap32 (s.ioExecutedTimes.getD p 0) :=
  getD_map_wrap32 _ _

theorem wrapState_time (s : SimState) : (wrapState s).total_time = wrap32 s.total_time := rfl

theorem wrapState_trace (s : SimState) : (wrapState s).trace = s.trace.map wrapEvent := rfl

theorem wrapState_finished (s : SimState) :
    (wrapState s).finished = s.finished.map wrapRecord := rfl

theorem eventCount_wrap (pred : ExecutionStopReasonType → Bool) (p : Nat)
    (trace : List CpuEvent) :
    eventCount pred p (trace.map wrapEvent) = eventCount pred p trace := by
  unfold eventCount
  rw [List.countP_map]
  rfl

/-- The run of the `fcfs` loop on the example input, iteration by iteration:
dispatch of CPU 5 (enter io), starvation during IO 3, dispatch of CPU 2
(completed). -/
theorem fcfs_loop_exampleInput :
    fcfs_loop exampleInput = some
      ⟨[], [], [3], [7], 10, [⟨0, 10, 0⟩],
        [⟨0, 5, 0, 5, ENTER_IO⟩, ⟨0, 7, 3, 10, COMPLETED⟩]⟩ := by
  have hfuel : loopFuel exampleInput = 10 := by decide
  have h1 : fcfsStep (initState exampleInput) = some
      ⟨[], [[⟨0, 3, bt.IO_⟩, ⟨0, 2, bt.CPU⟩]], [0], [5], 5, [], [⟨0, 5, 0, 5, ENTER_IO⟩]⟩ := by
    decide
  have h2 : fcfsStep
      ⟨[], [[⟨0, 3, bt.IO_⟩, ⟨0, 2, bt.CPU⟩]], [0], [5], 5, [], [⟨0, 5, 0, 5, ENTER_IO⟩]⟩ = some
      ⟨[[⟨0, 2, bt.CPU⟩]], [], [3], [5], 8, [], [⟨0, 5, 0, 5, ENTER_IO⟩]⟩ := by
    decide
  have h3 : fcfsStep ⟨[[⟨0, 2, bt.CPU⟩]], [], [3], [5], 8, [], [⟨0, 5, 0, 5, ENTER_IO⟩]⟩ = some
      ⟨[], [], [3], [7], 10, [⟨0, 10, 0⟩],
        [⟨0, 5, 0, 5, ENTER_IO⟩, ⟨0, 7, 3, 10, COMPLETED⟩]⟩ := by
    decide
  unfold fcfs_loop
  rw [hfuel]
  exact (runLoop_unroll fcfsStep 9 _ _ (by decide) h1).trans
    ((runLoop_unroll fcfsStep 8 _ _ (by decide) h2).trans
      ((runLoop_unroll fcfsStep 7 _ _ (by decide) h3).trans
        (runLoop_done fcfsStep 7 _ rfl rfl)))

/-- The run of the `round_robin` loop with quantum 2 on the example input,
iteration by iteration: two expired quanta, the last unit of CPU 5 (enter io),
starvation during IO 3, dispatch of CPU 2 (completed). -/
theorem round_robin_loop_exampleInput :
    round_robin_loop 2 exampleInput = some
      ⟨[], [], [3], [7], 10, [⟨0, 10, 0⟩],
        [⟨0, 2, 0, 2, QUANTUM_EXPIRED⟩, ⟨0, 4, 0, 4, QUANTUM_EXPIRED⟩, ⟨0, 5, 0, 5, ENTER_IO⟩,
          ⟨0, 7, 3, 10, COMPLETED⟩]⟩ := by
  have hfuel : loopFuel exampleInput = 10 := by decide
  have h1 : rrStep 2 (initState exampleInput) = some
      ⟨[[⟨0, 3, bt.CPU⟩, ⟨0, 3, bt.IO_⟩, ⟨0, 2, bt.CPU⟩]], [], [0], [2], 2, [],
        [⟨0, 2, 0, 2, QUANTUM_EXPIRED⟩]⟩ := by
    decide
  have h2 : rrStep 2
      ⟨[[⟨0, 3, bt.CPU⟩, ⟨0, 3, bt.IO_⟩, ⟨0, 2, bt.CPU⟩]], [], [0], [2], 2, [],
        [⟨0, 2, 0, 2, QUANTUM_EXPIRED⟩]⟩ = some
      ⟨[[⟨0, 1, bt.CPU⟩, ⟨0, 3, bt.IO_⟩, ⟨0, 2, bt.CPU⟩]], [], [0], [4], 4, [],
        [⟨0, 2, 0, 2, QUANTUM_EXPIRED⟩, ⟨0, 4, 0, 4, QUANTUM_EXPIRED⟩]⟩ := by
    decide
  have h3 : rrStep 2
      ⟨[[⟨0, 1, bt.CPU⟩, ⟨0, 3, bt.IO_⟩, ⟨0, 2, bt.CPU⟩]], [], [0], [4], 4, [],
        [⟨0, 2, 0, 2, QUANTUM_EXPIRED⟩, ⟨0, 4, 0, 4, QUANTUM_EXPIRED⟩]⟩ = some
      ⟨[], [[⟨0, 3, bt.IO_⟩, ⟨0, 2, bt.CPU⟩]], [0], [5], 5, [],
        [⟨0, 2, 0, 2, QUANTUM_EXPIRED⟩, ⟨0, 4, 0, 4, QUANTUM_EXPIRED⟩,
          ⟨0, 5, 0, 5, ENTER_IO⟩]⟩ := by
    decide
  have h4 : rrStep 2
      ⟨[], [[⟨0, 3, bt.IO_⟩, ⟨0, 2, bt.CPU⟩]], [0], [5], 5, [],
        [⟨0, 2, 0, 2, QUANTUM_EXPIRED⟩, ⟨0, 4, 0, 4, QUANTUM_EXPIRED⟩,
          ⟨0, 5, 0, 5, ENTER_IO⟩]⟩ = some
      ⟨[[⟨0, 2, bt.CPU⟩]], [], [3], [5], 8, [],
        [⟨0, 2, 0, 2, QUANTUM_EXPIRED⟩, ⟨0, 4, 0, 4, QUANTUM_EXPIRED⟩,
          ⟨0, 5, 0, 5, ENTER_IO⟩]⟩ := by
    decide
  have h5 : rrStep 2
      ⟨[[⟨0, 2, bt.CPU⟩]], [], [3], [5], 8, [],
        [⟨0, 2, 0, 2, QUANTUM_EXPIRED⟩, ⟨0, 4, 0, 4, QUANTUM_EXPIRED⟩,
          ⟨0, 5, 0, 5, ENTER_IO⟩]⟩ = some
      ⟨[], [], [3], [7], 10, [⟨0, 10, 0⟩],
        [⟨0, 2, 0, 2, QUANTUM_EXPIRED⟩, ⟨0, 4, 0, 4, QUANTUM_EXPIRED⟩, ⟨0, 5, 0, 5, ENTER_IO⟩,
          ⟨0, 7, 3, 10, COMPLETED⟩]⟩ := by
    decide
  unfold round_robin_loop
  rw [hfuel]
  exact (runLoop_unroll (rrStep 2) 9 _ _ (by decide) h1).trans
    ((runLoop_unroll (rrStep 2) 8 _ _ (by decide) h2).trans
      ((runLoop_unroll (rrStep 2) 7 _ _ (by decide) h3).trans
        ((runLoop_unroll (rrStep 2) 6 _ _ (by decide) h4).trans
          ((runLoop_unroll (rrStep 2) 5 _ _ (by decide) h5).trans
            (runLoop_done (rrStep 2) 5 _ rfl rfl)))))

theorem tieBlocked_reach : Reach fcfsStep (initState tieInput) tieBlocked := by
  have h1 : fcfsStep (initState tieInput) = some
      ⟨[[⟨1, 1, bt.CPU⟩, ⟨1, 2, bt.IO_⟩, ⟨1, 2, bt.CPU⟩]], [[⟨0, 3, bt.IO_⟩, ⟨0, 2, bt.CPU⟩]],
        [0, 0], [1, 0], 1, [], [⟨0, 1, 0, 1, ENTER_IO⟩]⟩ := by
    decide
  have h2 : fcfsStep
      ⟨[[⟨1, 1, bt.CPU⟩, ⟨1, 2, bt.IO_⟩, ⟨1, 2, bt.CPU⟩]], [[⟨0, 3, bt.IO_⟩, ⟨0, 2, bt.CPU⟩]],
        [0, 0], [1, 0], 1, [], [⟨0, 1, 0, 1, ENTER_IO⟩]⟩ = some tieBlocked := by
    decide
  exact Reach.next (Reach.next Reach.init (by decide) h1) (by decide) h2

theorem tieBlocked_step : fcfsStep tieBlocked = some tieLeftover := by
  decide

/-- A dispatch in the exact computation, from a state satisfying the invariant
whose front ready entry is `b :: bs`: what it does to the time, to the CPU
counter, to the entry and to the trace. -/
theorem dispatch_exact (processes : List (List Burst)) (quantum : Int) (s : SimState)
    (b : Burst) (bs : List Burst) (rest : List (List Burst))
    (hinv : Inv processes s) (hq : 0 < quantum) (hR : s.readyQ = (b :: bs) :: rest) :
    b.burst_type = bt.CPU ∧ 0 < b.duration ∧
    ∃ t, rrStepExact quantum s = some t ∧
      t.total_time = s.total_time + min quantum b.duration ∧
      t.cpuExecutedTimes.getD b.id 0
        = s.cpuExecutedTimes.getD b.id 0 + min quantum b.duration ∧
      (quantum < b.duration →
        t.readyQ.getLast? = some ({ b with duration := b.duration - quantum } :: bs)) ∧
      (b.duration ≤ quantum →
        ∃ k, t.readyQ = rest ++ ((s.blockedQ.map (decHead b.duration)).take k).map List.tail) ∧
      (b.duration ≤ quantum → bs ≠ [] → bs ∈ t.blockedQ) ∧
      (b.duration ≤ quantum → bs = [] → ∃ r, t.finished = s.finished ++ [r] ∧ r.id = b.id) ∧
      ∃ ev, t.trace = s.trace ++ [ev] ∧ ev.procID = b.id ∧
        ev.stopReason = (if quantum < b.duration then QUANTUM_EXPIRED
          else if bs = [] then COMPLETED else ENTER_IO) := by
  have hne : s.readyQ ≠ [] ∨ s.blockedQ ≠ [] := Or.inl (by rw [hR]; exact List.cons_ne_nil _ _)
  obtain ⟨hty, hd, -⟩ := hinv.dispatch_pre hR
  obtain ⟨t, ht, -⟩ := rrStep_inv processes quantum s hinv (fun _ => hq) hne
  obtain ⟨h1, h2, ev, h3, h4, -, -, -, h5⟩ := rrStep_dispatch hR ht
  refine ⟨hty, hd, t, ht, h1, h2, ?_, ?_, ?_, ?_, ev, h3, h4, h5⟩
  · intro hlt
    obtain ⟨k, io1, -, -, hst⟩ := rrStep_expired processes quantum s b bs rest hinv hR hlt
    rw [ht] at hst
    simp only [Option.some.injEq] at hst
    subst hst
    simp
  · intro hle
    by_cases hbs : bs = []
    · subst hbs
      obtain ⟨k, io1, -, -, hst⟩ := rrStep_completed processes quantum s b rest hinv hR hle
      rw [ht] at hst
      simp only [Option.some.injEq] at hst
      subst hst
      exact ⟨k, rfl⟩
    · obtain ⟨k, io1, -, -, hst⟩ := rrStep_enter_io processes quantum s b bs rest hinv hR hle hbs
      rw [ht] at hst
      simp only [Option.some.injEq] at hst
      subst hst
      exact ⟨k, rfl⟩
  · intro hle hbs
    obtain ⟨k, io1, -, -, hst⟩ := rrStep_enter_io processes quantum s b bs rest hinv hR hle hbs
    rw [ht] at hst
    simp only [Option.some.injEq] at hst
    subst hst
    exact (sortQ_perm _).mem_iff.2 (by simp)
  · intro hle hbs
    subst hbs
    obtain ⟨k, io1, -, -, hst⟩ := rrStep_completed processes quantum s b rest hinv hR hle
    rw [ht] at hst
    simp only [Option.some.injEq] at hst
    subst hst
    exact ⟨_, rfl, rfl⟩

/-- The loop of the program on a valid input ends in the 32-bit image of the
state in which the exact computation ends, and the reporting loop then reads
the records of that state. -/
theorem loop_wrap_of (processes : List (List Burst)) (quantum : Int)
    (hv : validInput processes = true) (hq : 0 < quantum)
    (step stepE : SimState → Option SimState)
    (hE : stepE = fcfsStepExact ∨ stepE = rrStepExact quantum)
    (hsim : ∀ s, step (wrapState s) = (stepE s).map wrapState) :
    ∃ sfE : SimState,
      Reach stepE (initState processes) sfE ∧ Inv processes sfE ∧
      sfE.readyQ = [] ∧ sfE.blockedQ = [] ∧ sfE.finished.length = processes.length ∧
      runLoop step (loopFuel processes) (initState processes) = some (wrapState sfE) ∧
      (runLoop step (loopFuel processes) (initState processes)).bind (report processes.length)
        = some { trace := (wrapState sfE).trace, completions := (wrapState sfE).finished } := by
  obtain ⟨sfE, hrun, hreach, hinv, hr, hb⟩ := loop_spec processes quantum hv hq stepE hE
  have hlen : sfE.finished.length = processes.length := by
    simpa using (hinv.finished_perm hr hb).length_eq
  have hrunW : runLoop step (loopFuel processes) (initState processes)
      = some (wrapState sfE) := by
    rw [runLoop_wrap_init processes step stepE hsim, hrun]
    rfl
  refine ⟨sfE, hreach, hinv, hr, hb, hlen, hrunW, ?_⟩
  rw [hrunW]
  have hlenW : (wrapState sfE).finished.length = processes.length := by
    rw [wrapState_finished_length, hlen]
  simp only [Option.some_bind, report, hlenW, le_refl, if_true]
  rw [← hlenW, List.take_length]

theorem loop_wrap (processes : List (List Burst)) (quantum : Int)
    (hv : validInput processes = true) (hq : 0 < quantum)
    (step : SimState → Option SimState) (hstep : step = fcfsStep ∨ step = rrStep quantum) :
    ∃ (stepE : SimState → Option SimState) (sfE : SimState),
      (stepE = fcfsStepExact ∨ stepE = rrStepExact quantum) ∧
      (∀ s, step (wrapState s) = (stepE s).map wrapState) ∧
      Reach stepE (initState processes) sfE ∧ Inv processes sfE ∧
      sfE.readyQ = [] ∧ sfE.blockedQ = [] ∧ sfE.finished.length = processes.length ∧
      runLoop step (loopFuel processes) (initState processes) = some (wrapState sfE) ∧
      (runLoop step (loopFuel processes) (initState processes)).bind (report processes.length)
        = some { trace := (wrapState sfE).trace, completions := (wrapState sfE).finished } := by
  obtain ⟨stepE, hE, hsim⟩ := step_exact quantum step hstep
  obtain ⟨sfE, h⟩ := loop_wrap_of processes quantum hv hq step stepE hE hsim
  exact ⟨stepE, sfE, hE, hsim, h⟩

theorem record_of_wrap {sE tE : SimState} {r : completionLog}
    (h : (wrapState tE).finished = (wrapState sE).finished ++ [r])
    (hshape : tE.finished = sE.finished ∨ ∃ rE, tE.finished = sE.finished ++ [rE]) :
    ∃ rE, tE.finished = sE.finished ++ [rE] ∧ r = wrapRecord rE := by
  rcases hshape with hf | ⟨rE, hf⟩
  · rw [wrapState_finished, wrapState_finished, hf] at h
    have := congrArg List.length h
    simp at this
  · refine ⟨rE, hf, ?_⟩
    rw [wrapState_finished, wrapState_finished, hf, List.map_append] at h
    have h1 := List.append_cancel_left h
    simp only [List.map_cons, List.map_nil, List.cons.injEq, and_true] at h1
    exact h1.symm

theorem finished_shape_exact (processes : List (List Burst)) (quantum : Int) (hq : 0 < quantum)
    (step : SimState → Option SimState)
    (hstep : step = fcfsStepExact ∨ step = rrStepExact quantum)
    (s t : SimState) (hinv : Inv processes s) (h : step s = some t) :
    t.finished = s.finished ∨ ∃ rE, t.finished = s.finished ++ [rE] := by
  rcases (step_counters processes quantum hq step hstep s t hinv h).2 with hf | ⟨id, hf⟩
  · exact Or.inl hf
  · exact Or.inr ⟨_, hf⟩

theorem wrap32_durOf (processes : List (List Burst)) (hv : validInput processes = true)
    (p : Nat) (k : bt)
    (hfit : ((processes.getD p []).map fun (b : Burst) => b.duration).sum ≤ INT_MAX) :
    wrap32 (durOf k (processes.getD p [])) = durOf k (processes.getD p []) := by
  have h1 := durOf_getD_nonneg processes hv bt.CPU p
  have h2 := durOf_getD_nonneg processes hv bt.IO_ p
  have h3 := durOf_add (processes.getD p [])
  have hmin : INT_MIN ≤ 0 := by decide
  cases k with
  | CPU => exact wrap32_of_range (by omega) (by omega)
  | IO_ => exact wrap32_of_range (by omega) (by omega)

theorem overflowOneReady_reach : Reach fcfsStep (initState overflowOne) overflowOneReady := by
  have h1 : fcfsStep (initState overflowOne) = some
      ⟨[], [[⟨0, 1, bt.IO_⟩, ⟨0, 2000000000, bt.CPU⟩]], [0], [2000000000], 2000000000, [],
        [⟨0, 2000000000, 0, 2000000000, ENTER_IO⟩]⟩ := by
    decide
  have h2 : fcfsStep
      ⟨[], [[⟨0, 1, bt.IO_⟩, ⟨0, 2000000000, bt.CPU⟩]], [0], [2000000000], 2000000000, [],
        [⟨0, 2000000000, 0, 2000000000, ENTER_IO⟩]⟩ = some overflowOneReady := by
    decide
  exact Reach.next (Reach.next Reach.init (by decide) h1) (by decide) h2

theorem overflowOneReady_step : fcfsStep overflowOneReady = some
    ⟨[], [], [1], [-294967296], -294967295, [⟨0, -294967295, 0⟩],
      [⟨0, 2000000000, 0, 2000000000, ENTER_IO⟩, ⟨0, -294967296, 1, -294967295, COMPLETED⟩]⟩ := by
  decide

theorem overflowTwoNext_step : fcfsStep (initState overflowTwo) = some overflowTwoNext := by
  decide

theorem overflowTwoFinal_step : fcfsStep overflowTwoNext = some overflowTwoFinal := by
  decide

theorem fcfs_loop_overflowTwo : fcfs_loop overflowTwo = some overflowTwoFinal := by
  have hfuel : loopFuel overflowTwo = 3999999998 + 1 + 1 := by decide
  unfold fcfs_loop
  rw [hfuel]
  exact (runLoop_unroll fcfsStep _ _ _ (by decide) overflowTwoNext_step).trans
    ((runLoop_unroll fcfsStep _ _ _ (by decide) overflowTwoFinal_step).trans
      (runLoop_done fcfsStep _ _ rfl rfl))

theorem parse_line_intTokens (i : Nat) : ∀ (vals : List Int) (j : Nat),
    parse_line i j vals = parse_line i j (intTokens vals) := by
  intro vals
  induction vals with
  | nil => intro j; rfl
  | cons v vs ih =>
    intro j
    by_cases hr : v < INT_MIN ∨ INT_MAX < v
    · have hnot : ¬ (INT_MIN ≤ v ∧ v ≤ INT_MAX) := by omega
      simp [parse_line, intTokens, hr, hnot]
    · have hin : INT_MIN ≤ v ∧ v ≤ INT_MAX := by omega
      have ht : intTokens (v :: vs) = v :: intTokens vs := by
        simp [intTokens, hin]
      rw [ht]
      simp only [parse_line, hr, if_false, ih (j + 1)]

theorem intTokens_eq_self (vals : List Int) (h : ∀ v ∈ vals, INT_MIN ≤ v ∧ v ≤ INT_MAX) :
    intTokens vals = vals := by
  unfold intTokens
  rw [List.takeWhile_eq_self_iff]
  intro v hv
  simpa using h v hv

theorem parse_line_some (i : Nat) : ∀ (vals : List Int) (j : Nat),
    (∀ v ∈ vals, 0 < v ∧ v ≤ INT_MAX) →
    parse_line i j vals = some (mkProcess i j vals) := by
  intro vals
  induction vals with
  | nil => intro j _; rfl
  | cons v vs ih =>
    intro j h
    have h0 := h v (List.mem_cons_self _ _)
    have hmin : INT_MIN ≤ 0 := by decide
    have hr : ¬ (v < INT_MIN ∨ INT_MAX < v) := by omega
    have hv : ¬ v ≤ 0 := by omega
    simp only [parse_line, hr, hv, if_false,
      ih (j + 1) (fun x hx => h x (List.mem_cons_of_mem _ hx)), Option.map_some', mkProcess]

theorem parse_line_none (i : Nat) : ∀ (vals : List Int) (j : Nat),
    (∀ v ∈ vals, INT_MIN ≤ v ∧ v ≤ INT_MAX) → (∃ v ∈ vals, v ≤ 0) →
    parse_line i j vals = none := by
  intro vals
  induction vals with
  | nil => intro j _ h; obtain ⟨v, hv, -⟩ := h; exact absurd hv (List.not_mem_nil v)
  | cons v vs ih =>
    intro j hin h
    have h0 := hin v (List.mem_cons_self _ _)
    have hr : ¬ (v < INT_MIN ∨ INT_MAX < v) := by omega
    by_cases hv : v ≤ 0
    · simp [parse_line, hr, hv]
    · obtain ⟨x, hx, hx0⟩ := h
      rcases List.mem_cons.1 hx with rfl | hx
      · exact absurd hx0 hv
      · simp [parse_line, hr, hv,
          ih (j + 1) (fun y hy => hin y (List.mem_cons_of_mem _ hy)) ⟨x, hx, hx0⟩]

theorem parse_lines_some : ∀ (lines : List (List Int)) (i : Nat),
    (∀ line ∈ lines, (∀ v ∈ line, 0 < v ∧ v ≤ INT_MAX) ∧ line.length % 2 = 1) →
    parse_lines i lines = some (mkProcesses i lines) := by
  intro lines
  induction lines with
  | nil => intro i _; rfl
  | cons l ls ih =>
    intro i h
    have hl := h l (List.mem_cons_self _ _)
    have hodd : ¬ (mkProcess i 0 l).length % 2 = 0 := by
      rw [mkProcess_length]; omega
    simp only [parse_lines, parse_line_some i l 0 hl.1, Option.some_bind, hodd, if_false,
      ih (i + 1) (fun x hx => h x (List.mem_cons_of_mem _ hx)), Option.map_some', mkProcesses]

theorem parse_lines_none : ∀ (lines : List (List Int)) (i : Nat),
    (∀ line ∈ lines, ∀ v ∈ line, INT_MIN ≤ v ∧ v ≤ INT_MAX) →
    (∃ line ∈ lines, (∃ v ∈ line, v ≤ 0) ∨ line.length % 2 = 0) →
    parse_lines i lines = none := by
  intro lines
  induction lines with
  | nil => intro i _ h; obtain ⟨l, hl, -⟩ := h; exact absurd hl (List.not_mem_nil l)
  | cons l ls ih =>
    intro i hin h
    have hinl := hin l (List.mem_cons_self _ _)
    by_cases hneg : ∃ v ∈ l, v ≤ 0
    · simp [parse_lines, parse_line_none i l 0 hinl hneg]
    · have hpos : ∀ v ∈ l, 0 < v ∧ v ≤ INT_MAX := by
        intro v hv
        refine ⟨?_, (hinl v hv).2⟩
        by_contra hcon
        exact hneg ⟨v, hv, by omega⟩
      by_cases heven : l.length % 2 = 0
      · simp [parse_lines, parse_line_some i l 0 hpos, mkProcess_length, heven]
      · have hrest : ∃ line ∈ ls, (∃ v ∈ line, v ≤ 0) ∨ line.length % 2 = 0 := by
          obtain ⟨x, hx, hx0⟩ := h
          rcases List.mem_cons.1 hx with rfl | hx
          · rcases hx0 with hx0 | hx0
            · exact absurd hx0 hneg
            · exact absurd hx0 heven
          · exact ⟨x, hx, hx0⟩
        simp [parse_lines, parse_line_some i l 0 hpos, mkProcess_length, heven,
          ih (i + 1) (fun x hx => hin x (List.mem_cons_of_mem _ hx)) hrest]

theorem parse_lines_intTokens : ∀ (lines : List (List Int)) (i : Nat),
    parse_lines i lines = parse_lines i (lines.map intTokens) := by
  intro lines
  induction lines with
  | nil => intro i; rfl
  | cons l ls ih =>
    intro i
    simp only [parse_lines, List.map_cons, ← parse_line_intTokens, ih (i + 1)]

/-- On lines that are all of odd length with positive values that fit in an
`int`, and at least one line, `parse_process` returns the processes built burst
by burst. -/
theorem parse_process_some (lines : List (List Int))
    (h : ∀ line ∈ lines, (∀ v ∈ line, 0 < v ∧ v ≤ INT_MAX) ∧ line.length % 2 = 1)
    (hne : lines ≠ []) :
    parse_process lines = some (mkProcesses 0 lines) := by
  have hemp : mkProcesses 0 lines ≠ [] := by
    cases lines with
    | nil => exact absurd rfl hne
    | cons l ls => simp [mkProcesses]
  simp [parse_process, parse_lines_some lines 0 h, hemp]

theorem parse_process_none (lines : List (List Int))
    (hin : ∀ line ∈ lines, ∀ v ∈ line, INT_MIN ≤ v ∧ v ≤ INT_MAX)
    (h : (∃ line ∈ lines, ∃ v ∈ line, v ≤ 0) ∨ (∃ line ∈ lines, line.length % 2 = 0)
      ∨ lines = []) :
    parse_process lines = none := by
  rcases h with ⟨l, hl, hv⟩ | ⟨l, hl, he⟩ | rfl
  · simp [parse_process, parse_lines_none lines 0 hin ⟨l, hl, Or.inl hv⟩]
  · simp [parse_process, parse_lines_none lines 0 hin ⟨l, hl, Or.inr he⟩]
  · rfl

theorem event_of_wrap {sE tE : SimState} {ev : CpuEvent} {evE : CpuEvent}
    (h : (wrapState tE).trace = (wrapState sE).trace ++ [ev])
    (hE : tE.trace = sE.trace ++ [evE]) : ev = wrapEvent evE := by
  rw [wrapState_trace, wrapState_trace, hE, List.map_append] at h
  have h1 := List.append_cancel_left h
  simp only [List.map_cons, List.map_nil, List.cons.injEq, and_true] at h1
  exact h1.symm

theorem fcfs_overflowThree :
    fcfs overflowThree = some
      { trace := overflowThreeFinal.trace, completions := overflowThreeFinal.finished } := by
  have h1 : fcfsStep (initState overflowThree) = some
      ⟨[[⟨1, 2000000000, bt.CPU⟩], [⟨2, 1, bt.CPU⟩]], [], [0, 0, 0], [2000000000, 0, 0],
        2000000000, [⟨0, 2000000000, 0⟩], [⟨0, 2000000000, 0, 2000000000, COMPLETED⟩]⟩ := by
    decide
  have h2 : fcfsStep
      ⟨[[⟨1, 2000000000, bt.CPU⟩], [⟨2, 1, bt.CPU⟩]], [], [0, 0, 0], [2000000000, 0, 0],
        2000000000, [⟨0, 2000000000, 0⟩], [⟨0, 2000000000, 0, 2000000000, COMPLETED⟩]⟩ = some
      ⟨[[⟨2, 1, bt.CPU⟩]], [], [0, 0, 0], [2000000000, 2000000000, 0], -294967296,
        [⟨0, 2000000000, 0⟩, ⟨1, -294967296, 2000000000⟩],
        [⟨0, 2000000000, 0, 2000000000, COMPLETED⟩,
          ⟨1, 2000000000, 0, -294967296, COMPLETED⟩]⟩ := by
    decide
  have h3 : fcfsStep
      ⟨[[⟨2, 1, bt.CPU⟩]], [], [0, 0, 0], [2000000000, 2000000000, 0], -294967296,
        [⟨0, 2000000000, 0⟩, ⟨1, -294967296, 2000000000⟩],
        [⟨0, 2000000000, 0, 2000000000, COMPLETED⟩,
          ⟨1, 2000000000, 0, -294967296, COMPLETED⟩]⟩ = some overflowThreeFinal := by
    decide
  have hfuel : loopFuel overflowThree = 3999999998 + 1 + 1 + 1 := by decide
  have hloop : fcfs_loop overflowThree = some overflowThreeFinal := by
    unfold fcfs_loop
    rw [hfuel]
    exact (runLoop_unroll fcfsStep _ _ _ (by decide) h1).trans
      ((runLoop_unroll fcfsStep _ _ _ (by decide) h2).trans
        ((runLoop_unroll fcfsStep _ _ _ (by decide) h3).trans
          (runLoop_done fcfsStep _ _ rfl rfl)))
  unfold fcfs
  rw [hloop]
  decide

theorem take_sum_bounds : ∀ (ds : List Int), (∀ d ∈ ds, 0 < d) → ∀ i : Nat,
    0 ≤ (ds.take i).sum ∧ (ds.take i).sum ≤ ds.sum := by
  intro ds
  induction ds with
  | nil => intro _ i; simp
  | cons d ds ih =>
    intro h i
    have hd := h d (List.mem_cons_self _ _)
    have hrest := ih (fun x hx => h x (List.mem_cons_of_mem _ hx))
    cases i with
    | zero =>
      have := hrest 0
      simp only [List.take_zero, List.sum_nil, List.sum_cons] at this ⊢
      omega
    | succ i =>
      have := hrest i
      simp only [List.take_succ_cons, List.sum_cons]
      omega

theorem getD_sum_bounds : ∀ (ds : List Int), (∀ d ∈ ds, 0 < d) → ∀ i : Nat,
    0 ≤ ds.getD i 0 ∧ ds.getD i 0 ≤ ds.sum := by
  intro ds
  induction ds with
  | nil => intro _ i; simp
  | cons d ds ih =>
    intro h i
    have hd := h d (List.mem_cons_self _ _)
    have hrest := ih (fun x hx => h x (List.mem_cons_of_mem _ hx))
    have hs := (take_sum_bounds ds (fun x hx => h x (List.mem_cons_of_mem _ hx)) 0).2
    simp only [List.take_zero, List.sum_nil] at hs
    cases i with
    | zero =>
      simp only [List.getD_cons_zero, List.sum_cons]
      omega
    | succ i =>
      have := hrest i
      simp only [List.getD_cons_succ, List.sum_cons]
      omega

/-! ## The claims -/

/-- C1, as stated, fails: on the single process `2000000000 1 2000000000`, a valid
input, the iteration of `fcfs` that writes the completion record of process 0
leaves `cpuExecutedTimes[0] = -294967296` and `ioExecutedTimes[0] = 1`, which add
up to `-294967295`, while the bursts of the process add up to `4000000001` and
its CPU bursts to `4000000000`. -/
theorem conservation_fails_on_overflow :
    validInput overflowOne = true ∧
    ∃ s t r, Reach fcfsStep (initState overflowOne) s ∧ (s.readyQ ≠ [] ∨ s.blockedQ ≠ []) ∧
      fcfsStep s = some t ∧ t.finished = s.finished ++ [r] ∧ r.id = 0 ∧
      t.cpuExecutedTimes.getD r.id 0 = -294967296 ∧ t.ioExecutedTimes.getD r.id 0 = 1 ∧
      t.cpuExecutedTimes.getD r.id 0 + t.ioExecutedTimes.getD r.id 0 = -294967295 ∧
      ((overflowOne.getD r.id []).map fun (b : Burst) => b.duration).sum = 4000000001 ∧
      durOf bt.CPU (overflowOne.getD r.id []) = 4000000000 :=
  ⟨by decide, overflowOneReady, _, ⟨0, -294967295, 0⟩, overflowOneReady_reach, by decide,
    overflowOneReady_step, by decide, rfl, by decide, by decide, by decide, by decide, by decide⟩

/-- C1 (amended). On a valid input, for `fcfs` and for `round_robin` with a
positive quantum: in every iteration of the loop that writes a completion
record, the counters `cpuExecutedTimes` and `ioExecutedTimes` of the recorded
process hold the sum of its original CPU bursts and the sum of its original IO
bursts, each reduced to 32 bits; when the bursts of the process add up to at
most `INT_MAX` the counters hold these sums themselves, and together the sum of
all its original bursts. The loop ends with a record for every process, and
with these counters for every process whose bursts add up to at most
`INT_MAX`. -/
theorem conservation_at_completion (processes : List (List Burst)) (quantum : Int)
    (hv : validInput processes = true) (hq : 0 < quantum)
    (step : SimState → Option SimState) (hstep : step = fcfsStep ∨ step = rrStep quantum) :
    (∀ s t r, Reach step (initState processes) s → (s.readyQ ≠ [] ∨ s.blockedQ ≠ []) →
      step s = some t → t.finished = s.finished ++ [r] →
        t.cpuExecutedTimes.getD r.id 0 = wrap32 (durOf bt.CPU (processes.getD r.id [])) ∧
        t.ioExecutedTimes.getD r.id 0 = wrap32 (durOf bt.IO_ (processes.getD r.id [])) ∧
        (((processes.getD r.id []).map fun (b : Burst) => b.duration).sum ≤ INT_MAX →
          t.cpuExecutedTimes.getD r.id 0 = durOf bt.CPU (processes.getD r.id []) ∧
          t.ioExecutedTimes.getD r.id 0 = durOf bt.IO_ (processes.getD r.id []) ∧
          t.cpuExecutedTimes.getD r.id 0 + t.ioExecutedTimes.getD r.id 0
            = ((processes.getD r.id []).map fun (b : Burst) => b.duration).sum)) ∧
    ∃ sf, runLoop step (loopFuel processes) (initState processes) = some sf ∧
      ∀ p, p < processes.length → (∃ r ∈ sf.finished, r.id = p) ∧
        (((processes.getD p []).map fun (b : Burst) => b.duration).sum ≤ INT_MAX →
          sf.cpuExecutedTimes.getD p 0 = durOf bt.CPU (processes.getD p []) ∧
          sf.ioExecutedTimes.getD p 0 = durOf bt.IO_ (processes.getD p []) ∧
          sf.cpuExecutedTimes.getD p 0 + sf.ioExecutedTimes.getD p 0
            = ((processes.getD p []).map fun (b : Burst) => b.duration).sum) := by
  obtain ⟨stepE, sfE, hE, hsim, hreach, hinvf, hr, hb, hlen, hrun, -⟩ :=
    loop_wrap processes quantum hv hq step hstep
  constructor
  · intro s t r hs hne hst hfin
    obtain ⟨sE, hsE, rfl⟩ := reach_exact_init processes step stepE hsim s hs
    obtain ⟨tE, htE, rfl⟩ := step_wrap_some step stepE hsim hst
    have hinv := reachable_inv processes quantum hv hq stepE hE sE hsE
    obtain ⟨rE, hfE, rfl⟩ := record_of_wrap hfin
      (finished_shape_exact processes quantum hq stepE hE sE tE hinv htE)
    obtain ⟨h1, h2, -⟩ := (exact_conservation processes quantum hv hq stepE hE).1
      sE tE rE hsE hne htE hfE
    have hid : (wrapRecord rE).id = rE.id := rfl
    rw [hid, wrapState_cpu, wrapState_io, h1, h2]
    refine ⟨rfl, rfl, ?_⟩
    intro hfit
    rw [wrap32_durOf processes hv rE.id bt.CPU hfit, wrap32_durOf processes hv rE.id bt.IO_ hfit]
    exact ⟨rfl, rfl, durOf_add _⟩
  · refine ⟨wrapState sfE, hrun, ?_⟩
    intro p hp
    have hmem : p ∈ sfE.finished.map fun r => r.id :=
      (hinvf.finished_perm hr hb).mem_iff.2 (List.mem_range.2 hp)
    obtain ⟨r, hrmem, rfl⟩ := List.mem_map.1 hmem
    refine ⟨⟨wrapRecord r, ?_, rfl⟩, ?_⟩
    · rw [wrapState_finished]
      exact List.mem_map_of_mem _ hrmem
    · intro hfit
      obtain ⟨-, h1, h2⟩ := hinvf.finished_counters hrmem
      rw [wrapState_cpu, wrapState_io, h1, h2, wrap32_durOf processes hv r.id bt.CPU hfit,
        wrap32_durOf processes hv r.id bt.IO_ hfit]
      exact ⟨rfl, rfl, durOf_add _⟩

/-- The amended conservation theorem at the example input, for `fcfs`. -/
theorem conservation_at_completion_witness :
    validInput exampleInput = true ∧ (0 : Int) < 2 ∧
      ∃ sf, runLoop fcfsStep (loopFuel exampleInput) (initState exampleInput) = some sf ∧
        ∀ p, p < exampleInput.length → (∃ r ∈ sf.finished, r.id = p) ∧
          (((exampleInput.getD p []).map fun (b : Burst) => b.duration).sum ≤ INT_MAX →
            sf.cpuExecutedTimes.getD p 0 = durOf bt.CPU (exampleInput.getD p []) ∧
            sf.ioExecutedTimes.getD p 0 = durOf bt.IO_ (exampleInput.getD p []) ∧
            sf.cpuExecutedTimes.getD p 0 + sf.ioExecutedTimes.getD p 0
              = ((exampleInput.getD p []).map fun (b : Burst) => b.duration).sum) :=
  ⟨by decide, by decide,
    (conservation_at_completion exampleInput 2 (by decide) (by decide) fcfsStep
      (Or.inl rfl)).2⟩

/-- C2, as stated, fails: on the two processes `2000000000` and `2000000000`, a
valid input, `fcfs` leaves its loop with the records `(P0, 2000000000, 0)` and
`(P1, -294967296, 2000000000)`, in this order: the completion times do not
increase along the array. -/
theorem finished_records_fails_on_overflow :
    validInput overflowTwo = true ∧
    ∃ sf, fcfs_loop overflowTwo = some sf ∧
      sf.finished = [⟨0, 2000000000, 0⟩, ⟨1, -294967296, 2000000000⟩] ∧
      ¬ sf.finished.Pairwise fun a b => a.completionTime < b.completionTime :=
  ⟨by decide, overflowTwoFinal, fcfs_loop_overflowTwo, rfl, by decide⟩

/-- C2 (amended). On a valid input of `n` processes, `fcfs` and `round_robin`
(positive quantum) leave the loop with exactly `n` completion records, whose ids
are a permutation of `0 .. n-1`; the final reporting loop therefore reads only
written records and reports all of them. When the burst durations of the input
add up to at most `INT_MAX`, the completion times increase strictly along the
array. -/
theorem finished_records (processes : List (List Burst)) (quantum : Int)
    (hv : validInput processes = true) (hq : 0 < quantum) :
    (∃ sf, fcfs_loop processes = some sf ∧ sf.finished.length = processes.length ∧
      (sf.finished.map fun r => r.id).Perm (List.range processes.length) ∧
      (totalDur processes ≤ INT_MAX →
        sf.finished.Pairwise fun a b => a.completionTime < b.completionTime) ∧
      fcfs processes = some { trace := sf.trace, completions := sf.finished }) ∧
    (∃ sf, round_robin_loop quantum processes = some sf ∧
      sf.finished.length = processes.length ∧
      (sf.finished.map fun r => r.id).Perm (List.range processes.length) ∧
      (totalDur processes ≤ INT_MAX →
        sf.finished.Pairwise fun a b => a.completionTime < b.completionTime) ∧
      round_robin quantum processes = some { trace := sf.trace, completions := sf.finished }) := by
  have key : ∀ step, (step = fcfsStep ∨ step = rrStep quantum) →
      ∃ sf, runLoop step (loopFuel processes) (initState processes) = some sf ∧
        sf.finished.length = processes.length ∧
        (sf.finished.map fun r => r.id).Perm (List.range processes.length) ∧
        (totalDur processes ≤ INT_MAX →
          sf.finished.Pairwise fun a b => a.completionTime < b.completionTime) ∧
        (runLoop step (loopFuel processes) (initState processes)).bind
          (report processes.length) = some { trace := sf.trace, completions := sf.finished } := by
    intro step hstep
    obtain ⟨stepE, sfE, hE, hsim, hreach, hinv, hr, hb, hlen, hrun, hrep⟩ :=
      loop_wrap processes quantum hv hq step hstep
    refine ⟨wrapState sfE, hrun, ?_, ?_, ?_, hrep⟩
    · rw [wrapState_finished_length, hlen]
    · rw [wrapState_finished_ids]
      exact hinv.finished_perm hr hb
    · intro hfit
      rw [reach_fits processes quantum hv hq hfit stepE hE sfE hreach]
      exact hinv.fin_sorted
  exact ⟨key fcfsStep (Or.inl rfl), key (rrStep quantum) (Or.inr rfl)⟩

/-- The amended completion-record theorem at the example input, for `fcfs`. -/
theorem finished_records_witness :
    validInput exampleInput = true ∧ (0 : Int) < 2 ∧
      ∃ sf, fcfs_loop exampleInput = some sf ∧ sf.finished.length = exampleInput.length ∧
        (sf.finished.map fun r => r.id).Perm (List.range exampleInput.length) ∧
        (totalDur exampleInput ≤ INT_MAX →
          sf.finished.Pairwise fun a b => a.completionTime < b.completionTime) ∧
        fcfs exampleInput = some { trace := sf.trace, completions := sf.finished } :=
  ⟨by decide, by decide, (finished_records exampleInput 2 (by decide) (by decide)).1⟩

/-- C3, as stated, fails: on the single process `5 3 2` the second trace event of
`fcfs` is not `(P0, 5, 3, 8, completed)` and the completion record is not
`(P0, 8, 0)`. -/
theorem fcfs_example_as_stated_fails :
    fcfs exampleInput ≠ some
      { trace := [⟨0, 5, 0, 5, ENTER_IO⟩, ⟨0, 5, 3, 8, COMPLETED⟩]
        completions := [⟨0, 8, 0⟩] } := by
  unfold fcfs
  rw [fcfs_loop_exampleInput]
  decide

/-- C3 (amended). On the single process `5 3 2` (CPU 5, IO 3, CPU 2), `fcfs`
emits exactly two CPU trace events, `(P0, cpu 5, io 0, time 5, enter io)` then
`(P0, cpu 7, io 3, time 10, completed)`, and then the completion record
`(P0, turnaround time 10, wait time 0)`: the final CPU burst of 2 is executed
and counted. -/
theorem fcfs_example :
    fcfs exampleInput = some
      { trace := [⟨0, 5, 0, 5, ENTER_IO⟩, ⟨0, 7, 3, 10, COMPLETED⟩]
        completions := [⟨0, 10, 0⟩] } := by
  unfold fcfs
  rw [fcfs_loop_exampleInput]
  decide

/-- C4. On the single process `5 3 2` with quantum 2, the first three CPU trace
events of `round_robin` are `(P0, 2, 0, 2, quantum expired)`,
`(P0, 4, 0, 4, quantum expired)`, `(P0, 5, 0, 5, enter io)`. -/
theorem round_robin_example :
    (round_robin 2 exampleInput).map (fun out => out.trace.take 3) = some
      [⟨0, 2, 0, 2, QUANTUM_EXPIRED⟩, ⟨0, 4, 0, 4, QUANTUM_EXPIRED⟩, ⟨0, 5, 0, 5, ENTER_IO⟩] := by
  unfold round_robin
  rw [round_robin_loop_exampleInput]
  decide

/-- C5 (Round-Robin slice). In every state that `round_robin` with a positive
quantum `q` reaches on a valid input and whose ready queue has the front entry
`b :: bs`, the iteration is defined; the head is a CPU burst with a remaining
duration `r > 0`; the iteration consumes `min q r` time units, which is at most
`q`: it adds that amount to `total_time` and to the CPU counter of the process
(32-bit additions), and it leaves the burst with the remaining duration `r - q`
at the back of the ready queue when `r > q`, and otherwise removes the burst,
the process going on with its next burst in the blocked queue or getting its
completion record. When the burst durations of the input add up to at most
`INT_MAX` the two additions do not wrap. The iteration emits one trace event,
whose stop reason is `quantum expired` if and only if `r > q`; when `r = q` the
reason is `enter io` or `completed`. -/
theorem round_robin_slice (processes : List (List Burst)) (quantum : Int)
    (hv : validInput processes = true) (hq : 0 < quantum) (s : SimState)
    (hs : Reach (rrStep quantum) (initState processes) s)
    (b : Burst) (bs : List Burst) (rest : List (List Burst))
    (hR : s.readyQ = (b :: bs) :: rest) :
    b.burst_type = bt.CPU ∧ 0 < b.duration ∧
    ∃ t, rrStep quantum s = some t ∧
      t.total_time = wrap32 (s.total_time + min quantum b.duration) ∧
      min quantum b.duration ≤ quantum ∧
      t.cpuExecutedTimes.getD b.id 0
        = wrap32 (s.cpuExecutedTimes.getD b.id 0 + min quantum b.duration) ∧
      (quantum < b.duration →
        t.readyQ.getLast? = some ({ b with duration := b.duration - quantum } :: bs)) ∧
      (b.duration ≤ quantum → bs ≠ [] → bs ∈ t.blockedQ) ∧
      (b.duration ≤ quantum → bs = [] → ∃ r, t.finished = s.finished ++ [r] ∧ r.id = b.id) ∧
      (totalDur processes ≤ INT_MAX →
        t.total_time - s.total_time = min quantum b.duration ∧
        t.cpuExecutedTimes.getD b.id 0 - s.cpuExecutedTimes.getD b.id 0
          = min quantum b.duration) ∧
      ∃ ev, t.trace = s.trace ++ [ev] ∧ ev.procID = b.id ∧
        (ev.stopReason = QUANTUM_EXPIRED ↔ quantum < b.duration) ∧
        (b.duration = quantum → ev.stopReason = ENTER_IO ∨ ev.stopReason = COMPLETED) := by
  obtain ⟨sE, hsE, rfl⟩ :=
    reach_exact_init processes _ _ (rrStep_wrap quantum) s hs
  have hinv := reachable_inv processes quantum hv hq _ (Or.inr rfl) sE hsE
  have hne : sE.readyQ ≠ [] ∨ sE.blockedQ ≠ [] :=
    Or.inl (by rw [show sE.readyQ = (b :: bs) :: rest from hR]; exact List.cons_ne_nil _ _)
  obtain ⟨hty, hd, tE, htE, h1, h2, h3, -, h5, h6, ev, h7, h8, h9⟩ :=
    dispatch_exact processes quantum sE b bs rest hinv hq hR
  refine ⟨hty, hd, wrapState tE, ?_, ?_, min_le_left _ _, ?_, h3, h5, ?_, ?_,
    wrapEvent ev, ?_, h8, ?_, ?_⟩
  · rw [rrStep_wrap, htE]
    rfl
  · rw [wrapState_time, wrapState_time, h1, wrap32_add_left]
  · rw [wrapState_cpu, wrapState_cpu, h2, wrap32_add_left]
  · intro hle hbs
    obtain ⟨r, hr, hid⟩ := h6 hle hbs
    refine ⟨wrapRecord r, ?_, hid⟩
    rw [wrapState_finished, wrapState_finished, hr, List.map_append]
    rfl
  · intro hfit
    rw [reach_fits processes quantum hv hq hfit _ (Or.inr rfl) sE hsE,
      reach_fits processes quantum hv hq hfit _ (Or.inr rfl) tE (Reach.next hsE hne htE)]
    exact ⟨by omega, by omega⟩
  · rw [wrapState_trace, wrapState_trace, h7, List.map_append]
    rfl
  · show ev.stopReason = QUANTUM_EXPIRED ↔ _
    rw [h9]
    by_cases hlt : quantum < b.duration
    · simp [hlt]
    · simp only [hlt, if_false, iff_false]
      split_ifs <;> simp
  · intro heq
    show ev.stopReason = ENTER_IO ∨ ev.stopReason = COMPLETED
    rw [h9, if_neg (by omega)]
    split_ifs
    · exact Or.inr rfl
    · exact Or.inl rfl

/-- The slice theorem at the first dispatch of the example input, quantum 2. -/
theorem round_robin_slice_witness :
    validInput exampleInput = true ∧ (0 : Int) < 2 ∧
      ∃ t, rrStep 2 (initState exampleInput) = some t ∧
        t.total_time = wrap32 ((initState exampleInput).total_time + min 2 5) ∧
        min (2 : Int) 5 ≤ 2 :=
  ⟨by decide, by decide,
    let h := (round_robin_slice exampleInput 2 (by decide) (by decide) (initState exampleInput)
      Reach.init ⟨0, 5, bt.CPU⟩ [⟨0, 3, bt.IO_⟩, ⟨0, 2, bt.CPU⟩] [] (by decide)).2.2
    h.elim fun t ht => ⟨t, ht.1, ht.2.1, ht.2.2.1⟩⟩

/-- C6 (queue disjointness). In every state that `fcfs` or `round_robin`
(positive quantum) reaches on a valid input of `n` processes, at an iteration
boundary: the ids of the ready entries, followed by those of the blocked
entries, followed by those of the completion records, are a permutation of
`0 .. n-1`; so every process id occurs exactly once, in exactly one of the
three places. In particular no id is in both queues, and every queue entry is
a non-empty burst list. -/
theorem queue_disjointness (processes : List (List Burst)) (quantum : Int)
    (hv : validInput processes = true) (hq : 0 < quantum)
    (step : SimState → Option SimState) (hstep : step = fcfsStep ∨ step = rrStep quantum)
    (s : SimState) (hs : Reach step (initState processes) s) :
    (s.readyQ.map pid ++ s.blockedQ.map pid ++ s.finished.map fun r => r.id).Perm
        (List.range processes.length) ∧
      (∀ p, p < processes.length →
        (s.readyQ.map pid).count p + (s.blockedQ.map pid).count p
          + (s.finished.map fun r => r.id).count p = 1) ∧
      List.Disjoint (s.readyQ.map pid) (s.blockedQ.map pid) ∧
      (∀ l ∈ s.readyQ ++ s.blockedQ, l ≠ []) := by
  obtain ⟨stepE, hE, hsim⟩ := step_exact quantum step hstep
  obtain ⟨sE, hsE, rfl⟩ := reach_exact_init processes step stepE hsim s hs
  have h := exact_disjointness processes quantum hv hq stepE hE sE hsE
  rw [wrapState_readyQ, wrapState_blockedQ, wrapState_finished_ids]
  exact h

/-- The partition theorem at the state after the first `fcfs` iteration on the
example input. -/
theorem queue_disjointness_witness :
    validInput exampleInput = true ∧ (0 : Int) < 2 ∧
      ((⟨[], [[⟨0, 3, bt.IO_⟩, ⟨0, 2, bt.CPU⟩]], [0], [5], 5, [],
          [⟨0, 5, 0, 5, ENTER_IO⟩]⟩ : SimState).readyQ.map pid
        ++ (⟨[], [[⟨0, 3, bt.IO_⟩, ⟨0, 2, bt.CPU⟩]], [0], [5], 5, [],
          [⟨0, 5, 0, 5, ENTER_IO⟩]⟩ : SimState).blockedQ.map pid
        ++ (⟨[], [[⟨0, 3, bt.IO_⟩, ⟨0, 2, bt.CPU⟩]], [0], [5], 5, [],
          [⟨0, 5, 0, 5, ENTER_IO⟩]⟩ : SimState).finished.map fun r => r.id).Perm
        (List.range exampleInput.length) :=
  ⟨by decide, by decide,
    (queue_disjointness exampleInput 2 (by decide) (by decide) fcfsStep (Or.inl rfl)
      ⟨[], [[⟨0, 3, bt.IO_⟩, ⟨0, 2, bt.CPU⟩]], [0], [5], 5, [], [⟨0, 5, 0, 5, ENTER_IO⟩]⟩
      (Reach.next Reach.init (by decide) (by decide))).1⟩

/-- C7, as stated, fails: on the two processes `2000000000` and `2000000000`, a
valid input, the second iteration of `fcfs` consumes the burst of process 1 and
moves `total_time` from `2000000000` to `-294967296`. -/
theorem time_decreases_on_overflow :
    validInput overflowTwo = true ∧
    Reach fcfsStep (initState overflowTwo) overflowTwoNext ∧
    (overflowTwoNext.readyQ ≠ [] ∨ overflowTwoNext.blockedQ ≠ []) ∧
    fcfsStep overflowTwoNext = some overflowTwoFinal ∧
    burstCount overflowTwoFinal < burstCount overflowTwoNext ∧
    overflowTwoNext.total_time = 2000000000 ∧ overflowTwoFinal.total_time = -294967296 ∧
    overflowTwoFinal.total_time < overflowTwoNext.total_time :=
  ⟨by decide, Reach.next Reach.init (by decide) overflowTwoNext_step, by decide,
    overflowTwoFinal_step, by decide, rfl, rfl, by decide⟩

/-- C7 (amended). In every iteration that `fcfs` or `round_robin` (positive
quantum) runs from a state reached on a valid input: in a starvation iteration
(empty ready queue) the head duration of the front blocked entry is positive;
and when the burst durations of the input add up to at most `INT_MAX`,
`total_time` does not decrease, it strictly increases when the iteration
consumes a burst (the number of bursts held in the queues goes down), and in
fact in every iteration, a starvation iteration advancing it by the head
duration of the front blocked entry. -/
theorem time_monotone (processes : List (List Burst)) (quantum : Int)
    (hv : validInput processes = true) (hq : 0 < quantum)
    (step : SimState → Option SimState) (hstep : step = fcfsStep ∨ step = rrStep quantum)
    (s t : SimState) (hs : Reach step (initState processes) s)
    (hne : s.readyQ ≠ [] ∨ s.blockedQ ≠ []) (h : step s = some t) :
    (s.readyQ = [] → 0 < headDur (s.blockedQ.headD [])) ∧
    (totalDur processes ≤ INT_MAX →
      s.total_time ≤ t.total_time ∧
      (burstCount t < burstCount s → s.total_time < t.total_time) ∧
      s.total_time < t.total_time ∧
      (s.readyQ = [] → t.total_time = s.total_time + headDur (s.blockedQ.headD []))) := by
  obtain ⟨stepE, hE, hsim⟩ := step_exact quantum step hstep
  obtain ⟨sE, hsE, rfl⟩ := reach_exact_init processes step stepE hsim s hs
  obtain ⟨tE, htE, rfl⟩ := step_wrap_some step stepE hsim h
  have hex := exact_time processes quantum hv hq stepE hE sE tE hsE hne htE
  refine ⟨fun hR => (hex.2.2.2 hR).1, ?_⟩
  intro hfit
  rw [reach_fits processes quantum hv hq hfit stepE hE sE hsE,
    reach_fits processes quantum hv hq hfit stepE hE tE (Reach.next hsE hne htE)]
  exact ⟨hex.1, hex.2.1, hex.2.2.1, fun hR => (hex.2.2.2 hR).2⟩

/-- The amended time theorem at the starvation iteration of `fcfs` on the
example input. -/
theorem time_monotone_witness :
    validInput exampleInput = true ∧ (0 : Int) < 2 ∧ totalDur exampleInput ≤ INT_MAX ∧
      (5 : Int) < 8 ∧ (0 : Int) < headDur [⟨0, 3, bt.IO_⟩, ⟨0, 2, bt.CPU⟩] :=
  ⟨by decide, by decide, by decide,
    let h := time_monotone exampleInput 2 (by decide) (by decide) fcfsStep (Or.inl rfl)
      ⟨[], [[⟨0, 3, bt.IO_⟩, ⟨0, 2, bt.CPU⟩]], [0], [5], 5, [], [⟨0, 5, 0, 5, ENTER_IO⟩]⟩
      ⟨[[⟨0, 2, bt.CPU⟩]], [], [3], [5], 8, [], [⟨0, 5, 0, 5, ENTER_IO⟩]⟩
      (Reach.next Reach.init (by decide) (by decide)) (by decide) (by decide)
    ⟨(h.2 (by decide)).2.2.1, h.1 rfl⟩⟩

/-- C8 (termination). On a valid input and for a positive quantum, the loops of
`fcfs` and `round_robin` terminate, with the ready queue and the blocked queue
both empty: the fuel `loopFuel` suffices, and any larger amount of fuel gives
the same final state. -/
theorem loops_terminate (processes : List (List Burst)) (quantum : Int)
    (hv : validInput processes = true) (hq : 0 < quantum) :
    (∃ sf, fcfs_loop processes = some sf ∧ sf.readyQ = [] ∧ sf.blockedQ = [] ∧
      ∀ fuel, loopFuel processes ≤ fuel →
        runLoop fcfsStep fuel (initState processes) = some sf) ∧
    (∃ sf, round_robin_loop quantum processes = some sf ∧ sf.readyQ = [] ∧
      sf.blockedQ = [] ∧
      ∀ fuel, loopFuel processes ≤ fuel →
        runLoop (rrStep quantum) fuel (initState processes) = some sf) := by
  have key : ∀ step, (step = fcfsStep ∨ step = rrStep quantum) →
      ∃ sf, runLoop step (loopFuel processes) (initState processes) = some sf ∧
        sf.readyQ = [] ∧ sf.blockedQ = [] ∧
        ∀ fuel, loopFuel processes ≤ fuel →
          runLoop step fuel (initState processes) = some sf := by
    intro step hstep
    obtain ⟨stepE, sfE, -, -, -, -, hr, hb, -, hrun, -⟩ :=
      loop_wrap processes quantum hv hq step hstep
    refine ⟨wrapState sfE, hrun, hr, hb, ?_⟩
    intro fuel hfuel
    obtain ⟨k, rfl⟩ : ∃ k, fuel = loopFuel processes + k := ⟨fuel - loopFuel processes, by omega⟩
    exact runLoop_mono step _ _ _ hrun k
  exact ⟨key fcfsStep (Or.inl rfl), key (rrStep quantum) (Or.inr rfl)⟩

/-- The termination theorem at the example input, for `round_robin` with quantum 2. -/
theorem loops_terminate_witness :
    validInput exampleInput = true ∧ (0 : Int) < 2 ∧
      ∃ sf, round_robin_loop 2 exampleInput = some sf ∧ sf.readyQ = [] ∧ sf.blockedQ = [] ∧
        ∀ fuel, loopFuel exampleInput ≤ fuel →
          runLoop (rrStep 2) fuel (initState exampleInput) = some sf :=
  ⟨by decide, by decide, (loops_terminate exampleInput 2 (by decide) (by decide)).2⟩

/-- C9 (the simulation cannot fail). In every state that `fcfs` or
`round_robin` (positive quantum) reaches on a valid input, at an iteration
boundary: every ready entry is a non-empty burst list whose head is a CPU burst
with a positive remaining duration, every blocked entry is a non-empty burst
list whose head is an IO burst, and, while a queue is non-empty, the next
iteration is defined: no `front()` is taken on an empty container and no array
is indexed out of range. -/
theorem simulation_cannot_fail (processes : List (List Burst)) (quantum : Int)
    (hv : validInput processes = true) (hq : 0 < quantum)
    (step : SimState → Option SimState) (hstep : step = fcfsStep ∨ step = rrStep quantum)
    (s : SimState) (hs : Reach step (initState processes) s) :
    (∀ l ∈ s.readyQ, ∃ b bs, l = b :: bs ∧ b.burst_type = bt.CPU ∧ 0 < b.duration) ∧
      (∀ l ∈ s.blockedQ, ∃ b bs, l = b :: bs ∧ b.burst_type = bt.IO_) ∧
      ((s.readyQ ≠ [] ∨ s.blockedQ ≠ []) → ∃ t, step s = some t) := by
  obtain ⟨stepE, hE, hsim⟩ := step_exact quantum step hstep
  obtain ⟨sE, hsE, rfl⟩ := reach_exact_init processes step stepE hsim s hs
  obtain ⟨h1, h2, h3⟩ := exact_safety processes quantum hv hq stepE hE sE hsE
  refine ⟨h1, h2, ?_⟩
  intro hne
  obtain ⟨tE, htE⟩ := h3 hne
  refine ⟨wrapState tE, ?_⟩
  rw [hsim, htE]
  rfl

/-- The safety theorem at the state after the first `round_robin` iteration on
the example input, quantum 2. -/
theorem simulation_cannot_fail_witness :
    validInput exampleInput = true ∧ (0 : Int) < 2 ∧
      ∃ t, rrStep 2
        ⟨[[⟨0, 3, bt.CPU⟩, ⟨0, 3, bt.IO_⟩, ⟨0, 2, bt.CPU⟩]], [], [0], [2], 2, [],
          [⟨0, 2, 0, 2, QUANTUM_EXPIRED⟩]⟩ = some t :=
  ⟨by decide, by decide,
    (simulation_cannot_fail exampleInput 2 (by decide) (by decide) (rrStep 2) (Or.inr rfl)
      ⟨[[⟨0, 3, bt.CPU⟩, ⟨0, 3, bt.IO_⟩, ⟨0, 2, bt.CPU⟩]], [], [0], [2], 2, [],
        [⟨0, 2, 0, 2, QUANTUM_EXPIRED⟩]⟩
      (Reach.next Reach.init (by decide) (by decide))).2.2 (by decide)⟩

/-- C10 (FCFS non-preemption). On a valid input `fcfs` produces its output, and
every CPU trace event in it has stop reason `enter io` or `completed`, never
`quantum expired`; and in every reached state with front ready entry `b :: bs`
the iteration is defined and consumes the entire remaining duration `r` of `b`:
it adds `r` to `total_time` and to the CPU counter of the process (32-bit
additions, which do not wrap when the burst durations of the input add up to at
most `INT_MAX`), it removes the burst `b`, the process going on with its next
burst in the blocked queue or getting its completion record, so that no entry is
put back into the ready queue, and it emits an event whose reason is not
`quantum expired`. -/
theorem fcfs_non_preemption (processes : List (List Burst))
    (hv : validInput processes = true) :
    (∃ out, fcfs processes = some out ∧
      ∀ ev ∈ out.trace, ev.stopReason = ENTER_IO ∨ ev.stopReason = COMPLETED) ∧
    (∀ s b bs rest, Reach fcfsStep (initState processes) s → s.readyQ = (b :: bs) :: rest →
      ∃ t, fcfsStep s = some t ∧
        t.total_time = wrap32 (s.total_time + b.duration) ∧
        t.cpuExecutedTimes.getD b.id 0
          = wrap32 (s.cpuExecutedTimes.getD b.id 0 + b.duration) ∧
        (∃ k, t.readyQ
          = rest ++ ((s.blockedQ.map (decHead b.duration)).take k).map List.tail) ∧
        (bs ≠ [] → bs ∈ t.blockedQ) ∧
        (bs = [] → ∃ r, t.finished = s.finished ++ [r] ∧ r.id = b.id) ∧
        (totalDur processes ≤ INT_MAX →
          t.total_time = s.total_time + b.duration ∧
          t.cpuExecutedTimes.getD b.id 0 = s.cpuExecutedTimes.getD b.id 0 + b.duration) ∧
        ∃ ev, t.trace = s.trace ++ [ev] ∧ ev.procID = b.id ∧
          (ev.stopReason = ENTER_IO ∨ ev.stopReason = COMPLETED)) := by
  have hreason : ∀ r : ExecutionStopReasonType, r ≠ QUANTUM_EXPIRED →
      r = ENTER_IO ∨ r = COMPLETED := by
    intro r hr
    cases r
    · exact Or.inl rfl
    · exact absurd rfl hr
    · exact Or.inr rfl
  constructor
  · obtain ⟨sfE, hreach, -, -, -, -, -, hrep⟩ :=
      loop_wrap_of processes 1 hv (by decide) fcfsStep fcfsStepExact (Or.inl rfl) fcfsStep_wrap
    refine ⟨_, hrep, ?_⟩
    intro ev hev
    obtain ⟨e, he, rfl⟩ := List.mem_map.1 (show ev ∈ sfE.trace.map wrapEvent from hev)
    exact hreason _ (fcfs_reach_trace (initState processes) rfl sfE hreach e he)
  · intro s b bs rest hs hR
    obtain ⟨sE, hsE, rfl⟩ := reach_exact_init processes _ _ fcfsStep_wrap s hs
    have hinv := reachable_inv processes 1 hv (by decide) _ (Or.inl rfl) sE hsE
    have hne : sE.readyQ ≠ [] ∨ sE.blockedQ ≠ [] :=
      Or.inl (by rw [show sE.readyQ = (b :: bs) :: rest from hR]; exact List.cons_ne_nil _ _)
    have hd := (hinv.dispatch_pre hR).2.1
    obtain ⟨-, -, tE, htE, h1, h2, -, h4, h5, h6, ev, h7, h8, h9⟩ :=
      dispatch_exact processes b.duration sE b bs rest hinv hd hR
    have hstepE : fcfsStepExact sE = some tE := by
      rw [fcfsStep_eq_rrStep, show sE.readyQ = (b :: bs) :: rest from hR]
      simpa [headDur] using htE
    rw [min_self] at h1 h2
    refine ⟨wrapState tE, ?_, ?_, ?_, h4 (le_refl _), h5 (le_refl _), ?_, ?_,
      wrapEvent ev, ?_, h8, ?_⟩
    · rw [fcfsStep_wrap, hstepE]
      rfl
    · rw [wrapState_time, wrapState_time, h1, wrap32_add_left]
    · rw [wrapState_cpu, wrapState_cpu, h2, wrap32_add_left]
    · intro hbs
      obtain ⟨r, hr, hid⟩ := h6 (le_refl _) hbs
      refine ⟨wrapRecord r, ?_, hid⟩
      rw [wrapState_finished, wrapState_finished, hr, List.map_append]
      rfl
    · intro hfit
      rw [reach_fits processes 1 hv (by decide) hfit _ (Or.inl rfl) sE hsE,
        reach_fits processes 1 hv (by decide) hfit _ (Or.inl rfl) tE
          (Reach.next hsE hne hstepE)]
      exact ⟨h1, h2⟩
    · rw [wrapState_trace, wrapState_trace, h7, List.map_append]
      rfl
    · show ev.stopReason = ENTER_IO ∨ ev.stopReason = COMPLETED
      apply hreason
      rw [h9, if_neg (lt_irrefl _)]
      split_ifs <;> simp

/-- The non-preemption theorem at the example input. -/
theorem fcfs_non_preemption_witness :
    validInput exampleInput = true ∧
      ∃ out, fcfs exampleInput = some out ∧
        ∀ ev ∈ out.trace, ev.stopReason = ENTER_IO ∨ ev.stopReason = COMPLETED :=
  ⟨by decide, (fcfs_non_preemption exampleInput (by decide)).1⟩

/-- C11, as stated, fails on tokens outside the range of `int`: the line
`5 2147483648 2` has three positive values, yet `parse_process` returns for it a
process of one burst, not the three bursts of the claim; the line `2147483648`
has one positive value, yet `parse_process` fails; and the line `5 -2147483649`
has an even number of values, one of them negative, yet `parse_process` returns
a process. -/
theorem parse_process_out_of_range :
    parse_process [[5, 2147483648, 2]] = some [[⟨0, 5, bt.CPU⟩]] ∧
    parse_process [[5, 2147483648, 2]] ≠ some (mkProcesses 0 [[5, 2147483648, 2]]) ∧
    parse_process [[2147483648]] = none ∧
    parse_process [[5, -2147483649]] = some [[⟨0, 5, bt.CPU⟩]] :=
  ⟨by decide, by decide, by decide, by decide⟩

/-- C11 (amended). On the lines of a file, each given as its sequence of integer
tokens: a token outside `INT_MIN .. INT_MAX` ends the reading of its line, so
that `parse_process` treats every line as its tokens before the first such
token. On lines whose tokens all lie in `INT_MIN .. INT_MAX`: `parse_process`
fails exactly when some value is `≤ 0`, or some line has an even number of
values (a line with none included), or there is no line; when it returns, it
returns one process per line, in line order; the process of line `i` has as many
bursts as the line has values, and its `j`-th burst has id `i`, the `j`-th value
as duration, and type CPU when `j` is even, IO when `j` is odd; the returned
list is a valid input of the schedulers. -/
theorem parse_process_contract (lines : List (List Int)) :
    parse_process lines = parse_process (lines.map intTokens) ∧
    ((∀ line ∈ lines, ∀ v ∈ line, INT_MIN ≤ v ∧ v ≤ INT_MAX) →
    (parse_process lines = none ↔
      (∃ line ∈ lines, ∃ v ∈ line, v ≤ 0) ∨ (∃ line ∈ lines, line.length % 2 = 0)
        ∨ lines = []) ∧
    (∀ processes, parse_process lines = some processes →
      processes.length = lines.length ∧
      (∀ i : Nat, processes[i]?.map List.length = lines[i]?.map List.length) ∧
      (∀ (i j : Nat) (v : Int), (lines[i]?.bind fun ln => ln[j]?) = some v →
        (processes[i]?.bind fun p => p[j]?) = some
          ({ id := i, duration := v, burst_type := if j % 2 = 0 then bt.CPU else bt.IO_ }
            : Burst)) ∧
      validInput processes = true)) := by
  refine ⟨by unfold parse_process; rw [parse_lines_intTokens], ?_⟩
  intro hin
  by_cases hbad : (∃ line ∈ lines, ∃ v ∈ line, v ≤ 0) ∨ (∃ line ∈ lines, line.length % 2 = 0)
      ∨ lines = []
  · have hnone := parse_process_none lines hin hbad
    refine ⟨⟨fun _ => hbad, fun _ => hnone⟩, ?_⟩
    intro ps hps
    rw [hnone] at hps
    exact absurd hps (by simp)
  · simp only [not_or, not_exists, not_and] at hbad
    obtain ⟨h1, h2, h3⟩ := hbad
    have hgood0 : ∀ line ∈ lines, (∀ v ∈ line, 0 < v) ∧ line.length % 2 = 1 := by
      intro line hl
      refine ⟨fun v hv => ?_, ?_⟩
      · have := h1 line hl v hv
        omega
      · have := h2 line hl
        omega
    have hgood : ∀ line ∈ lines, (∀ v ∈ line, 0 < v ∧ v ≤ INT_MAX) ∧ line.length % 2 = 1 :=
      fun line hl => ⟨fun v hv => ⟨(hgood0 line hl).1 v hv, (hin line hl v hv).2⟩,
        (hgood0 line hl).2⟩
    have hsome := parse_process_some lines hgood h3
    refine ⟨⟨fun h => ?_, fun h => ?_⟩, ?_⟩
    · rw [hsome] at h
      exact absurd h (by simp)
    · rcases h with ⟨l, hl, v, hv, hv0⟩ | ⟨l, hl, he⟩ | h
      · exact absurd hv0 (h1 l hl v hv)
      · exact absurd he (h2 l hl)
      · exact absurd h h3
    · intro ps hps
      rw [hsome] at hps
      simp only [Option.some.injEq] at hps
      subst hps
      refine ⟨mkProcesses_length lines 0, ?_, ?_, ?_⟩
      · intro i
        rw [mkProcesses_getElem?]
        cases lines[i]? with
        | none => rfl
        | some l => simp [mkProcess_length]
      · intro i j v hv
        rw [mkProcesses_getElem?]
        cases hl : lines[i]? with
        | none => rw [hl] at hv; exact absurd hv (by simp)
        | some l =>
          rw [hl] at hv
          simp only [Option.some_bind] at hv
          simp only [Option.map_some', Option.some_bind, mkProcess_getElem?, hv, Nat.zero_add]
          by_cases hj : j % 2 = 0
          · have : ¬ j % 2 = 1 := by omega
            simp [hj, this]
          · have : j % 2 = 1 := by omega
            simp [hj, this]
      · have hemp : mkProcesses 0 lines ≠ [] := by
          cases lines with
          | nil => exact absurd rfl h3
          | cons l ls => simp [mkProcesses]
        simp [validInput, hemp, validFrom_mkProcesses lines 0 hgood0]

/-- The amended parser contract at the file with the single line `5 3 2`. -/
theorem parse_process_contract_witness :
    parse_process [[5, 3, 2]] = some exampleInput ∧ validInput exampleInput = true :=
  ⟨by decide,
    (((parse_process_contract [[5, 3, 2]]).2 (by decide)).2 exampleInput (by decide)).2.2.2⟩

/-- C12, evaluated on the code: `fcfs` on the processes `1 3 2` and `1 2 2`
reaches, at the iteration boundary after the starvation iteration that ends at
time 4, a state in which process 1 is still in the blocked queue although its
head IO burst has remaining duration zero: the promotion loop stopped after
promoting process 0 only. -/
theorem promotion_leaves_zero_head :
    validInput tieInput = true ∧
    Reach fcfsStep (initState tieInput) tieBlocked ∧
    tieBlocked.readyQ = [] ∧
    starve tieBlocked = some tieLeftover ∧
    Reach fcfsStep (initState tieInput) tieLeftover ∧
    tieLeftover.blockedQ = [[⟨1, 0, bt.IO_⟩, ⟨1, 2, bt.CPU⟩]] ∧
    ∃ l ∈ tieLeftover.blockedQ, headDur l = 0 :=
  ⟨by decide, tieBlocked_reach, rfl, by decide,
    Reach.next tieBlocked_reach (by decide) tieBlocked_step, rfl, by decide⟩

/-- C14 (`sortQ` is a stable sort). For every blocked queue whose entries are
all non-empty burst lists, `sortQ` returns a permutation of the queue, of the
same length, ordered by non-decreasing head-burst duration, in which the entries
of any one head duration `d` stand in the same relative order as before. -/
theorem sortQ_stable (blockedQ : List (List Burst)) (hne : ∀ l ∈ blockedQ, l ≠ []) :
    (sortQ blockedQ).Perm blockedQ ∧
      (sortQ blockedQ).length = blockedQ.length ∧
      ((sortQ blockedQ).Pairwise fun a b => headDur a ≤ headDur b) ∧
      ∀ d : Int, (sortQ blockedQ).filter (fun l => decide (headDur l = d))
        = blockedQ.filter (fun l => decide (headDur l = d)) := by
  refine ⟨sortQ_perm blockedQ, (sortQ_perm blockedQ).length_eq, sortQ_sorted blockedQ hne, ?_⟩
  intro d
  have h := foldl_stableInsert_filter d blockedQ [] hne (by simp) List.Pairwise.nil
  simpa [sortQ] using h

/-- The stability theorem at a queue of three entries, two of which tie. -/
theorem sortQ_stable_witness :
    sortQ [[⟨0, 4, bt.IO_⟩, ⟨0, 1, bt.CPU⟩], [⟨1, 2, bt.IO_⟩, ⟨1, 1, bt.CPU⟩],
        [⟨2, 4, bt.IO_⟩, ⟨2, 1, bt.CPU⟩]]
      = [[⟨1, 2, bt.IO_⟩, ⟨1, 1, bt.CPU⟩], [⟨0, 4, bt.IO_⟩, ⟨0, 1, bt.CPU⟩],
        [⟨2, 4, bt.IO_⟩, ⟨2, 1, bt.CPU⟩]] ∧
    (sortQ [[⟨0, 4, bt.IO_⟩, ⟨0, 1, bt.CPU⟩], [⟨1, 2, bt.IO_⟩, ⟨1, 1, bt.CPU⟩],
        [⟨2, 4, bt.IO_⟩, ⟨2, 1, bt.CPU⟩]]).filter (fun l => decide (headDur l = 4))
      = [[⟨0, 4, bt.IO_⟩, ⟨0, 1, bt.CPU⟩], [⟨1, 2, bt.IO_⟩, ⟨1, 1, bt.CPU⟩],
        [⟨2, 4, bt.IO_⟩, ⟨2, 1, bt.CPU⟩]].filter (fun l => decide (headDur l = 4)) :=
  ⟨by decide,
    (sortQ_stable [[⟨0, 4, bt.IO_⟩, ⟨0, 1, bt.CPU⟩], [⟨1, 2, bt.IO_⟩, ⟨1, 1, bt.CPU⟩],
      [⟨2, 4, bt.IO_⟩, ⟨2, 1, bt.CPU⟩]] (by decide)).2.2.2 4⟩

/-- C15 (blocked-queue ordering). In every state that `fcfs` or `round_robin`
(positive quantum) reaches on a valid input, at an iteration boundary, the
blocked queue is ordered by non-decreasing remaining duration of the head
bursts; the order survives the equal floored decrement of all heads by any
`e ≥ 0` and the removal of any number of front entries, which is why sorting
on the enter-io transition alone keeps it. -/
theorem blocked_sorted (processes : List (List Burst)) (quantum : Int)
    (hv : validInput processes = true) (hq : 0 < quantum)
    (step : SimState → Option SimState) (hstep : step = fcfsStep ∨ step = rrStep quantum)
    (s : SimState) (hs : Reach step (initState processes) s) :
    (s.blockedQ.Pairwise fun a b => headDur a ≤ headDur b) ∧
      ∀ (e : Int) (k : Nat), 0 ≤ e →
        ((s.blockedQ.map (decHead e)).drop k).Pairwise fun a b => headDur a ≤ headDur b := by
  obtain ⟨stepE, hE, hsim⟩ := step_exact quantum step hstep
  obtain ⟨sE, hsE, rfl⟩ := reach_exact_init processes step stepE hsim s hs
  exact exact_sorted processes quantum hv hq stepE hE sE hsE

/-- The ordering theorem at the state of `fcfs` on the tie input in which both
processes are blocked. -/
theorem blocked_sorted_witness :
    validInput tieInput = true ∧ (0 : Int) < 1 ∧
      tieBlocked.blockedQ.Pairwise fun a b => headDur a ≤ headDur b :=
  ⟨by decide, by decide,
    (blocked_sorted tieInput 1 (by decide) (by decide) fcfsStep (Or.inl rfl)
      tieBlocked tieBlocked_reach).1⟩

/-- C16 (requeue on quantum expiry). In every state that `round_robin` with a
positive quantum reaches on a valid input and whose front ready entry is
`b :: bs`: an iteration whose trace event has stop reason `quantum expired`
leaves the ready queue as the other ready entries in their order, then the
entries promoted from the blocked queue in this iteration, then, last, the
pre-empted entry, whose head CPU burst has its remaining duration reduced by
exactly the quantum and is otherwise unchanged; and such an iteration is the one
that is run whenever the remaining duration exceeds the quantum. -/
theorem requeue_on_quantum_expiry (processes : List (List Burst)) (quantum : Int)
    (hv : validInput processes = true) (hq : 0 < quantum) (s : SimState)
    (hs : Reach (rrStep quantum) (initState processes) s)
    (b : Burst) (bs : List Burst) (rest : List (List Burst))
    (hR : s.readyQ = (b :: bs) :: rest) :
    (∀ t ev, rrStep quantum s = some t → t.trace = s.trace ++ [ev] →
      ev.stopReason = QUANTUM_EXPIRED →
      quantum < b.duration ∧
      ∃ k, t.readyQ = rest ++ ((s.blockedQ.map (decHead quantum)).take k).map List.tail
            ++ [{ b with duration := b.duration - quantum } :: bs] ∧
        t.readyQ.getLast? = some ({ b with duration := b.duration - quantum } :: bs) ∧
        t.blockedQ = (s.blockedQ.map (decHead quantum)).drop k ∧
        ∀ l ∈ (s.blockedQ.map (decHead quantum)).take k, headDur l = 0) ∧
    (quantum < b.duration →
      ∃ t ev, rrStep quantum s = some t ∧ t.trace = s.trace ++ [ev] ∧
        ev.stopReason = QUANTUM_EXPIRED) := by
  obtain ⟨sE, hsE, rfl⟩ :=
    reach_exact_init processes _ _ (rrStep_wrap quantum) s hs
  obtain ⟨hex1, hex2⟩ := exact_requeue processes quantum hv hq sE hsE b bs
    rest hR
  constructor
  · intro t ev ht htr hev
    obtain ⟨tE, htE, rfl⟩ := step_wrap_some _ _ (rrStep_wrap quantum) ht
    obtain ⟨-, -, evE, h3, -⟩ := rrStep_dispatch (show sE.readyQ = (b :: bs) :: rest from hR) htE
    have hEv := event_of_wrap htr h3
    subst hEv
    exact hex1 tE evE htE h3 hev
  · intro hlt
    obtain ⟨tE, evE, htE, htr, hev⟩ := hex2 hlt
    refine ⟨wrapState tE, wrapEvent evE, ?_, ?_, hev⟩
    · rw [rrStep_wrap, htE]
      rfl
    · rw [wrapState_trace, wrapState_trace, htr, List.map_append]
      rfl

/-- The requeue theorem at the first dispatch of the example input, quantum 2. -/
theorem requeue_on_quantum_expiry_witness :
    validInput exampleInput = true ∧ (0 : Int) < 2 ∧
      ∃ t ev, rrStep 2 (initState exampleInput) = some t ∧
        t.trace = (initState exampleInput).trace ++ [ev] ∧ ev.stopReason = QUANTUM_EXPIRED :=
  ⟨by decide, by decide,
    (requeue_on_quantum_expiry exampleInput 2 (by decide) (by decide) (initState exampleInput)
      Reach.init ⟨0, 5, bt.CPU⟩ [⟨0, 3, bt.IO_⟩, ⟨0, 2, bt.CPU⟩] [] (by decide)).2 (by decide)⟩

/-- C17 (FCFS is Round-Robin with a large quantum). On a valid input, with a
quantum that is at least every CPU burst duration of the input, `round_robin`
leaves its loop in the same state as `fcfs` and produces the same output: the
same sequence of CPU trace events and the same ordered list of completion
records; and that output exists. -/
theorem round_robin_large_quantum (processes : List (List Burst)) (quantum : Int)
    (hv : validInput processes = true)
    (hq : ∀ p ∈ processes, ∀ x ∈ p, x.burst_type = bt.CPU → x.duration ≤ quantum) :
    round_robin_loop quantum processes = fcfs_loop processes ∧
      round_robin quantum processes = fcfs processes ∧
      ∃ out, fcfs processes = some out ∧ round_robin quantum processes = some out ∧
        (round_robin quantum processes).map (fun o => o.trace) = some out.trace ∧
        (round_robin quantum processes).map (fun o => o.completions)
          = some out.completions := by
  have hloop : round_robin_loop quantum processes = fcfs_loop processes := by
    unfold round_robin_loop fcfs_loop
    rw [runLoop_wrap_init processes _ _ (rrStep_wrap quantum),
      runLoop_wrap_init processes _ _ fcfsStep_wrap,
      runLoop_rr_eq_fcfs processes quantum _ _ (initState_inv processes hv)
        (by simpa [initState, cpuBounded] using hq)]
  have hout : round_robin quantum processes = fcfs processes := by
    unfold round_robin fcfs
    rw [hloop]
  refine ⟨hloop, hout, ?_⟩
  obtain ⟨sfE, -, -, -, -, -, -, hrep⟩ :=
    loop_wrap_of processes 1 hv (by decide) fcfsStep fcfsStepExact (Or.inl rfl) fcfsStep_wrap
  have hf : fcfs processes
      = some { trace := (wrapState sfE).trace, completions := (wrapState sfE).finished } := hrep
  refine ⟨_, hf, by rw [hout, hf], by rw [hout, hf]; rfl, by rw [hout, hf]; rfl⟩

/-- The large-quantum theorem at the example input with quantum 5. -/
theorem round_robin_large_quantum_witness :
    validInput exampleInput = true ∧
      (∀ p ∈ exampleInput, ∀ x ∈ p, x.burst_type = bt.CPU → x.duration ≤ 5) ∧
      round_robin 5 exampleInput = fcfs exampleInput :=
  ⟨by decide, by decide,
    (round_robin_large_quantum exampleInput 5 (by decide) (by decide)).2.1⟩

/-- C18, as stated, fails: on the three processes `2000000000`, `2000000000` and
`1`, a valid input, `fcfs` reports for process 2 the completion record
`(P2, -294967295, -294967296)`, whose wait time is negative; converted to the
unsigned parameter of `log_process_completion` it becomes `4000000000`. -/
theorem wait_time_negative_on_overflow :
    validInput overflowThree = true ∧
    ∃ out, fcfs overflowThree = some out ∧
      (⟨2, -294967295, -294967296⟩ : completionLog) ∈ out.completions ∧
      ¬ (0 : Int) ≤ (⟨2, -294967295, -294967296⟩ : completionLog).totalWaitTime ∧
      toUnsigned (-294967296) = 4000000000 :=
  ⟨by decide, _, fcfs_overflowThree, by decide, by decide, by decide⟩

/-- C18 (amended). On a valid input whose burst durations add up to at most
`INT_MAX`, for `fcfs` and for `round_robin` with a positive quantum: in every
iteration from a reached state no counter decreases and `cpuExecutedTimes[p] +
ioExecutedTimes[p]` grows by at most the elapsed time, so it never exceeds
`total_time`; a record written in an iteration has `totalWaitTime =
completionTime - cpuExecutedTimes[id] - ioExecutedTimes[id]` with the values at
that moment; and in the output every completion record has a wait time `≥ 0`,
equal to the completion time minus the sums of the original CPU and IO bursts of
its process and at most `INT_MAX`, which the conversion to the unsigned
parameter of `log_process_completion` leaves unchanged, whereas it adds `2^32`
to every negative `int`. -/
theorem wait_time_nonneg (processes : List (List Burst)) (quantum : Int)
    (hv : validInput processes = true) (hq : 0 < quantum)
    (hfit : totalDur processes ≤ INT_MAX)
    (step : SimState → Option SimState) (hstep : step = fcfsStep ∨ step = rrStep quantum) :
    (∀ s t, Reach step (initState processes) s → (s.readyQ ≠ [] ∨ s.blockedQ ≠ []) →
      step s = some t →
      (∀ p, s.cpuExecutedTimes.getD p 0 ≤ t.cpuExecutedTimes.getD p 0 ∧
        s.ioExecutedTimes.getD p 0 ≤ t.ioExecutedTimes.getD p 0 ∧
        t.cpuExecutedTimes.getD p 0 + t.ioExecutedTimes.getD p 0
            - (s.cpuExecutedTimes.getD p 0 + s.ioExecutedTimes.getD p 0)
          ≤ t.total_time - s.total_time ∧
        t.cpuExecutedTimes.getD p 0 + t.ioExecutedTimes.getD p 0 ≤ t.total_time) ∧
      (∀ r, t.finished = s.finished ++ [r] →
        r.completionTime = t.total_time ∧
        r.totalWaitTime = r.completionTime - t.cpuExecutedTimes.getD r.id 0
          - t.ioExecutedTimes.getD r.id 0 ∧
        0 ≤ r.totalWaitTime)) ∧
    ∃ sf, runLoop step (loopFuel processes) (initState processes) = some sf ∧
      (runLoop step (loopFuel processes) (initState processes)).bind
        (report processes.length) = some { trace := sf.trace, completions := sf.finished } ∧
      ∀ r ∈ sf.finished, 0 ≤ r.totalWaitTime ∧
        r.totalWaitTime = r.completionTime - durOf bt.CPU (processes.getD r.id [])
          - durOf bt.IO_ (processes.getD r.id []) ∧
        r.totalWaitTime ≤ INT_MAX ∧
        toUnsigned r.totalWaitTime = r.totalWaitTime ∧
        ∀ x : Int, INT_MIN ≤ x → x < 0 → toUnsigned x = x + 4294967296 := by
  obtain ⟨stepE, hE, hreachE, hstepE, hrunE⟩ :=
    bounded_exact processes quantum hv hq hfit step hstep
  have hex1 := exact_wait processes quantum hv hq stepE hE
  constructor
  · intro s t hs hne hst
    have hsE := hreachE s hs
    rw [hstepE s hsE] at hst
    exact hex1 s t hsE hne hst
  · obtain ⟨sf, hrun, hreach, hinv, hr, hb⟩ := loop_spec processes quantum hv hq stepE hE
    have hlen : sf.finished.length = processes.length := by
      simpa using (hinv.finished_perm hr hb).length_eq
    have hwt := reach_wait processes quantum hv hq stepE hE sf hreach
    refine ⟨sf, by rw [hrunE, hrun], ?_, ?_⟩
    · rw [hrunE, hrun]
      simp [report, hlen]
    · intro r hrm
      have h0 := hwt.2 r hrm
      have h1 := hinv.fin_cons r hrm
      have h2 := hinv.fin_le r hrm
      have h3 := durOf_getD_nonneg processes hv bt.CPU r.id
      have h4 := durOf_getD_nonneg processes hv bt.IO_ r.id
      have h5 := hinv.time_hi
      have h6 := hinv.workLeft_nonneg.1
      unfold workLeft at h6
      have hmax : r.totalWaitTime ≤ INT_MAX := by omega
      refine ⟨h0, by omega, hmax, ?_, ?_⟩
      · unfold toUnsigned
        unfold INT_MAX at hmax
        exact Int.emod_eq_of_lt h0 (by omega)
      · intro x hx0 hx1
        unfold INT_MIN at hx0
        unfold toUnsigned
        norm_num
        omega

/-- The amended wait-time theorem at the tie input, for `fcfs`. -/
theorem wait_time_nonneg_witness :
    validInput tieInput = true ∧ (0 : Int) < 1 ∧ totalDur tieInput ≤ INT_MAX ∧
      ∃ sf, runLoop fcfsStep (loopFuel tieInput) (initState tieInput) = some sf ∧
        (runLoop fcfsStep (loopFuel tieInput) (initState tieInput)).bind
          (report tieInput.length) = some { trace := sf.trace, completions := sf.finished } ∧
        ∀ r ∈ sf.finished, 0 ≤ r.totalWaitTime ∧
          r.totalWaitTime = r.completionTime - durOf bt.CPU (tieInput.getD r.id [])
            - durOf bt.IO_ (tieInput.getD r.id []) ∧
          r.totalWaitTime ≤ INT_MAX ∧
          toUnsigned r.totalWaitTime = r.totalWaitTime ∧
          ∀ x : Int, INT_MIN ≤ x → x < 0 → toUnsigned x = x + 4294967296 :=
  ⟨by decide, by decide, by decide,
    (wait_time_nonneg tieInput 1 (by decide) (by decide) (by decide) fcfsStep (Or.inl rfl)).2⟩

/-- C19 (Round-Robin dispatch count). On a valid input and for a positive
quantum `q`, `round_robin` produces its output, and for every process `p` the
number of CPU trace events of `p` in it is the sum, over the CPU bursts `d` of
the process, of the ceiling of `d / q`; exactly one of these events is
`completed`, exactly as many as the process has IO bursts are `enter io`, and
the number of `quantum expired` ones is the rest. The function `ceilDiv` used in
the sum is the ceiling of the rational quotient. -/
theorem round_robin_dispatch_count (processes : List (List Burst)) (quantum : Int)
    (hv : validInput processes = true) (hq : 0 < quantum) :
    (∀ d : Int, ceilDiv d quantum = ⌈(d : ℚ) / (quantum : ℚ)⌉) ∧
    ∃ out, round_robin quantum processes = some out ∧
      ∀ p, p < processes.length →
        (eventCount (fun _ => true) p out.trace : Int)
          = sliceCount quantum (processes.getD p []) ∧
        eventCount (fun r => decide (r = COMPLETED)) p out.trace = 1 ∧
        eventCount (fun r => decide (r = ENTER_IO)) p out.trace
          = (processes.getD p []).countP (fun b => decide (b.burst_type = bt.IO_)) ∧
        (eventCount (fun r => decide (r = QUANTUM_EXPIRED)) p out.trace : Int)
          = sliceCount quantum (processes.getD p []) - 1
            - ((processes.getD p []).countP (fun b => decide (b.burst_type = bt.IO_)) : Nat) := by
  refine ⟨fun d => ceilDiv_eq_ceil d quantum hq, ?_⟩
  obtain ⟨sfE, hreach, hinv, hr, hb, hlen, -, hrep⟩ :=
    loop_wrap_of processes quantum hv hq (rrStep quantum) (rrStepExact quantum) (Or.inr rfl)
      (rrStep_wrap quantum)
  refine ⟨{ trace := (wrapState sfE).trace, completions := (wrapState sfE).finished }, hrep, ?_⟩
  intro p hp
  have key : ∀ (pred : ExecutionStopReasonType → Bool) (f : List Burst → Int),
      BlockedStable f → Charges quantum pred f →
      (eventCount pred p (wrapState sfE).trace : Int) = f (processes.getD p []) := by
    intro pred f hf hc
    have h := reach_tally processes quantum hv hq pred f hf hc p hp sfE hreach
    rw [wrapState_trace, eventCount_wrap]
    simpa [tally, hr, hb, remF] using h
  have h1 := key _ _ (stable_sliceCount quantum) (charges_all quantum hq)
  have h2 := key _ _ stable_one (charges_completed quantum)
  have h3 := key _ _ stable_cpuCount (charges_enter_io quantum)
  have h4 := key _ _ (stable_expired quantum) (charges_expired quantum hq)
  have hvp : validProcess p (processes.getD p []) = true := by
    simp only [validInput, Bool.and_eq_true] at hv
    simpa using validFrom_getD processes 0 p hv.2 hp
  simp only [validProcess, Bool.and_eq_true, decide_eq_true_eq] at hvp
  have hcnt := altFrom_typeCount p _ bt.CPU hvp.1
  simp only [hvp.2, if_true, bt.flip] at hcnt
  have hio := typeCount_eq_countP bt.IO_ (processes.getD p [])
  simp only at h1 h2 h3 h4
  refine ⟨h1, by exact_mod_cast h2, ?_, ?_⟩
  · have : (eventCount (fun r => decide (r = ENTER_IO)) p (wrapState sfE).trace : Int)
        = ((processes.getD p []).countP (fun b => decide (b.burst_type = bt.IO_)) : Nat) := by
      rw [h3, ← hio]
      omega
    exact_mod_cast this
  · rw [h4, ← hio]
    omega

/-- The dispatch-count theorem at the example input with quantum 2: CPU bursts
5 and 2 give 3 + 1 events. -/
theorem round_robin_dispatch_count_witness :
    validInput exampleInput = true ∧ (0 : Int) < 2 ∧
      sliceCount 2 (exampleInput.getD 0 []) = 4 ∧
      ∃ out, round_robin 2 exampleInput = some out ∧
        ∀ p, p < exampleInput.length →
          (eventCount (fun _ => true) p out.trace : Int)
            = sliceCount 2 (exampleInput.getD p []) ∧
          eventCount (fun r => decide (r = COMPLETED)) p out.trace = 1 ∧
          eventCount (fun r => decide (r = ENTER_IO)) p out.trace
            = (exampleInput.getD p []).countP (fun b => decide (b.burst_type = bt.IO_)) ∧
          (eventCount (fun r => decide (r = QUANTUM_EXPIRED)) p out.trace : Int)
            = sliceCount 2 (exampleInput.getD p []) - 1
              - ((exampleInput.getD p []).countP
                  (fun b => decide (b.burst_type = bt.IO_)) : Nat) :=
  ⟨by decide, by decide, by decide,
    (round_robin_dispatch_count exampleInput 2 (by decide) (by decide)).2⟩

/-- C20, as stated, fails: on the two processes of one CPU burst `2000000000`
each, `fcfs` gives process 1 the completion time `-294967296` and the wait time
`2000000000`, not `4000000000` and `2000000000` as the claim has it, and the
time of its trace event is `-294967296`. -/
theorem fcfs_cpu_only_fails_on_overflow :
    (∀ d ∈ [(2000000000 : Int), 2000000000], 0 < d) ∧
    fcfs (cpuOnly 0 [2000000000, 2000000000]) = some
      { trace := [⟨0, 2000000000, 0, 2000000000, COMPLETED⟩,
          ⟨1, 2000000000, 0, -294967296, COMPLETED⟩]
        completions := [⟨0, 2000000000, 0⟩, ⟨1, -294967296, 2000000000⟩] } ∧
    fcfs (cpuOnly 0 [2000000000, 2000000000]) ≠ some
      { trace := [⟨0, 2000000000, 0, 2000000000, COMPLETED⟩,
          ⟨1, 2000000000, 0, 4000000000, COMPLETED⟩]
        completions := [⟨0, 2000000000, 0⟩, ⟨1, 4000000000, 2000000000⟩] } := by
  have hin : cpuOnly 0 [2000000000, 2000000000] = overflowTwo := by decide
  have hf : fcfs overflowTwo = some
      { trace := overflowTwoFinal.trace, completions := overflowTwoFinal.finished } := by
    unfold fcfs
    rw [fcfs_loop_overflowTwo]
    decide
  rw [hin, hf]
  exact ⟨by decide, by decide, by decide⟩

/-- C20 (amended). On the input whose `n` processes are the single CPU bursts
`ds`, all positive and adding up to at most `INT_MAX`, `fcfs` emits exactly `n`
trace events, one per process in input order, all with stop reason `completed`;
it completes the processes in input order, and the record of process `i` has
completion time `d_0 + ... + d_i` and wait time `d_0 + ... + d_(i-1)`. -/
theorem fcfs_cpu_only (ds : List Int) (hpos : ∀ d ∈ ds, 0 < d) (hfit : ds.sum ≤ INT_MAX) :
    fcfs (cpuOnly 0 ds) = some
      { trace := (List.range ds.length).map fun i =>
          ⟨i, ds.getD i 0, 0, (ds.take (i + 1)).sum, COMPLETED⟩
        completions := (List.range ds.length).map fun i =>
          ⟨i, (ds.take (i + 1)).sum, (ds.take i).sum⟩ } := by
  obtain ⟨t, ht, -, -, hfin, htr⟩ := runLoop_cpuOnly ds 0 (initState (cpuOnly 0 ds)) rfl rfl
    (by simp [initState, cpuOnly_length]) (by simp [initState, cpuOnly_length]) rfl
    (fun j _ => by simp [initState, getD_replicate_zero])
    (fun j => by simp [initState, getD_replicate_zero])
  have hfuel : ds.length ≤ loopFuel (cpuOnly 0 ds) := by
    have h := loopFuel_cpuOnly ds 0 hpos
    rw [loopFuel_eq]
    simp only [workLeft, initState, totalDur_nil, add_zero]
    omega
  obtain ⟨k, hk⟩ : ∃ k, loopFuel (cpuOnly 0 ds) = ds.length + k :=
    ⟨loopFuel (cpuOnly 0 ds) - ds.length, by omega⟩
  have hrunE := runLoop_mono fcfsStepExact _ _ _ ht k
  rw [← hk] at hrunE
  simp only [initState, List.nil_append, cpuOnlyRecords_eq, cpuOnlyTrace_eq, zero_add] at hfin htr
  have hmin : INT_MIN ≤ 0 := by decide
  have hw : ∀ x : Int, 0 ≤ x → x ≤ ds.sum → wrap32 x = x :=
    fun x h0 h1 => wrap32_of_range (by omega) (by omega)
  have hfinW : (wrapState t).finished = (List.range ds.length).map fun i =>
      ⟨i, (ds.take (i + 1)).sum, (ds.take i).sum⟩ := by
    rw [wrapState_finished, hfin, List.map_map]
    refine List.map_congr_left fun i _ => ?_
    have h1 := take_sum_bounds ds hpos (i + 1)
    have h2 := take_sum_bounds ds hpos i
    simp only [Function.comp, wrapRecord, hw _ h1.1 h1.2, hw _ h2.1 h2.2]
  have htrW : (wrapState t).trace = (List.range ds.length).map fun i =>
      ⟨i, ds.getD i 0, 0, (ds.take (i + 1)).sum, COMPLETED⟩ := by
    rw [wrapState_trace, htr, List.map_map]
    refine List.map_congr_left fun i _ => ?_
    have h1 := take_sum_bounds ds hpos (i + 1)
    have h2 := getD_sum_bounds ds hpos i
    simp only [Function.comp, wrapEvent, hw _ h1.1 h1.2, hw _ h2.1 h2.2, wrap32_zero]
  have hrun : fcfs_loop (cpuOnly 0 ds) = some (wrapState t) := by
    unfold fcfs_loop
    rw [runLoop_wrap_init _ fcfsStep fcfsStepExact fcfsStep_wrap, hrunE]
    rfl
  unfold fcfs
  rw [hrun]
  simp [report, hfinW, htrW, cpuOnly_length]

/-- The amended CPU-only theorem at three processes with bursts 3, 1 and 4. -/
theorem fcfs_cpu_only_witness :
    (∀ d ∈ [(3 : Int), 1, 4], 0 < d) ∧ ([(3 : Int), 1, 4]).sum ≤ INT_MAX ∧
      fcfs (cpuOnly 0 [3, 1, 4]) = some
        { trace := [⟨0, 3, 0, 3, COMPLETED⟩, ⟨1, 1, 0, 4, COMPLETED⟩, ⟨2, 4, 0, 8, COMPLETED⟩]
          completions := [⟨0, 3, 0⟩, ⟨1, 4, 3⟩, ⟨2, 8, 4⟩] } :=
  ⟨by decide, by decide, fcfs_cpu_only [3, 1, 4] (by decide) (by decide)⟩

end Scheduler
